import Mathlib

/-!
Verification of the incremental filtering, arrangement, selection and
navigation engine of the hierarchical folder-view widget implemented in
`indra/newview/llfolderview.cpp` and `indra/newview/llfolderviewitem.cpp`.

Each namespace below is a shallow embedding of one cluster of functions
from those two files.  C++ `S32` fields are modelled as `Int`, `F32`
fields as `ℚ`, `BOOL` as `Bool`, and pointers that may be `NULL` as
`Option`.  Side effects that belong to collaborators outside these two
files (font metrics, icon drawing, the background fetch of inventory
contents, the keyboard-focus manager) are either omitted or abstracted
into data fields; every such abstraction is noted in the doc comment of
the definition that makes it.
-/

/-! ## Id-to-node index lookup

Embedding of `LLFolderView::getItemByID` together with the `mItemMap`
index it reads (llfolderview.cpp:1986-2013). -/

namespace ItemLookup






/-- An `LLUUID` is modelled as a natural number; `0` plays the role of
the null UUID (`id.isNull()`). -/
def nullID : Nat := 0

/-- Embedding of `LLFolderView::getItemByID` (llfolderview.cpp:1997-2013).
`root` stands for the folder view itself (`this`, returned for the null
id), `itemMap` is the id-to-node index `mItemMap` as an association
list, and node references are an abstract type `α`.  A failed map
lookup yields `none` (the C++ `NULL`). -/
def getItemByID (root : α) (itemMap : List (Nat × α)) (id : Nat) : Option α :=
  if id = nullID then
    some root
  else
    match itemMap.lookup id with
    | some itemp => some itemp
    | none => none

/-- C10: looking a node up by id at the TreeRoot returns the TreeRoot
itself when the id is the null id; for every non-null id it returns the
node recorded in the id-to-node index if one is present, and null
otherwise. -/
theorem getItemByID_spec (root : α) (m : List (Nat × α)) (id : Nat) :
    getItemByID root m id =
      if id = nullID then some root else m.lookup id := by
  by_cases h : id = nullID
  · simp [getItemByID, h]
  · simp only [getItemByID, if_neg h]
    cases m.lookup id <;> rfl

end ItemLookup

/-! ## Batch removal of the selection

Embedding of the batch-collection phase of
`LLFolderView::removeSelectedItems` (llfolderview.cpp:1013-1115) and of
the recursive removability test `LLFolderViewItem::isRemovable` /
`LLFolderViewFolder::isRemovable` (llfolderviewitem.cpp:500-510 and
1879-1909). -/

namespace RemoveBatch

mutual
/-- A folder-view node carrying the `isItemRemovable` capability flag
reported by its listener.  `item` is a leaf `LLFolderViewItem`;
`folder` is an `LLFolderViewFolder` with its children (the C++ keeps
sub-folders and leaf items in two separate lists scanned in sequence;
for the conjunction computed by `isRemovable` a single child list is
equivalent).  The mutual list type keeps all recursion structural. -/
inductive RNode where
  | item (id : Nat) (removable : Bool)
  | folder (id : Nat) (removable : Bool) (kids : RForest)
  deriving DecidableEq
inductive RForest where
  | nil
  | cons (head : RNode) (tail : RForest)
  deriving DecidableEq
end

/-- Identity of a node (the pointer in the C++, used by the
`Cannot delete <name>` report). -/
def RNode.nodeId : RNode → Nat
  | .item id _ => id
  | .folder id _ _ => id

mutual
/-- Embedding of `LLFolderViewItem::isRemovable`
(llfolderviewitem.cpp:500-510) and `LLFolderViewFolder::isRemovable`
(llfolderviewitem.cpp:1879-1909): a leaf is removable iff its listener
says so; a folder is removable iff its listener says so and every child
item and child folder is recursively removable. -/
def isRemovable : RNode → Bool
  | .item _ r => r
  | .folder _ r kids => r && allRemovable kids

/-- The two child loops of `LLFolderViewFolder::isRemovable`. -/
def allRemovable : RForest → Bool
  | .nil => true
  | .cons k ks => isRemovable k && allRemovable ks
end

/-- Outcome of `removeSelectedItems`: `removed` lists the node ids
handed to the listener removal interface (`removeItem` for a single
item, `removeBatch` for several); `blocker` is the node whose failing
`isRemovable()` check aborted the call (the node named by the
`Cannot delete` log line), if any. -/
structure RemoveResult where
  removed : List Nat
  blocker : Option Nat
  deriving DecidableEq

/-- The collection loop of `LLFolderView::removeSelectedItems`
(llfolderview.cpp:1027-1040): walk the selection in order, collecting
removable nodes into the temporary `items` vector; the first node that
fails `isRemovable()` makes the whole call return at once. -/
def collectBatch : List RNode → Except Nat (List RNode)
  | [] => .ok []
  | n :: rest =>
    if isRemovable n then
      match collectBatch rest with
      | .ok items => .ok (n :: items)
      | .error e => .error e
    else
      .error n.nodeId

/-- Embedding of `LLFolderView::removeSelectedItems`
(llfolderview.cpp:1013-1115).  An empty selection returns immediately
(line 1025).  Otherwise the collection loop either aborts on the first
non-removable node -- before any removal request is issued -- or hands
the whole batch to the listener removal interface.  The re-selection of
a neighbouring node and the `arrangeAll`/`scrollToShowSelection`
repaint calls only matter after a successful removal and are not part
of the abort behaviour modelled here. -/
def removeSelectedItems (sel : List RNode) : RemoveResult :=
  if sel.length = 0 then
    { removed := [], blocker := none }
  else
    match collectBatch sel with
    | .error b => { removed := [], blocker := some b }
    | .ok items => { removed := items.map RNode.nodeId, blocker := none }

/-- On a selection containing a non-removable node, `collectBatch`
reports the id of the first such node. -/
theorem collectBatch_error_of_blocked (sel : List RNode)
    (h : ∃ n ∈ sel, isRemovable n = false) :
    ∃ b ∈ sel, isRemovable b = false ∧ collectBatch sel = .error b.nodeId := by
  induction sel with
  | nil => simp at h
  | cons n rest ih =>
    by_cases hn : isRemovable n
    · obtain ⟨m, hm, hmr⟩ := h
      rcases List.mem_cons.mp hm with rfl | hm'
      · exact absurd hn (by simp [hmr])
      · obtain ⟨b, hb, hbr, hbe⟩ := ih ⟨m, hm', hmr⟩
        refine ⟨b, List.mem_cons_of_mem _ hb, hbr, ?_⟩
        simp [collectBatch, hn, hbe]
    · exact ⟨n, List.mem_cons_self n rest, Bool.eq_false_iff.mpr hn,
        by simp [collectBatch, hn]⟩

/-- C9: if any node in the current selection is not removable,
`removeSelectedItems` aborts the whole batch before requesting any
removal: nothing at all is handed to the removal interface (so the tree
and the selection are untouched by the call), and a non-removable node
of the selection is reported as the blocker. -/
theorem removeSelectedItems_aborts (sel : List RNode)
    (h : ∃ n ∈ sel, isRemovable n = false) :
    (removeSelectedItems sel).removed = [] ∧
    ∃ b ∈ sel, isRemovable b = false ∧
      (removeSelectedItems sel).blocker = some b.nodeId := by
  obtain ⟨b, hb, hbr, hbe⟩ := collectBatch_error_of_blocked sel h
  have hne : sel.length ≠ 0 := by
    cases sel with
    | nil => simp at hb
    | cons x xs => simp
  constructor
  · simp [removeSelectedItems, hne, hbe]
  · exact ⟨b, hb, hbr, by simp [removeSelectedItems, hne, hbe]⟩

/-- Concrete witness for C9: a two-element selection whose second node
is not removable is aborted with that node reported. -/
theorem removeSelectedItems_aborts_witness :
    (∃ n ∈ [RNode.item 1 true, RNode.item 2 false], isRemovable n = false) ∧
    (removeSelectedItems [RNode.item 1 true, RNode.item 2 false]).removed = [] ∧
    ∃ b ∈ [RNode.item 1 true, RNode.item 2 false], isRemovable b = false ∧
      (removeSelectedItems [RNode.item 1 true, RNode.item 2 false]).blocker =
        some b.nodeId := by
  refine ⟨⟨RNode.item 2 false, by decide⟩, ?_⟩
  exact removeSelectedItems_aborts _ ⟨RNode.item 2 false, by decide⟩

end RemoveBatch

/-! ## Generational filtering

Embedding of `LLFolderViewItem::filter`, `LLFolderViewItem::getFiltered`,
`LLFolderViewItem::setFiltered`, `LLFolderViewFolder::filter`,
`LLFolderViewFolder::hasFilteredDescendants` and
`LLFolderViewFolder::setCompletedFilterGeneration`
(llfolderviewitem.cpp:204-218, 383-405, 1197-1359). -/

namespace Filtering

/-- The per-node cached filter verdict: `mPassedFilter` and
`mLastFilterGeneration` (llfolderviewitem.cpp:108-109), together with a
node identity (the C++ object pointer) used to record which nodes the
leaf-level check ran on. -/
structure NodeSt where
  id : Nat
  passedFilter : Bool
  lastFilterGen : Int
  deriving DecidableEq, Repr

/-- The generation counters of the `LLInventoryFilter` collaborator:
`getCurrentGeneration()`, `getMustPassGeneration()`,
`getMinRequiredGeneration()`.  The per-frame budget
(`getFilterCount()`) is threaded separately because it mutates during a
pass. -/
structure FilterGen where
  currentGen : Int
  mustPassGen : Int
  minRequiredGen : Int
  deriving DecidableEq, Repr

mutual
/-- A folder subtree: the folder's own verdict state, its
`mCompletedFilterGeneration` and `mMostFilteredDescendantGeneration`
fields (llfolderviewitem.cpp:1022-1023), its sub-folders (`mFolders`)
and its leaf items (`mItems`). -/
inductive FTree where
  | mk (self : NodeSt) (completedGen mostFilteredGen : Int)
       (subf : FForest) (its : List NodeSt)
inductive FForest where
  | nil
  | cons (head : FTree) (tail : FForest)
end

def FTree.self : FTree → NodeSt
  | .mk s _ _ _ _ => s

def FTree.completedGen : FTree → Int
  | .mk _ c _ _ _ => c

def FTree.mostFilteredGen : FTree → Int
  | .mk _ _ m _ _ => m

def FTree.subf : FTree → FForest
  | .mk _ _ _ sf _ => sf

def FTree.its : FTree → List NodeSt
  | .mk _ _ _ _ i => i

def FForest.length : FForest → Nat
  | .nil => 0
  | .cons _ tl => tl.length + 1

/-- `LLFolderViewItem::getFiltered(S32 filter_generation)`
(llfolderviewitem.cpp:209-212). -/
def getFiltered (g : Int) (n : NodeSt) : Bool :=
  n.passedFilter && decide (g ≤ n.lastFilterGen)

/-- `LLFolderViewFolder::hasFilteredDescendants(S32)`: the cached marker
`mMostFilteredDescendantGeneration >= filter_generation`. -/
def hasFilteredDescendants (g : Int) (t : FTree) : Bool :=
  decide (g ≤ t.mostFilteredGen)

/-- Embedding of `LLFolderViewItem::filter`
(llfolderviewitem.cpp:383-405): run the leaf-level check
(`filter.check(this)`), stamp the verdict with the current generation
(`setFiltered`), and decrement the per-frame budget
(`decrementFilterCount`).  The `requestArrange` geometry side effect,
the string-match offset and the debug status text are not filter state
and are omitted.  The returned list records the id the check ran on
(the instrumented call count of the spec). -/
def NodeSt.filter (check : Nat → Bool) (g : FilterGen) (n : NodeSt) (budget : Int) :
    NodeSt × Int × List Nat :=
  ({ n with passedFilter := check n.id, lastFilterGen := g.currentGen },
   budget - 1, [n.id])

/-- Result of the self-test part of `LLFolderViewFolder::filter`. -/
structure SelfOut where
  self : NodeSt
  budget : Int
  checked : List Nat

/-- The self-test of `LLFolderViewFolder::filter`
(llfolderviewitem.cpp:1225-1238): a folder not yet stamped at the
current generation is either flagged done without re-testing -- when it
already failed a filter at or above the must-pass generation -- or run
through the leaf-level check. -/
def selfStep (check : Nat → Bool) (g : FilterGen) (self : NodeSt) (budget : Int) :
    SelfOut :=
  if self.lastFilterGen < g.currentGen then
    if g.mustPassGen ≤ self.lastFilterGen ∧ self.passedFilter = false then
      { self := { self with lastFilterGen := g.currentGen }, budget := budget, checked := [] }
    else
      let r := NodeSt.filter check g self budget
      { self := r.1, budget := r.2.1, checked := r.2.2 }
  else
    { self := self, budget := budget, checked := [] }

/-- Result of one `LLFolderViewFolder::filter` call: the updated
subtree, the remaining per-frame budget, the ids the leaf-level check
ran on, and how many of the folder's own sub-folders and items the two
child loops reached before stopping (instrumentation for the
budget-exhaustion claim). -/
structure FilterOut where
  tree : FTree
  budget : Int
  checked : List Nat
  foldersProcessed : Nat
  itemsProcessed : Nat

/-- Result of the sub-folder loop of `LLFolderViewFolder::filter`. -/
structure FoldersOut where
  subf : FForest
  mostGen : Int
  budget : Int
  checked : List Nat
  processed : Nat

/-- Result of the item loop of `LLFolderViewFolder::filter`. -/
structure ItemsOut where
  its : List NodeSt
  mostGen : Int
  budget : Int
  checked : List Nat
  processed : Nat

/-- The item loop of `LLFolderViewFolder::filter`
(llfolderviewitem.cpp:1316-1349): per item, stop on an exhausted budget;
skip an item already stamped at the current generation (recording it in
`mMostFilteredDescendantGeneration` if it currently passes); stamp an
item failed without re-testing when it failed a filter at or above the
must-pass generation; otherwise run the leaf-level check. -/
def filterItemsLoop (check : Nat → Bool) (g : FilterGen) :
    List NodeSt → Int → Int → ItemsOut
  | [], mostGen, budget =>
    { its := [], mostGen := mostGen, budget := budget, checked := [], processed := 0 }
  | it :: rest, mostGen, budget =>
    if budget < 0 then
      { its := it :: rest, mostGen := mostGen, budget := budget,
        checked := [], processed := 0 }
    else if g.currentGen ≤ it.lastFilterGen then
      let mostGen' := if getFiltered g.minRequiredGen it then g.currentGen else mostGen
      let o := filterItemsLoop check g rest mostGen' budget
      { o with its := it :: o.its, processed := o.processed + 1 }
    else if g.mustPassGen ≤ it.lastFilterGen ∧ getFiltered g.mustPassGen it = false then
      let it' := { it with passedFilter := false, lastFilterGen := g.currentGen }
      let o := filterItemsLoop check g rest mostGen budget
      { o with its := it' :: o.its, processed := o.processed + 1 }
    else
      let (it', budget', checked') := NodeSt.filter check g it budget
      let mostGen' := if getFiltered g.minRequiredGen it' then g.currentGen else mostGen
      let o := filterItemsLoop check g rest mostGen' budget'
      { o with its := it' :: o.its, checked := checked' ++ o.checked,
               processed := o.processed + 1 }

mutual
/-- Embedding of `LLFolderViewFolder::filter`
(llfolderviewitem.cpp:1210-1359).  Omitted side effects that are not
filter state: the debug status text (1240-1245), the background fetch
request for matching folders (1263-1270), and the auto-select
`setOpenArrangeRecursively` calls on matching children (1293-1296,
1309-1312), which touch only the open/geometry state. -/
def FTree.filter (check : Nat → Bool) (g : FilterGen) :
    FTree → Int → FilterOut
  | t@(.mk self completedGen mostGen subfs items), budget =>
    -- skip out if already filtered against this generation (1219-1222)
    if g.currentGen ≤ completedGen then
      { tree := t, budget := budget, checked := [],
        foldersProcessed := 0, itemsProcessed := 0 }
    else
      -- filter folder itself (1225-1238)
      let s := selfStep check g self budget
      -- all descendants filtered since the must-pass generation but none
      -- passed: do not traverse children (1249-1254)
      if g.mustPassGen ≤ completedGen ∧ hasFilteredDescendants g.mustPassGen (.mk s.self completedGen mostGen subfs items) = false then
        { tree := .mk s.self completedGen mostGen subfs items, budget := s.budget,
          checked := s.checked, foldersProcessed := 0, itemsProcessed := 0 }
      -- no filter iterations left this frame (1258-1261)
      else if s.budget < 0 then
        { tree := .mk s.self completedGen mostGen subfs items, budget := s.budget,
          checked := s.checked, foldersProcessed := 0, itemsProcessed := 0 }
      else
        -- query children: sub-folders first (1273-1314), then items (1316-1349)
        let fo := FForest.filterLoop check g subfs mostGen s.budget
        let io := filterItemsLoop check g items fo.mostGen fo.budget
        -- a full pass over all descendants without exhausting the budget marks
        -- this folder complete for this generation (1354-1358); the setter
        -- also min-clamps the most-filtered-descendant marker (1197-1199)
        if 0 < io.budget then
          { tree := .mk s.self g.currentGen (min io.mostGen g.currentGen) fo.subf io.its,
            budget := io.budget, checked := s.checked ++ fo.checked ++ io.checked,
            foldersProcessed := fo.processed, itemsProcessed := io.processed }
        else
          { tree := .mk s.self completedGen io.mostGen fo.subf io.its,
            budget := io.budget, checked := s.checked ++ fo.checked ++ io.checked,
            foldersProcessed := fo.processed, itemsProcessed := io.processed }

/-- The sub-folder loop of `LLFolderViewFolder::filter`
(llfolderviewitem.cpp:1273-1314): per sub-folder, stop on an exhausted
budget; a sub-folder already complete for this generation is only
consulted for the most-filtered-descendant marker; otherwise recurse
into it and then consult the marker. -/
def FForest.filterLoop (check : Nat → Bool) (g : FilterGen) :
    FForest → Int → Int → FoldersOut
  | .nil, mostGen, budget =>
    { subf := .nil, mostGen := mostGen, budget := budget, checked := [], processed := 0 }
  | .cons f rest, mostGen, budget =>
    if budget < 0 then
      { subf := .cons f rest, mostGen := mostGen, budget := budget,
        checked := [], processed := 0 }
    else if g.currentGen ≤ f.completedGen then
      -- already filtered: only track the latest generation to pass (1287-1300);
      -- note the no-argument getFiltered() compares against the minimum
      -- required generation
      let mostGen' :=
        if getFiltered g.minRequiredGen f.self || hasFilteredDescendants g.minRequiredGen f then
          g.currentGen
        else mostGen
      let o := FForest.filterLoop check g rest mostGen' budget
      { o with subf := .cons f o.subf, processed := o.processed + 1 }
    else
      let fo := FTree.filter check g f budget
      -- track latest generation to pass any child items (1306-1313)
      let mostGen' :=
        if getFiltered g.minRequiredGen fo.tree.self || hasFilteredDescendants g.currentGen fo.tree then
          g.currentGen
        else mostGen
      let o := FForest.filterLoop check g rest mostGen' fo.budget
      { o with subf := .cons fo.tree o.subf, checked := fo.checked ++ o.checked,
               processed := o.processed + 1 }
end

mutual
/-- Every verdict-carrying node of a subtree, in a fixed traversal
order: the folder itself, then all nodes of its sub-folders, then its
items. -/
def FTree.allNodes : FTree → List NodeSt
  | .mk s _ _ subfs items => s :: (FForest.allNodes subfs ++ items)
def FForest.allNodes : FForest → List NodeSt
  | .nil => []
  | .cons f rest => f.allNodes ++ FForest.allNodes rest
end

mutual
/-- The `mCompletedFilterGeneration` fields of every folder of a
subtree. -/
def FTree.allCompleted : FTree → List Int
  | .mk _ c _ subfs _ => c :: FForest.allCompleted subfs
def FForest.allCompleted : FForest → List Int
  | .nil => []
  | .cons f rest => f.allCompleted ++ FForest.allCompleted rest
end

/-- A cached verdict that failed a filter at or above the must-pass
generation and has not yet been stamped at the (newer) current
generation: the premise of the monotonic-failure shortcut. -/
def FailedAt (g : FilterGen) (n : NodeSt) : Prop :=
  g.mustPassGen ≤ n.lastFilterGen ∧ n.passedFilter = false ∧
    n.lastFilterGen < g.currentGen

instance (g : FilterGen) (n : NodeSt) : Decidable (FailedAt g n) :=
  inferInstanceAs (Decidable (_ ∧ _ ∧ _))

/-- The state a node is left in by the monotonic-failure shortcut:
stamped at the current generation with its failed verdict untouched. -/
def stampFailed (g : FilterGen) (n : NodeSt) : NodeSt :=
  { n with lastFilterGen := g.currentGen }

theorem selfStep_budget (check : Nat → Bool) (g : FilterGen) (self : NodeSt)
    (budget : Int) :
    budget - 1 ≤ (selfStep check g self budget).budget ∧
    (selfStep check g self budget).budget ≤ budget := by
  unfold selfStep NodeSt.filter
  split_ifs <;> simp <;> omega

theorem selfStep_failed (check : Nat → Bool) (g : FilterGen) (self : NodeSt)
    (budget : Int) (h : FailedAt g self) :
    (selfStep check g self budget).self = stampFailed g self := by
  obtain ⟨h1, h2, h3⟩ := h
  unfold selfStep
  rw [if_pos h3, if_pos ⟨h1, h2⟩]
  rfl

theorem selfStep_checked (check : Nat → Bool) (g : FilterGen) (self : NodeSt)
    (budget : Int) :
    ∀ i ∈ (selfStep check g self budget).checked, self.id = i ∧ ¬ FailedAt g self := by
  unfold selfStep NodeSt.filter
  split_ifs with h1 h2
  · simp
  · intro i hi
    simp only [List.mem_singleton] at hi
    exact ⟨hi.symm, fun ⟨a, b, _⟩ => h2 ⟨a, b⟩⟩
  · simp

theorem filterItemsLoop_spec (check : Nat → Bool) (g : FilterGen) :
    ∀ (l : List NodeSt) (mg budget : Int),
      (filterItemsLoop check g l mg budget).budget ≤ budget ∧
      (0 < (filterItemsLoop check g l mg budget).budget →
        (filterItemsLoop check g l mg budget).processed = l.length) := by
  intro l
  induction l with
  | nil => intro mg budget; simp [filterItemsLoop]
  | cons it rest ih =>
    intro mg budget
    by_cases h0 : budget < 0
    · simp only [filterItemsLoop, if_pos h0]
      exact ⟨le_refl _, fun h => absurd h (by omega)⟩
    · by_cases h1 : g.currentGen ≤ it.lastFilterGen
      · simp only [filterItemsLoop, if_neg h0, if_pos h1]
        obtain ⟨hb, hp⟩ := ih _ budget
        exact ⟨hb, fun h => by simp [hp h]⟩
      · by_cases h2 : g.mustPassGen ≤ it.lastFilterGen ∧ getFiltered g.mustPassGen it = false
        · simp only [filterItemsLoop, if_neg h0, if_neg h1, if_pos h2]
          obtain ⟨hb, hp⟩ := ih mg budget
          exact ⟨hb, fun h => by simp [hp h]⟩
        · simp only [filterItemsLoop, if_neg h0, if_neg h1, if_neg h2, NodeSt.filter]
          obtain ⟨hb, hp⟩ := ih (if getFiltered g.minRequiredGen
              { it with passedFilter := check it.id, lastFilterGen := g.currentGen } then
              g.currentGen else mg) (budget - 1)
          exact ⟨by omega, fun h => by simp [hp h]⟩

theorem filterItemsLoop_strong (check : Nat → Bool) (g : FilterGen) :
    ∀ (l : List NodeSt) (mg budget : Int), (l.length : Int) ≤ budget →
      budget - l.length ≤ (filterItemsLoop check g l mg budget).budget ∧
      List.Forall₂ (fun n n' => FailedAt g n → n' = stampFailed g n) l
        (filterItemsLoop check g l mg budget).its := by
  intro l
  induction l with
  | nil => intro mg budget _; simp [filterItemsLoop]
  | cons it rest ih =>
    intro mg budget hbud
    have h0 : ¬ budget < 0 := by
      have : (0 : Int) ≤ (rest.length + 1 : Nat) := Int.ofNat_nonneg _
      simp only [List.length_cons] at hbud; omega
    by_cases h1 : g.currentGen ≤ it.lastFilterGen
    · simp only [filterItemsLoop, if_neg h0, if_pos h1]
      obtain ⟨hb, hf⟩ := ih (if getFiltered g.minRequiredGen it then g.currentGen else mg)
        budget (by simp at hbud ⊢; omega)
      refine ⟨by simp only [List.length_cons]; push_cast; push_cast at hb; omega, ?_⟩
      exact List.Forall₂.cons (fun hfail => absurd hfail.2.2 (by omega)) hf
    · by_cases h2 : g.mustPassGen ≤ it.lastFilterGen ∧ getFiltered g.mustPassGen it = false
      · simp only [filterItemsLoop, if_neg h0, if_neg h1, if_pos h2]
        obtain ⟨hb, hf⟩ := ih mg budget (by simp at hbud ⊢; omega)
        refine ⟨by simp only [List.length_cons]; push_cast; push_cast at hb; omega, ?_⟩
        refine List.Forall₂.cons (fun hfail => ?_) hf
        obtain ⟨_, hpf, _⟩ := hfail
        cases it
        simp only [stampFailed]
        simp_all
      · simp only [filterItemsLoop, if_neg h0, if_neg h1, if_neg h2, NodeSt.filter]
        obtain ⟨hb, hf⟩ := ih (if getFiltered g.minRequiredGen
            { it with passedFilter := check it.id, lastFilterGen := g.currentGen } then
            g.currentGen else mg) (budget - 1) (by simp at hbud ⊢; omega)
        refine ⟨by simp only [List.length_cons]; push_cast; push_cast at hb; omega, ?_⟩
        refine List.Forall₂.cons (fun hfail => ?_) hf
        obtain ⟨ha, hpf, hc⟩ := hfail
        exact (h2 ⟨ha, by simp [getFiltered, hpf]⟩).elim

theorem filterItemsLoop_checked (check : Nat → Bool) (g : FilterGen) :
    ∀ (l : List NodeSt) (mg budget : Int),
      ∀ i ∈ (filterItemsLoop check g l mg budget).checked,
        ∃ n ∈ l, n.id = i ∧ ¬ FailedAt g n := by
  intro l
  induction l with
  | nil => intro mg budget; simp [filterItemsLoop]
  | cons it rest ih =>
    intro mg budget i hi
    by_cases h0 : budget < 0
    · simp [filterItemsLoop, h0] at hi
    · by_cases h1 : g.currentGen ≤ it.lastFilterGen
      · simp only [filterItemsLoop, if_neg h0, if_pos h1] at hi
        obtain ⟨n, hn, hni⟩ := ih _ budget i hi
        exact ⟨n, List.mem_cons_of_mem _ hn, hni⟩
      · by_cases h2 : g.mustPassGen ≤ it.lastFilterGen ∧ getFiltered g.mustPassGen it = false
        · simp only [filterItemsLoop, if_neg h0, if_neg h1, if_pos h2] at hi
          obtain ⟨n, hn, hni⟩ := ih mg budget i hi
          exact ⟨n, List.mem_cons_of_mem _ hn, hni⟩
        · simp only [filterItemsLoop, if_neg h0, if_neg h1, if_neg h2, NodeSt.filter,
            List.cons_append, List.nil_append, List.mem_cons] at hi
          rcases hi with rfl | hi
          · refine ⟨it, List.mem_cons_self _ _, rfl, fun hfail => ?_⟩
            obtain ⟨ha, hpf, hc⟩ := hfail
            exact h2 ⟨ha, by simp [getFiltered, hpf]⟩
          · obtain ⟨n, hn, hni⟩ := ih _ (budget - 1) i hi
            exact ⟨n, List.mem_cons_of_mem _ hn, hni⟩

/-- The completed-filter generation of a folder is among the
completed-filter generations of its subtree. -/
theorem FTree.completedGen_mem_allCompleted (t : FTree) :
    t.completedGen ∈ t.allCompleted := by
  cases t with
  | mk s c m subfs items => simp [FTree.allCompleted, FTree.completedGen]

mutual
/-- A filter pass never increases the remaining per-frame budget. -/
theorem FTree.filter_budget_le (check : Nat → Bool) (g : FilterGen) :
    ∀ (t : FTree) (budget : Int), (FTree.filter check g t budget).budget ≤ budget
  | .mk self c m subfs items, budget => by
    obtain ⟨hs1, hs2⟩ := selfStep_budget check g self budget
    have hfo := FForest.filterLoop_budget_le check g subfs m
      (selfStep check g self budget).budget
    have hio := (filterItemsLoop_spec check g items
      (FForest.filterLoop check g subfs m (selfStep check g self budget).budget).mostGen
      (FForest.filterLoop check g subfs m (selfStep check g self budget).budget).budget).1
    simp only [FTree.filter]
    split_ifs <;> simp <;> omega

/-- The sub-folder loop never increases the remaining budget. -/
theorem FForest.filterLoop_budget_le (check : Nat → Bool) (g : FilterGen) :
    ∀ (l : FForest) (mg budget : Int),
      (FForest.filterLoop check g l mg budget).budget ≤ budget
  | .nil, mg, budget => by simp [FForest.filterLoop]
  | .cons f rest, mg, budget => by
    simp only [FForest.filterLoop]
    split_ifs <;> simp <;>
      first
        | exact FForest.filterLoop_budget_le check g rest _ budget
        | exact le_trans (FForest.filterLoop_budget_le check g rest _ _)
            (FTree.filter_budget_le check g f budget)
end

/-- If the sub-folder loop finishes with budget remaining, it reached
every sub-folder (no `break` was taken). -/
theorem FForest.filterLoop_processed (check : Nat → Bool) (g : FilterGen) :
    ∀ (l : FForest) (mg budget : Int),
      0 < (FForest.filterLoop check g l mg budget).budget →
      (FForest.filterLoop check g l mg budget).processed = l.length
  | .nil, mg, budget => by
    intro _; simp [FForest.filterLoop, FForest.length]
  | .cons f rest, mg, budget => by
    intro hpos
    by_cases h0 : budget < 0
    · simp only [FForest.filterLoop, if_pos h0] at hpos ⊢
      omega
    · by_cases h1 : g.currentGen ≤ f.completedGen
      · simp only [FForest.filterLoop, if_neg h0, if_pos h1] at hpos ⊢
        simp only [FForest.length]
        rw [FForest.filterLoop_processed check g rest _ budget hpos]
      · simp only [FForest.filterLoop, if_neg h0, if_neg h1] at hpos ⊢
        simp only [FForest.length]
        rw [FForest.filterLoop_processed check g rest _ _ hpos]

mutual
/-- Core induction for the monotonic-failure claim: with enough budget
for the whole subtree, and no folder of the subtree already carrying a
completed-filter generation at or above the must-pass generation (the
state right after the filter criteria changed), a filter pass stamps
every failed node of the subtree at the current generation without
changing its verdict, and spends at most one budget unit per node. -/
theorem FTree.filter_strong (check : Nat → Bool) (g : FilterGen)
    (hmp : g.mustPassGen ≤ g.currentGen) :
    ∀ (t : FTree) (budget : Int),
      (∀ x ∈ t.allCompleted, x < g.mustPassGen) →
      (t.allNodes.length : Int) ≤ budget →
      budget - t.allNodes.length ≤ (FTree.filter check g t budget).budget ∧
      List.Forall₂ (fun n n' => FailedAt g n → n' = stampFailed g n)
        t.allNodes (FTree.filter check g t budget).tree.allNodes
  | .mk self c m subfs items, budget => by
    intro hc hbud
    have hc0 : c < g.mustPassGen := hc c (by simp [FTree.allCompleted])
    have hskip : ¬ g.currentGen ≤ c := by omega
    have hbud' : ((FForest.allNodes subfs).length : Int) + items.length + 1 ≤ budget := by
      simp only [FTree.allNodes, List.length_cons, List.length_append] at hbud
      push_cast at hbud ⊢
      omega
    obtain ⟨hs1, hs2⟩ := selfStep_budget check g self budget
    have hearly : ¬ (g.mustPassGen ≤ c ∧ hasFilteredDescendants g.mustPassGen
        (FTree.mk (selfStep check g self budget).self c m subfs items) = false) :=
      fun h => absurd h.1 (by omega)
    have hnb : ¬ (selfStep check g self budget).budget < 0 := by omega
    obtain ⟨hfb, hff⟩ := FForest.filterLoop_strong check g hmp subfs m
      (selfStep check g self budget).budget
      (fun x hx => hc x (by simp [FTree.allCompleted]; exact Or.inr hx))
      (by omega)
    obtain ⟨hib, hif⟩ := filterItemsLoop_strong check g items
      (FForest.filterLoop check g subfs m (selfStep check g self budget).budget).mostGen
      (FForest.filterLoop check g subfs m (selfStep check g self budget).budget).budget
      (by omega)
    simp only [FTree.filter, if_neg hskip, if_neg hearly, if_neg hnb]
    have hrel : List.Forall₂ (fun n n' => FailedAt g n → n' = stampFailed g n)
        ((FTree.mk self c m subfs items).allNodes)
        ((selfStep check g self budget).self ::
          ((FForest.filterLoop check g subfs m (selfStep check g self budget).budget).subf.allNodes ++
           (filterItemsLoop check g items
             (FForest.filterLoop check g subfs m (selfStep check g self budget).budget).mostGen
             (FForest.filterLoop check g subfs m (selfStep check g self budget).budget).budget).its)) := by
      simp only [FTree.allNodes]
      exact List.Forall₂.cons (fun h => selfStep_failed check g self budget h)
        (List.rel_append hff hif)
    refine ⟨?_, ?_⟩
    · split_ifs with hdone <;>
        · simp only [FTree.allNodes, List.length_cons, List.length_append]
          push_cast
          omega
    · split_ifs with hdone <;> simpa [FTree.allNodes] using hrel

/-- Forest version of `FTree.filter_strong`, for the sub-folder loop. -/
theorem FForest.filterLoop_strong (check : Nat → Bool) (g : FilterGen)
    (hmp : g.mustPassGen ≤ g.currentGen) :
    ∀ (l : FForest) (mg budget : Int),
      (∀ x ∈ FForest.allCompleted l, x < g.mustPassGen) →
      ((FForest.allNodes l).length : Int) ≤ budget →
      budget - (FForest.allNodes l).length ≤ (FForest.filterLoop check g l mg budget).budget ∧
      List.Forall₂ (fun n n' => FailedAt g n → n' = stampFailed g n)
        (FForest.allNodes l) ((FForest.filterLoop check g l mg budget).subf.allNodes)
  | .nil, mg, budget => by
    intro _ _
    simp [FForest.filterLoop, FForest.allNodes]
  | .cons f rest, mg, budget => by
    intro hc hbud
    have hlen : ((FForest.allNodes (.cons f rest)).length : Int)
        = (f.allNodes.length : Int) + (FForest.allNodes rest).length := by
      simp [FForest.allNodes]
    have h0 : ¬ budget < 0 := by rw [hlen] at hbud; omega
    have hskipf : ¬ g.currentGen ≤ f.completedGen := by
      have := hc f.completedGen
        (by simp only [FForest.allCompleted, List.mem_append]
            exact Or.inl (FTree.completedGen_mem_allCompleted f))
      omega
    obtain ⟨hfb, hff⟩ := FTree.filter_strong check g hmp f budget
      (fun x hx => hc x (by simp only [FForest.allCompleted, List.mem_append]; exact Or.inl hx))
      (by rw [hlen] at hbud; omega)
    have hflen : ((FTree.filter check g f budget).tree.allNodes).length = f.allNodes.length :=
      (List.Forall₂.length_eq hff).symm
    obtain ⟨hrb, hrf⟩ := FForest.filterLoop_strong check g hmp rest
      (if getFiltered g.minRequiredGen (FTree.filter check g f budget).tree.self ||
          hasFilteredDescendants g.currentGen (FTree.filter check g f budget).tree then
        g.currentGen else mg)
      (FTree.filter check g f budget).budget
      (fun x hx => hc x (by simp only [FForest.allCompleted, List.mem_append]; exact Or.inr hx))
      (by rw [hlen] at hbud; omega)
    simp only [FForest.filterLoop, if_neg h0, if_neg hskipf]
    rw [hlen] at hbud ⊢
    constructor
    · omega
    · simp only [FForest.allNodes]
      exact List.rel_append hff hrf
end

mutual
/-- The leaf-level check runs only on nodes that do not satisfy the
monotonic-failure premise: every id it was invoked on belongs to a node
of the input subtree that was not in the failed-at-or-above-must-pass
state. -/
theorem FTree.filter_checked (check : Nat → Bool) (g : FilterGen) :
    ∀ (t : FTree) (budget : Int),
      ∀ i ∈ (FTree.filter check g t budget).checked,
        ∃ n ∈ t.allNodes, n.id = i ∧ ¬ FailedAt g n
  | .mk self c m subfs items, budget => by
    intro i hi
    by_cases h0 : g.currentGen ≤ c
    · simp [FTree.filter, h0] at hi
    · simp only [FTree.filter, if_neg h0] at hi
      split_ifs at hi with h1 h2 h3 <;>
        simp only [List.mem_append] at hi
      case pos =>
        obtain ⟨hid, hnf⟩ := selfStep_checked check g self budget i hi
        refine ⟨self, ?_, hid, hnf⟩
        simp [FTree.allNodes]
      case pos =>
        obtain ⟨hid, hnf⟩ := selfStep_checked check g self budget i hi
        refine ⟨self, ?_, hid, hnf⟩
        simp [FTree.allNodes]
      all_goals
        rcases hi with (hs | hf) | hii
        · obtain ⟨hid, hnf⟩ := selfStep_checked check g self budget i hs
          refine ⟨self, ?_, hid, hnf⟩
          simp [FTree.allNodes]
        · obtain ⟨n, hn, hni⟩ := FForest.filterLoop_checked check g subfs m
            (selfStep check g self budget).budget i hf
          refine ⟨n, ?_, hni⟩
          simp only [FTree.allNodes, List.mem_cons, List.mem_append]
          exact Or.inr (Or.inl hn)
        · obtain ⟨n, hn, hni⟩ := filterItemsLoop_checked check g items _ _ i hii
          refine ⟨n, ?_, hni⟩
          simp only [FTree.allNodes, List.mem_cons, List.mem_append]
          exact Or.inr (Or.inr hn)

/-- Forest version of `FTree.filter_checked`. -/
theorem FForest.filterLoop_checked (check : Nat → Bool) (g : FilterGen) :
    ∀ (l : FForest) (mg budget : Int),
      ∀ i ∈ (FForest.filterLoop check g l mg budget).checked,
        ∃ n ∈ FForest.allNodes l, n.id = i ∧ ¬ FailedAt g n
  | .nil, mg, budget => by
    intro i hi
    simp [FForest.filterLoop] at hi
  | .cons f rest, mg, budget => by
    intro i hi
    by_cases h0 : budget < 0
    · simp [FForest.filterLoop, h0] at hi
    · by_cases h1 : g.currentGen ≤ f.completedGen
      · simp only [FForest.filterLoop, if_neg h0, if_pos h1] at hi
        obtain ⟨n, hn, hni⟩ := FForest.filterLoop_checked check g rest _ budget i hi
        exact ⟨n, by simp only [FForest.allNodes, List.mem_append]; exact Or.inr hn, hni⟩
      · simp only [FForest.filterLoop, if_neg h0, if_neg h1, List.mem_append] at hi
        rcases hi with hi | hi
        · obtain ⟨n, hn, hni⟩ := FTree.filter_checked check g f budget i hi
          exact ⟨n, by simp only [FForest.allNodes, List.mem_append]; exact Or.inl hn, hni⟩
        · obtain ⟨n, hn, hni⟩ := FForest.filterLoop_checked check g rest _
            (FTree.filter check g f budget).budget i hi
          exact ⟨n, by simp only [FForest.allNodes, List.mem_append]; exact Or.inr hn, hni⟩
end

/-- C1: for every node (folder or leaf item) whose cached filter
verdict is failed at a generation at or above the filter's must-pass
generation, a filter pass at a newer current generation marks the node
failed for the new generation (same failed verdict, stamped at the
current generation) without re-running the leaf-level filter check on
it.  The hypotheses state that the pass reaches every node: the
criteria only tightened (`mustPassGen ≤ currentGen`), no folder of the
subtree already carries a completed pass at or above the must-pass
generation (the state `dirtyFilter` leaves behind when criteria
change), and the per-frame budget covers the whole subtree. -/
theorem filter_monotonic_failure (check : Nat → Bool) (g : FilterGen)
    (t : FTree) (budget : Int)
    (hmp : g.mustPassGen ≤ g.currentGen)
    (hc : ∀ x ∈ t.allCompleted, x < g.mustPassGen)
    (hbud : (t.allNodes.length : Int) ≤ budget) :
    List.Forall₂ (fun n n' => FailedAt g n → n' = stampFailed g n)
      t.allNodes (FTree.filter check g t budget).tree.allNodes ∧
    ∀ i ∈ (FTree.filter check g t budget).checked,
      ∃ n ∈ t.allNodes, n.id = i ∧ ¬ FailedAt g n :=
  ⟨(FTree.filter_strong check g hmp t budget hc hbud).2,
   FTree.filter_checked check g t budget⟩

/-- Concrete filter generations for the C1/C2 witnesses. -/
def witGen : FilterGen :=
  { currentGen := 5, mustPassGen := 2, minRequiredGen := 2 }

/-- Concrete tree for the C1/C2 witnesses: a folder that failed at
generation 3, one sub-folder that passed at generation 0 holding an
item that failed at generation 2, and a direct item that failed at
generation 4. -/
def witTree : FTree :=
  .mk { id := 0, passedFilter := false, lastFilterGen := 3 } 0 (-1)
    (.cons (.mk { id := 1, passedFilter := true, lastFilterGen := 0 } 0 (-1) .nil
      [{ id := 2, passedFilter := false, lastFilterGen := 2 }]) .nil)
    [{ id := 3, passedFilter := false, lastFilterGen := 4 }]

/-- Concrete witness for C1: on `witTree`, with budget 10, the pass
stamps every failed node at generation 5 without checking it. -/
theorem filter_monotonic_failure_witness :
    (∀ x ∈ witTree.allCompleted, x < witGen.mustPassGen) ∧
    ((witTree.allNodes.length : Int) ≤ 10) ∧
    (List.Forall₂ (fun n n' => FailedAt witGen n → n' = stampFailed witGen n)
       witTree.allNodes
       (FTree.filter (fun _ => true) witGen witTree 10).tree.allNodes ∧
     ∀ i ∈ (FTree.filter (fun _ => true) witGen witTree 10).checked,
       ∃ n ∈ witTree.allNodes, n.id = i ∧ ¬ FailedAt witGen n) :=
  ⟨by decide, by decide,
   filter_monotonic_failure (fun _ => true) witGen witTree 10
     (by decide) (by decide) (by decide)⟩

/-- C2: a filter pass sets a folder's `completedFilterGeneration` to
the current generation only when the traversal reached every child
folder and every child item and finished with per-frame budget
remaining; in every other case -- in particular whenever the budget is
exhausted -- the completed generation keeps its old value, below the
current generation, so the traversal resumes on a later cycle and the
folder is never marked falsely complete. -/
theorem filter_completion (check : Nat → Bool) (g : FilterGen) (t : FTree)
    (budget : Int) (hlt : t.completedGen < g.currentGen) :
    ((FTree.filter check g t budget).tree.completedGen = t.completedGen ∨
      ((FTree.filter check g t budget).tree.completedGen = g.currentGen ∧
       0 < (FTree.filter check g t budget).budget ∧
       (FTree.filter check g t budget).foldersProcessed = t.subf.length ∧
       (FTree.filter check g t budget).itemsProcessed = t.its.length)) ∧
    ((FTree.filter check g t budget).budget ≤ 0 →
      (FTree.filter check g t budget).tree.completedGen = t.completedGen) := by
  cases t with
  | mk self c m subfs items =>
    simp only [FTree.completedGen] at hlt
    have hskip : ¬ g.currentGen ≤ c := by omega
    simp only [FTree.filter, if_neg hskip, FTree.completedGen, FTree.subf, FTree.its]
    split_ifs with h1 h2 h3
    · exact ⟨Or.inl rfl, fun _ => rfl⟩
    · exact ⟨Or.inl rfl, fun _ => rfl⟩
    · have hio := filterItemsLoop_spec check g items
        (FForest.filterLoop check g subfs m (selfStep check g self budget).budget).mostGen
        (FForest.filterLoop check g subfs m (selfStep check g self budget).budget).budget
      have hfo : 0 < (FForest.filterLoop check g subfs m
          (selfStep check g self budget).budget).budget := by
        have := hio.1
        omega
      refine ⟨Or.inr ⟨rfl, h3, ?_, ?_⟩, fun hb => absurd h3 (not_lt.mpr hb)⟩
      · exact FForest.filterLoop_processed check g subfs m
          (selfStep check g self budget).budget hfo
      · exact hio.2 h3
    · exact ⟨Or.inl rfl, fun _ => rfl⟩

/-- Concrete witness for C2: on `witTree` with ample budget the pass
completes (generation 5, budget remaining, both loops exhausted); the
theorem is applied at that input. -/
theorem filter_completion_witness :
    (witTree.completedGen < witGen.currentGen) ∧
    (((FTree.filter (fun _ => true) witGen witTree 10).tree.completedGen = witTree.completedGen ∨
       ((FTree.filter (fun _ => true) witGen witTree 10).tree.completedGen = witGen.currentGen ∧
        0 < (FTree.filter (fun _ => true) witGen witTree 10).budget ∧
        (FTree.filter (fun _ => true) witGen witTree 10).foldersProcessed = witTree.subf.length ∧
        (FTree.filter (fun _ => true) witGen witTree 10).itemsProcessed = witTree.its.length)) ∧
     ((FTree.filter (fun _ => true) witGen witTree 10).budget ≤ 0 →
       (FTree.filter (fun _ => true) witGen witTree 10).tree.completedGen = witTree.completedGen)) :=
  ⟨by decide, filter_completion (fun _ => true) witGen witTree 10 (by decide)⟩

end Filtering

/-! ## Arrangement (layout)

Embedding of `LLFolderViewFolder::arrange` (llfolderviewitem.cpp:1051-1190),
`LLFolderViewFolder::needsArrange` (1192-1195) and the TreeRoot override
`LLFolderView::arrange` (llfolderview.cpp:460-546).  The claims are
about one folder's pass over its children, so a child's own recursive
`arrange()` call is abstracted into data carried by the child summary:
the height and return value it reports and its `getItemHeight()`.
Label widths come from font metrics (an external collaborator), so the
width outputs (`*width`, `mLastCalculatedWidth`) are omitted. -/

namespace Arranging

/-- Summary of a child sub-folder as seen by its parent's `arrange`:
its filter verdict fields (read through `getFiltered` and
`hasFilteredDescendants`), its visibility flag and rectangle top (the
parts `arrange` mutates), its `getItemHeight()`, and the two values its
own recursive `arrange()` reports: `arrangeHeight` is the `*height`
output (the rounded animated height it reshaped itself to) and
`arrangeTarget` the return value (its rounded target height). -/
structure ChildF where
  passedFilter : Bool
  lastFilterGen : Int
  mostFilteredGen : Int
  visible : Bool
  rectTop : Int
  itemHeight : Int
  arrangeHeight : Int
  arrangeTarget : Int
  deriving DecidableEq, Repr

/-- Summary of a child leaf item: filter verdict fields, visibility
flag and rectangle bottom, and its `getItemHeight()` (which is both the
`*height` its `arrange()` reports and the height it is reshaped to). -/
structure ChildI where
  passedFilter : Bool
  lastFilterGen : Int
  visible : Bool
  rectBottom : Int
  height : Int
  deriving DecidableEq, Repr

/-- `getFiltered(filter_generation)` for a child folder. -/
def ChildF.getFiltered (g : Int) (f : ChildF) : Bool :=
  f.passedFilter && decide (g ≤ f.lastFilterGen)

/-- `hasFilteredDescendants(filter_generation)` for a child folder. -/
def ChildF.hasFilteredDescendants (g : Int) (f : ChildF) : Bool :=
  decide (g ≤ f.mostFilteredGen)

/-- `getFiltered(filter_generation)` for a child item. -/
def ChildI.getFiltered (g : Int) (i : ChildI) : Bool :=
  i.passedFilter && decide (g ≤ i.lastFilterGen)

/-- Context a folder's `arrange` reads from the root and the filter:
`getDebugFilters()`, whether `getShowFolderState()` equals
`SHOW_ALL_FOLDERS`, the filter generation passed down, the root's
arrange generation, the `MAX_FOLDER_ITEM_OVERLAP` allowance (a header
constant, not in the two source files), and this frame's
`LLCriticalDamp::getInterpolant` value for the open/close time
constant (external frame timer; a damping factor in the open
interval from 0 to 1). -/
structure ArrCtx where
  debugFilters : Bool
  showAllFolders : Bool
  filterGen : Int
  arrangeGen : Int
  overlap : Int
  interpolant : ℚ
  deriving DecidableEq, Repr

/-- The mutable state of one folder that `arrange` touches:
`mIsOpen`, `mLastArrangeGeneration`, `mCurHeight`, `mTargetHeight`,
its own rectangle height, its `getItemHeight()`, its
`mMostFilteredDescendantGeneration` (read for `mHasVisibleChildren`),
the `mHasVisibleChildren` flag, and its child lists. -/
structure ArrFolder where
  isOpen : Bool
  lastArrangeGen : Int
  curHeight : ℚ
  targetHeight : ℚ
  rectHeight : Int
  itemHeight : Int
  mostFilteredGen : Int
  hasVisibleChildren : Bool
  subf : List ChildF
  items : List ChildI
  deriving DecidableEq, Repr

/-- `llround` on the nonnegative heights used here: round to nearest,
halves up. -/
def llroundQ (x : ℚ) : Int := Rat.floor (x + 1 / 2)

/-- The library `llabs`. -/
def llabsQ (x : ℚ) : ℚ := if x < 0 then -x else x

/-- The library `llmax`: `(a > b) ? a : b`. -/
def llmaxQ (a b : ℚ) : ℚ := if b < a then a else b

theorem llabsQ_eq_abs (x : ℚ) : llabsQ x = |x| := by
  unfold llabsQ
  split_ifs with h
  · exact (abs_of_neg h).symm
  · exact (abs_of_nonneg (not_lt.mp h)).symm

theorem llmaxQ_eq_max (a b : ℚ) : llmaxQ a b = max a b := by
  unfold llmaxQ
  split_ifs with h
  · exact (max_eq_left (le_of_lt h)).symm
  · exact (max_eq_right (not_lt.mp h)).symm

/-- The library `lerp`: `a + (b - a) * u`. -/
def lerp (a b u : ℚ) : ℚ := a + (b - a) * u

/-- `LLFolderViewFolder::needsArrange` (llfolderviewitem.cpp:1192-1195). -/
def needsArrange (ctx : ArrCtx) (st : ArrFolder) : Prop :=
  st.lastArrangeGen < ctx.arrangeGen

instance (ctx : ArrCtx) (st : ArrFolder) : Decidable (needsArrange ctx st) :=
  inferInstanceAs (Decidable (_ < _))

/-- The visibility rule `arrange` applies to a child sub-folder
(llfolderviewitem.cpp:1082-1090): visible in debug mode, under the
show-all-folders policy, when it passed the filter at this generation,
or when a descendant did. -/
def folderVisRule (ctx : ArrCtx) (f : ChildF) : Bool :=
  if ctx.debugFilters then true
  else ctx.showAllFolders ||
    (ChildF.getFiltered ctx.filterGen f || ChildF.hasFilteredDescendants ctx.filterGen f)

/-- The visibility rule `arrange` applies to a child item
(llfolderviewitem.cpp:1109-1116): visible in debug mode or when it
passed the filter at this generation. -/
def itemVisRule (ctx : ArrCtx) (i : ChildI) : Bool :=
  if ctx.debugFilters then true else ChildI.getFiltered ctx.filterGen i

/-- The sub-folder pass of the layout loop
(llfolderviewitem.cpp:1079-1104): set each child folder's visibility by
the rule; lay out the visible ones top-down, accumulating the running
height (the child's reported height) and the target height (the
child's reported target), and setting the child's rectangle top to
`parent_item_height - llround(running_height)`. -/
def layoutFolders (ctx : ArrCtx) (parentHeight : Int) :
    List ChildF → ℚ → ℚ → List ChildF × ℚ × ℚ
  | [], running, target => ([], running, target)
  | f :: rest, running, target =>
    let vis := folderVisRule ctx f
    if vis then
      let childTop := parentHeight - llroundQ running
      let r := layoutFolders ctx parentHeight rest
        (running + (f.arrangeHeight : ℚ)) (target + (f.arrangeTarget : ℚ))
      ({ f with visible := true, rectTop := childTop } :: r.1, r.2.1, r.2.2)
    else
      let r := layoutFolders ctx parentHeight rest running target
      ({ f with visible := false } :: r.1, r.2.1, r.2.2)

/-- The item pass of the layout loop (llfolderviewitem.cpp:1105-1132):
set each child item's visibility by the rule; lay out the visible
ones, reshaping each to its item height, so its rectangle bottom
becomes `child_top - height`. -/
def layoutItems (ctx : ArrCtx) (parentHeight : Int) :
    List ChildI → ℚ → ℚ → List ChildI × ℚ × ℚ
  | [], running, target => ([], running, target)
  | i :: rest, running, target =>
    let vis := itemVisRule ctx i
    if vis then
      let childTop := parentHeight - llroundQ running
      let r := layoutItems ctx parentHeight rest
        (running + (i.height : ℚ)) (target + (i.height : ℚ))
      ({ i with visible := true, rectBottom := childTop - i.height } :: r.1, r.2.1, r.2.2)
    else
      let r := layoutItems ctx parentHeight rest running target
      ({ i with visible := false } :: r.1, r.2.1, r.2.2)

/-- Result of one `LLFolderViewFolder::arrange` call: the new folder
state, the `*height` output, the return value, and whether the call
invoked `requestArrange()` (the geometry is not settled yet). -/
structure ArrOut where
  st : ArrFolder
  heightOut : Int
  ret : Int
  requested : Bool
  deriving DecidableEq, Repr

/-- Embedding of `LLFolderViewFolder::arrange`
(llfolderviewitem.cpp:1051-1190) for one folder.  Steps: refresh
`mHasVisibleChildren` (1053); clamp the animated height to at least the
single-item height (1061); when this folder needs arranging, stamp its
arrange generation and, if open, lay out the children folders-first,
then store the accumulated target height (1069-1138); animate the
current height toward the target, re-requesting arrangement and hiding
children that fall outside the animated height plus the overlap
allowance while the two differ by more than one unit, or snap exactly
to the target (1145-1181); finally reshape to the rounded animated
height and report it (1184-1189).  `requestArrange` also resets the
parent chain, which has no effect inside this single-folder state. -/
def arrange (ctx : ArrCtx) (st : ArrFolder) : ArrOut :=
  let hasVis := decide (ctx.filterGen ≤ st.mostFilteredGen)
  let cur0 : ℚ := llmaxQ (st.itemHeight : ℚ) st.curHeight
  let lay :=
    if needsArrange ctx st then
      if st.isOpen then
        let rf := layoutFolders ctx st.rectHeight st.subf
          (st.itemHeight : ℚ) (st.itemHeight : ℚ)
        let ri := layoutItems ctx st.rectHeight st.items rf.2.1 rf.2.2
        (rf.1, ri.1, ri.2.2, ctx.arrangeGen)
      else
        (st.subf, st.items, (st.itemHeight : ℚ), ctx.arrangeGen)
    else
      (st.subf, st.items, st.targetHeight, st.lastArrangeGen)
  let subf1 := lay.1
  let items1 := lay.2.1
  let target1 := lay.2.2.1
  let lastGen1 := lay.2.2.2
  if 1 < llabsQ (cur0 - target1) then
    let cur1 := lerp cur0 target1 ctx.interpolant
    let subf2 := subf1.map fun f =>
      if llroundQ cur1 + ctx.overlap < st.rectHeight - f.rectTop + f.itemHeight then
        { f with visible := false } else f
    let items2 := items1.map fun i =>
      if llroundQ cur1 + ctx.overlap < st.rectHeight - i.rectBottom then
        { i with visible := false } else i
    ⟨{ st with
        lastArrangeGen := -1,
        curHeight := cur1,
        targetHeight := target1,
        rectHeight := llroundQ cur1,
        hasVisibleChildren := hasVis,
        subf := subf2,
        items := items2 },
     llroundQ cur1, llroundQ target1, true⟩
  else
    ⟨{ st with
        lastArrangeGen := lastGen1,
        curHeight := target1,
        targetHeight := target1,
        rectHeight := llroundQ target1,
        hasVisibleChildren := hasVis,
        subf := subf1,
        items := items1 },
     llroundQ target1, llroundQ target1, false⟩

/-- State the TreeRoot's `arrange` reads and mutates
(llfolderview.cpp:460-546): the filter's minimum required generation
that overrides the passed filter generation (464), the debug and
folder-show policies, the root rectangle height, the running-height
start used in debug mode (the small font's line height, an external
metric), and the child lists.  The scroll-container width
reconciliation (531-542) involves only widths and the external scroll
container and is omitted. -/
structure RootSt where
  minReqGen : Int
  debugFilters : Bool
  showAllFolders : Bool
  rectHeight : Int
  debugLineHeight : Int
  subf : List ChildF
  items : List ChildI
  deriving DecidableEq, Repr

/-- The visibility rule the TreeRoot's `arrange` applies to a child
folder (llfolderview.cpp:484-492): visible in debug mode, under the
show-all-folders policy, when it passed the filter at the minimum
required generation, or when a descendant did. -/
def rootFolderVisRule (st : RootSt) (f : ChildF) : Bool :=
  if st.debugFilters then true
  else st.showAllFolders ||
    (ChildF.getFiltered st.minReqGen f || ChildF.hasFilteredDescendants st.minReqGen f)

/-- The visibility rule the TreeRoot's `arrange` applies to a child
item (llfolderview.cpp:513): just `getFiltered` -- unlike inside
folders, the debug mode is not consulted here. -/
def rootItemVisRule (st : RootSt) (i : ChildI) : Bool :=
  ChildI.getFiltered st.minReqGen i

/-- The sub-folder loop of `LLFolderView::arrange`
(llfolderview.cpp:479-506): the same visibility rule as inside folders
(debug, show-all-folders, passed, or descendant passed), with integer
running height. -/
def rootLayoutFolders (st : RootSt) : List ChildF → Int → List ChildF × Int
  | [], running => ([], running)
  | f :: rest, running =>
    let vis := rootFolderVisRule st f
    if vis then
      let childTop := st.rectHeight - running
      let r := rootLayoutFolders st rest (running + f.arrangeHeight)
      ({ f with visible := true, rectTop := childTop } :: r.1, r.2)
    else
      let r := rootLayoutFolders st rest running
      ({ f with visible := false } :: r.1, r.2)

/-- The item loop of `LLFolderView::arrange` (llfolderview.cpp:508-529):
`itemp->setVisible(itemp->getFiltered(filter_generation))` -- the debug
mode is not consulted for the TreeRoot's own items. -/
def rootLayoutItems (st : RootSt) : List ChildI → Int → List ChildI × Int
  | [], running => ([], running)
  | i :: rest, running =>
    let vis := rootItemVisRule st i
    if vis then
      let childTop := st.rectHeight - running
      let r := rootLayoutItems st rest (running + i.height)
      ({ i with visible := true, rectBottom := childTop - i.height } :: r.1, r.2)
    else
      let r := rootLayoutItems st rest running
      ({ i with visible := false } :: r.1, r.2)

/-- Embedding of `LLFolderView::arrange` (llfolderview.cpp:460-546),
restricted to the child visibility flags and vertical geometry: the
filter generation is overridden with the minimum required generation
(464), the running height starts at the debug status line height in
debug mode (475), folders are laid out before items, and there is no
height animation at the root. -/
def rootArrange (st : RootSt) : RootSt :=
  let run0 : Int := if st.debugFilters then st.debugLineHeight else 0
  let rf := rootLayoutFolders st st.subf run0
  let ri := rootLayoutItems st st.items rf.2
  { st with subf := rf.1, items := ri.1 }

/-- Clamp of the animated height to the single-item height
(llfolderviewitem.cpp:1061). -/
def clampedCur (st : ArrFolder) : ℚ := llmaxQ (st.itemHeight : ℚ) st.curHeight

/-- The target height an `arrange` call ends up with: recomputed over
the children when the folder needs arranging (just the item height when
closed), kept otherwise (llfolderviewitem.cpp:1064-1143). -/
def layoutTarget (ctx : ArrCtx) (st : ArrFolder) : ℚ :=
  if needsArrange ctx st then
    if st.isOpen then
      (layoutItems ctx st.rectHeight st.items
        (layoutFolders ctx st.rectHeight st.subf (st.itemHeight : ℚ) (st.itemHeight : ℚ)).2.1
        (layoutFolders ctx st.rectHeight st.subf (st.itemHeight : ℚ) (st.itemHeight : ℚ)).2.2).2.2
    else (st.itemHeight : ℚ)
  else st.targetHeight

theorem arrange_split (ctx : ArrCtx) (st : ArrFolder) :
    (arrange ctx st).requested = decide (1 < llabsQ (clampedCur st - layoutTarget ctx st)) ∧
    (arrange ctx st).st.targetHeight = layoutTarget ctx st ∧
    (arrange ctx st).st.curHeight =
      (if 1 < llabsQ (clampedCur st - layoutTarget ctx st) then
        lerp (clampedCur st) (layoutTarget ctx st) ctx.interpolant
      else layoutTarget ctx st) := by
  by_cases hn : needsArrange ctx st
  · by_cases ho : st.isOpen = true
    · simp only [arrange, layoutTarget, clampedCur, if_pos hn, if_pos ho]
      split_ifs with ha <;> simp [ha]
    · simp only [arrange, layoutTarget, clampedCur, if_pos hn, if_neg ho]
      split_ifs with ha <;> simp [ha]
  · simp only [arrange, layoutTarget, clampedCur, if_neg hn]
    split_ifs with ha <;> simp [ha]

/-- The visibility flags assigned by the sub-folder layout pass follow
the folder visibility rule. -/
theorem layoutFolders_vis (ctx : ArrCtx) (ph : Int) :
    ∀ (l : List ChildF) (r t : ℚ),
      List.Forall₂ (fun f f' => f'.visible = folderVisRule ctx f) l
        (layoutFolders ctx ph l r t).1 := by
  intro l
  induction l with
  | nil => intro r t; simp [layoutFolders]
  | cons f rest ih =>
    intro r t
    by_cases hv : folderVisRule ctx f <;>
      simp only [layoutFolders, hv, if_true, if_false] <;>
      exact List.Forall₂.cons (by simp [hv]) (ih _ _)

/-- The visibility flags assigned by the item layout pass follow the
item visibility rule. -/
theorem layoutItems_vis (ctx : ArrCtx) (ph : Int) :
    ∀ (l : List ChildI) (r t : ℚ),
      List.Forall₂ (fun i i' => i'.visible = itemVisRule ctx i) l
        (layoutItems ctx ph l r t).1 := by
  intro l
  induction l with
  | nil => intro r t; simp [layoutItems]
  | cons i rest ih =>
    intro r t
    by_cases hv : itemVisRule ctx i <;>
      simp only [layoutItems, hv, if_true, if_false] <;>
      exact List.Forall₂.cons (by simp [hv]) (ih _ _)

/-- Root sub-folder loop: flags follow the rule with debug mode,
show-all-folders, passed, or descendant-passed. -/
theorem rootLayoutFolders_vis (st : RootSt) :
    ∀ (l : List ChildF) (running : Int),
      List.Forall₂ (fun f f' => f'.visible = rootFolderVisRule st f) l
        (rootLayoutFolders st l running).1 := by
  intro l
  induction l with
  | nil => intro running; simp [rootLayoutFolders]
  | cons f rest ih =>
    intro running
    by_cases hv : rootFolderVisRule st f <;>
      simp only [rootLayoutFolders, hv, if_true, if_false] <;>
      exact List.Forall₂.cons (by simp [hv]) (ih _)

/-- Root item loop: flags are exactly `getFiltered`, the debug mode is
not consulted. -/
theorem rootLayoutItems_vis (st : RootSt) :
    ∀ (l : List ChildI) (running : Int),
      List.Forall₂ (fun i i' => i'.visible = rootItemVisRule st i) l
        (rootLayoutItems st l running).1 := by
  intro l
  induction l with
  | nil => intro running; simp [rootLayoutItems]
  | cons i rest ih =>
    intro running
    by_cases hv : rootItemVisRule st i <;>
      simp only [rootLayoutItems, hv, if_true, if_false] <;>
      exact List.Forall₂.cons (by simp [hv]) (ih _)

/-- In the settled (non-animating) branch, the children an `arrange`
call leaves behind are exactly the freshly laid-out lists. -/
theorem arrange_children_of_settled (ctx : ArrCtx) (fst : ArrFolder)
    (hn : needsArrange ctx fst) (ho : fst.isOpen = true)
    (ha : ¬ 1 < llabsQ (clampedCur fst - layoutTarget ctx fst)) :
    (arrange ctx fst).st.subf =
      (layoutFolders ctx fst.rectHeight fst.subf (fst.itemHeight : ℚ) (fst.itemHeight : ℚ)).1 ∧
    (arrange ctx fst).st.items =
      (layoutItems ctx fst.rectHeight fst.items
        (layoutFolders ctx fst.rectHeight fst.subf (fst.itemHeight : ℚ) (fst.itemHeight : ℚ)).2.1
        (layoutFolders ctx fst.rectHeight fst.subf (fst.itemHeight : ℚ) (fst.itemHeight : ℚ)).2.2).1 := by
  simp only [clampedCur, layoutTarget, if_pos hn, if_pos ho] at ha
  simp only [arrange, if_pos hn, if_pos ho, if_neg ha]
  constructor <;> first | rfl | trivial

/-- C3 (amended): child visibility flags are assigned exactly by the
code's visibility rules.  At the TreeRoot, child folders follow the
debug-mode / show-all-folders / passed-filter / descendant-passed rule,
but child items are visible iff they passed the filter at the
generation -- the debug mode is not consulted for items directly under
the TreeRoot.  Inside an open non-root folder that needs arranging and
whose animated height is settled (the call does not re-request
arrangement), child folders and child items follow the full rules,
debug mode included. -/
theorem arrange_visibility (st : RootSt) (ctx : ArrCtx) (fst : ArrFolder) :
    (List.Forall₂ (fun f f' => f'.visible = rootFolderVisRule st f)
       st.subf (rootArrange st).subf ∧
     List.Forall₂ (fun i i' => i'.visible = rootItemVisRule st i)
       st.items (rootArrange st).items) ∧
    (needsArrange ctx fst → fst.isOpen = true → (arrange ctx fst).requested = false →
      List.Forall₂ (fun f f' => f'.visible = folderVisRule ctx f)
        fst.subf (arrange ctx fst).st.subf ∧
      List.Forall₂ (fun i i' => i'.visible = itemVisRule ctx i)
        fst.items (arrange ctx fst).st.items) := by
  refine ⟨⟨?_, ?_⟩, ?_⟩
  · simp only [rootArrange]
    exact rootLayoutFolders_vis st st.subf _
  · simp only [rootArrange]
    exact rootLayoutItems_vis st st.items _
  · intro hn ho hr
    by_cases ha : 1 < llabsQ (clampedCur fst - layoutTarget ctx fst)
    · rw [(arrange_split ctx fst).1] at hr
      simp [ha] at hr
    · obtain ⟨hsub, hits⟩ := arrange_children_of_settled ctx fst hn ho ha
      rw [hsub, hits]
      exact ⟨layoutFolders_vis ctx fst.rectHeight fst.subf _ _,
             layoutItems_vis ctx fst.rectHeight fst.items _ _⟩

/-- The TreeRoot state of the C3 counterexample: debug mode on, one
child item that has not passed the filter. -/
def cexRoot : RootSt :=
  { minReqGen := 0, debugFilters := true, showAllFolders := false,
    rectHeight := 100, debugLineHeight := 12, subf := [],
    items := [{ passedFilter := false, lastFilterGen := -1, visible := true,
                rectBottom := 0, height := 10 }] }

/-- C3 counterexample: the claim's rule says a child is visible
whenever debug show-everything mode is on, but after the TreeRoot's
arrange the failed item directly under the TreeRoot is invisible even
though debug mode is on -- the root's item loop never consults the
debug mode. -/
theorem arrange_visibility_counterexample :
    cexRoot.debugFilters = true ∧
    (cexRoot.items.map fun i =>
      cexRoot.debugFilters || ChildI.getFiltered cexRoot.minReqGen i) = [true] ∧
    ((rootArrange cexRoot).items.map ChildI.visible) = [false] := by
  refine ⟨rfl, by decide, by decide⟩

/-- Context for the C3/C4 witnesses. -/
def witCtx : ArrCtx :=
  { debugFilters := false, showAllFolders := false, filterGen := 0,
    arrangeGen := 1, overlap := 2, interpolant := 1 / 2 }

/-- Folder state for the C3 witness: open, needing arrangement, with a
settled height, one passing sub-folder and one failed item. -/
def witFolder : ArrFolder :=
  { isOpen := true, lastArrangeGen := -1, curHeight := 10, targetHeight := 0,
    rectHeight := 10, itemHeight := 10, mostFilteredGen := 0,
    hasVisibleChildren := false,
    subf := [{ passedFilter := true, lastFilterGen := 5, mostFilteredGen := -1,
               visible := false, rectTop := 0, itemHeight := 10,
               arrangeHeight := 0, arrangeTarget := 0 }],
    items := [{ passedFilter := false, lastFilterGen := 5, visible := true,
                rectBottom := 0, height := 7 }] }

/-- Concrete witness for the amended C3, applying the theorem at a
concrete root state and a concrete settled open folder. -/
theorem arrange_visibility_witness :
    needsArrange witCtx witFolder ∧ witFolder.isOpen = true ∧
    (arrange witCtx witFolder).requested = false ∧
    (List.Forall₂ (fun f f' => f'.visible = folderVisRule witCtx f)
       witFolder.subf (arrange witCtx witFolder).st.subf ∧
     List.Forall₂ (fun i i' => i'.visible = itemVisRule witCtx i)
       witFolder.items (arrange witCtx witFolder).st.items) :=
  ⟨by decide, rfl,
   by
    rw [(arrange_split witCtx witFolder).1]
    norm_num [clampedCur, layoutTarget, needsArrange, witCtx, witFolder, llmaxQ, llabsQ,
      layoutFolders, layoutItems, folderVisRule, itemVisRule, ChildF.getFiltered,
      ChildI.getFiltered, ChildF.hasFilteredDescendants],
   (arrange_visibility cexRoot witCtx witFolder).2 (by decide) rfl
     (by
      rw [(arrange_split witCtx witFolder).1]
      norm_num [clampedCur, layoutTarget, needsArrange, witCtx, witFolder, llmaxQ, llabsQ,
        layoutFolders, layoutItems, folderVisRule, itemVisRule, ChildF.getFiltered,
        ChildI.getFiltered, ChildF.hasFilteredDescendants])⟩

/-- One update cycle for a folder: the state after one `arrange`
call. -/
def step (ctx : ArrCtx) (st : ArrFolder) : ArrFolder := (arrange ctx st).st

/-- The fields of a child sub-folder that `arrange` never changes
(everything except the visibility flag and the rectangle top). -/
def ChildF.key (f : ChildF) : Bool × Int × Int × Int × Int × Int :=
  (f.passedFilter, f.lastFilterGen, f.mostFilteredGen, f.itemHeight,
   f.arrangeHeight, f.arrangeTarget)

/-- The fields of a child item that `arrange` never changes. -/
def ChildI.key (i : ChildI) : Bool × Int × Int :=
  (i.passedFilter, i.lastFilterGen, i.height)

theorem ChildF.keyF_fields {f₁ f₂ : ChildF} (h : f₁.key = f₂.key) :
    f₁.passedFilter = f₂.passedFilter ∧ f₁.lastFilterGen = f₂.lastFilterGen ∧
    f₁.mostFilteredGen = f₂.mostFilteredGen ∧ f₁.itemHeight = f₂.itemHeight ∧
    f₁.arrangeHeight = f₂.arrangeHeight ∧ f₁.arrangeTarget = f₂.arrangeTarget := by
  simpa [ChildF.key, Prod.ext_iff] using h

theorem ChildI.keyI_fields {i₁ i₂ : ChildI} (h : i₁.key = i₂.key) :
    i₁.passedFilter = i₂.passedFilter ∧ i₁.lastFilterGen = i₂.lastFilterGen ∧
    i₁.height = i₂.height := by
  simpa [ChildI.key, Prod.ext_iff] using h

/-- The contribution of the sub-folders to the recomputed target
height: the reported target of every rule-visible sub-folder. -/
def foldersTargetSum (ctx : ArrCtx) : List ChildF → ℚ
  | [] => 0
  | f :: rest =>
    (if folderVisRule ctx f then (f.arrangeTarget : ℚ) else 0) + foldersTargetSum ctx rest

/-- The contribution of the items to the recomputed target height. -/
def itemsTargetSum (ctx : ArrCtx) : List ChildI → ℚ
  | [] => 0
  | i :: rest =>
    (if itemVisRule ctx i then (i.height : ℚ) else 0) + itemsTargetSum ctx rest

theorem layoutFolders_target (ctx : ArrCtx) (ph : Int) :
    ∀ (l : List ChildF) (r t : ℚ),
      (layoutFolders ctx ph l r t).2.2 = t + foldersTargetSum ctx l := by
  intro l
  induction l with
  | nil => intro r t; simp [layoutFolders, foldersTargetSum]
  | cons f rest ih =>
    intro r t
    by_cases hv : folderVisRule ctx f <;>
      simp [layoutFolders, hv, foldersTargetSum, ih] <;>
      ring

theorem layoutItems_target (ctx : ArrCtx) (ph : Int) :
    ∀ (l : List ChildI) (r t : ℚ),
      (layoutItems ctx ph l r t).2.2 = t + itemsTargetSum ctx l := by
  intro l
  induction l with
  | nil => intro r t; simp [layoutItems, itemsTargetSum]
  | cons i rest ih =>
    intro r t
    by_cases hv : itemVisRule ctx i <;>
      simp [layoutItems, hv, itemsTargetSum, ih] <;>
      ring

theorem layoutFolders_key (ctx : ArrCtx) (ph : Int) :
    ∀ (l : List ChildF) (r t : ℚ),
      ((layoutFolders ctx ph l r t).1).map ChildF.key = l.map ChildF.key := by
  intro l
  induction l with
  | nil => intro r t; simp [layoutFolders]
  | cons f rest ih =>
    intro r t
    by_cases hv : folderVisRule ctx f <;>
      simp [layoutFolders, hv, List.map_cons, ih, ChildF.key]

theorem layoutItems_key (ctx : ArrCtx) (ph : Int) :
    ∀ (l : List ChildI) (r t : ℚ),
      ((layoutItems ctx ph l r t).1).map ChildI.key = l.map ChildI.key := by
  intro l
  induction l with
  | nil => intro r t; simp [layoutItems]
  | cons i rest ih =>
    intro r t
    by_cases hv : itemVisRule ctx i <;>
      simp [layoutItems, hv, List.map_cons, ih, ChildI.key]

theorem map_key_of_pointwise {α β : Type} (key : α → β) (g : α → α)
    (hg : ∀ x, key (g x) = key x) :
    ∀ l : List α, (l.map g).map key = l.map key := by
  intro l
  induction l with
  | nil => rfl
  | cons x rest ih => simp [hg, ih]

/-- What the recomputed target height is, as a function of the fields
`arrange` never changes. -/
def targetOf (ctx : ArrCtx) (st : ArrFolder) : ℚ :=
  if st.isOpen then
    (st.itemHeight : ℚ) + foldersTargetSum ctx st.subf + itemsTargetSum ctx st.items
  else (st.itemHeight : ℚ)

theorem layoutTarget_of_needs (ctx : ArrCtx) (st : ArrFolder)
    (hn : needsArrange ctx st) : layoutTarget ctx st = targetOf ctx st := by
  unfold layoutTarget targetOf
  rw [if_pos hn]
  by_cases ho : st.isOpen = true
  · simp only [if_pos ho, layoutItems_target, layoutFolders_target]
    try ring
  · simp only [if_neg ho]

theorem arrange_key (ctx : ArrCtx) (st : ArrFolder) :
    (step ctx st).isOpen = st.isOpen ∧
    (step ctx st).itemHeight = st.itemHeight ∧
    ((step ctx st).subf).map ChildF.key = st.subf.map ChildF.key ∧
    ((step ctx st).items).map ChildI.key = st.items.map ChildI.key := by
  unfold step
  by_cases hn : needsArrange ctx st
  · by_cases ho : st.isOpen = true
    · simp only [arrange, if_pos hn, if_pos ho]
      split_ifs with ha <;> refine ⟨rfl, rfl, ?_, ?_⟩
      · rw [map_key_of_pointwise ChildF.key _ (fun f => by split_ifs <;> rfl)]
        exact layoutFolders_key ctx st.rectHeight st.subf _ _
      · rw [map_key_of_pointwise ChildI.key _ (fun i => by split_ifs <;> rfl)]
        exact layoutItems_key ctx st.rectHeight st.items _ _
      · exact layoutFolders_key ctx st.rectHeight st.subf _ _
      · exact layoutItems_key ctx st.rectHeight st.items _ _
    · simp only [arrange, if_pos hn, if_neg ho]
      split_ifs with ha <;> refine ⟨rfl, rfl, ?_, ?_⟩
      · exact map_key_of_pointwise ChildF.key _ (fun f => by split_ifs <;> rfl) st.subf
      · exact map_key_of_pointwise ChildI.key _ (fun i => by split_ifs <;> rfl) st.items
      · rfl
      · rfl
  · simp only [arrange, if_neg hn]
    split_ifs with ha <;> refine ⟨rfl, rfl, ?_, ?_⟩
    · exact map_key_of_pointwise ChildF.key _ (fun f => by split_ifs <;> rfl) st.subf
    · exact map_key_of_pointwise ChildI.key _ (fun i => by split_ifs <;> rfl) st.items
    · rfl
    · rfl

theorem foldersTargetSum_congr (ctx : ArrCtx) :
    ∀ l₁ l₂ : List ChildF, l₁.map ChildF.key = l₂.map ChildF.key →
      foldersTargetSum ctx l₁ = foldersTargetSum ctx l₂ := by
  intro l₁
  induction l₁ with
  | nil =>
    intro l₂ h
    cases l₂ with
    | nil => rfl
    | cons g r => simp at h
  | cons f rest ih =>
    intro l₂ h
    cases l₂ with
    | nil => simp at h
    | cons g rest₂ =>
      simp only [List.map_cons, List.cons.injEq] at h
      obtain ⟨hk, hr⟩ := h
      obtain ⟨h1, h2, h3, _, _, h6⟩ := ChildF.keyF_fields hk
      simp only [foldersTargetSum, ih rest₂ hr]
      have hrule : folderVisRule ctx f = folderVisRule ctx g := by
        simp [folderVisRule, ChildF.getFiltered, ChildF.hasFilteredDescendants, h1, h2, h3]
      rw [hrule, h6]

theorem itemsTargetSum_congr (ctx : ArrCtx) :
    ∀ l₁ l₂ : List ChildI, l₁.map ChildI.key = l₂.map ChildI.key →
      itemsTargetSum ctx l₁ = itemsTargetSum ctx l₂ := by
  intro l₁
  induction l₁ with
  | nil =>
    intro l₂ h
    cases l₂ with
    | nil => rfl
    | cons g r => simp at h
  | cons i rest ih =>
    intro l₂ h
    cases l₂ with
    | nil => simp at h
    | cons g rest₂ =>
      simp only [List.map_cons, List.cons.injEq] at h
      obtain ⟨hk, hr⟩ := h
      obtain ⟨h1, h2, h3⟩ := ChildI.keyI_fields hk
      simp only [itemsTargetSum, ih rest₂ hr]
      have hrule : itemVisRule ctx i = itemVisRule ctx g := by
        simp [itemVisRule, ChildI.getFiltered, h1, h2]
      rw [hrule, h3]

/-- The recomputed target height is invariant across update cycles:
an `arrange` call only changes visibility flags and geometry, never the
fields the target is computed from. -/
theorem targetOf_step (ctx : ArrCtx) (st : ArrFolder) :
    targetOf ctx (step ctx st) = targetOf ctx st := by
  obtain ⟨ho, hih, hsub, hit⟩ := arrange_key ctx st
  unfold targetOf
  rw [ho, hih, foldersTargetSum_congr ctx _ _ hsub, itemsTargetSum_congr ctx _ _ hit]

theorem layoutTarget_eq_of_inv (ctx : ArrCtx) (st : ArrFolder) (T : ℚ)
    (h1 : targetOf ctx st = T)
    (h2 : st.targetHeight = T ∨ needsArrange ctx st) :
    layoutTarget ctx st = T := by
  by_cases hn : needsArrange ctx st
  · rw [layoutTarget_of_needs ctx st hn, h1]
  · unfold layoutTarget
    rw [if_neg hn]
    rcases h2 with h | h
    · exact h
    · exact absurd h hn

theorem foldersTargetSum_nonneg (ctx : ArrCtx) (l : List ChildF)
    (h : ∀ f ∈ l, 0 ≤ f.arrangeTarget) : 0 ≤ foldersTargetSum ctx l := by
  induction l with
  | nil => simp [foldersTargetSum]
  | cons f rest ih =>
    simp only [foldersTargetSum]
    have h1 : (0 : ℚ) ≤ if folderVisRule ctx f then (f.arrangeTarget : ℚ) else 0 := by
      split_ifs
      · exact_mod_cast h f (List.mem_cons_self _ _)
      · exact le_refl 0
    have h2 := ih fun f hf => h f (List.mem_cons_of_mem _ hf)
    linarith

theorem itemsTargetSum_nonneg (ctx : ArrCtx) (l : List ChildI)
    (h : ∀ i ∈ l, 0 ≤ i.height) : 0 ≤ itemsTargetSum ctx l := by
  induction l with
  | nil => simp [itemsTargetSum]
  | cons i rest ih =>
    simp only [itemsTargetSum]
    have h1 : (0 : ℚ) ≤ if itemVisRule ctx i then (i.height : ℚ) else 0 := by
      split_ifs
      · exact_mod_cast h i (List.mem_cons_self _ _)
      · exact le_refl 0
    have h2 := ih fun i hi => h i (List.mem_cons_of_mem _ hi)
    linarith

theorem itemHeight_le_targetOf (ctx : ArrCtx) (st : ArrFolder)
    (hF : ∀ f ∈ st.subf, 0 ≤ f.arrangeTarget)
    (hI : ∀ i ∈ st.items, 0 ≤ i.height) :
    (st.itemHeight : ℚ) ≤ targetOf ctx st := by
  unfold targetOf
  split_ifs
  · have h1 := foldersTargetSum_nonneg ctx st.subf hF
    have h2 := itemsTargetSum_nonneg ctx st.items hI
    linarith
  · exact le_refl _

/-- The clamp to the single-item height never moves the animated
height away from a target at or above the item height. -/
theorem clamped_dist (st : ArrFolder) (T : ℚ) (hih : (st.itemHeight : ℚ) ≤ T) :
    |clampedCur st - T| ≤ |st.curHeight - T| := by
  unfold clampedCur
  rw [llmaxQ_eq_max]
  rcases le_total (st.itemHeight : ℚ) st.curHeight with h | h
  · rw [max_eq_right h]
  · rw [max_eq_left h, abs_of_nonpos (by linarith), abs_of_nonpos (by linarith)]
    linarith

/-- One animation step brings the animated height closer to the target
by at least the damping factor. -/
theorem step_dist (ctx : ArrCtx) (st : ArrFolder) (T : ℚ)
    (ht1 : ctx.interpolant < 1)
    (hT : layoutTarget ctx st = T) (hih : (st.itemHeight : ℚ) ≤ T) :
    |(step ctx st).curHeight - T| ≤ (1 - ctx.interpolant) * |st.curHeight - T| ∧
    (step ctx st).targetHeight = T := by
  obtain ⟨hreq, htgt, hcur⟩ := arrange_split ctx st
  rw [hT] at htgt hcur
  refine ⟨?_, htgt⟩
  show |(arrange ctx st).st.curHeight - T| ≤ _
  rw [hcur]
  by_cases ha : 1 < llabsQ (clampedCur st - T)
  · rw [if_pos ha]
    have hgl : lerp (clampedCur st) T ctx.interpolant - T =
        (clampedCur st - T) * (1 - ctx.interpolant) := by
      unfold lerp; ring
    rw [hgl, abs_mul, abs_of_pos (by linarith : (0:ℚ) < 1 - ctx.interpolant), mul_comm]
    exact mul_le_mul_of_nonneg_left (clamped_dist st T hih) (by linarith)
  · rw [if_neg ha]
    simp only [sub_self, abs_zero]
    exact mul_nonneg (by linarith) (abs_nonneg _)

/-- A settled call: the height snaps exactly to the target and no
re-arrangement is requested. -/
theorem step_snap (ctx : ArrCtx) (st : ArrFolder) (T : ℚ)
    (hT : layoutTarget ctx st = T)
    (ha : llabsQ (clampedCur st - T) ≤ 1) :
    (arrange ctx st).requested = false ∧
    (step ctx st).curHeight = T ∧ (step ctx st).targetHeight = T := by
  obtain ⟨hreq, htgt, hcur⟩ := arrange_split ctx st
  rw [hT] at hreq htgt hcur
  have hna : ¬ 1 < llabsQ (clampedCur st - T) := not_lt.mpr ha
  refine ⟨?_, ?_, htgt⟩
  · rw [hreq]
    simp [hna]
  · show (arrange ctx st).st.curHeight = T
    rw [hcur, if_neg hna]

theorem hideF_spec (bound rh : Int) (l : List ChildF) :
    ∀ f ∈ l.map (fun f =>
        if bound < rh - f.rectTop + f.itemHeight then { f with visible := false } else f),
      bound < rh - f.rectTop + f.itemHeight → f.visible = false := by
  intro f hf hb
  obtain ⟨g, hg, rfl⟩ := List.mem_map.mp hf
  by_cases hc : bound < rh - g.rectTop + g.itemHeight
  · simp [hc]
  · rw [if_neg hc] at hb ⊢
    exact absurd hb hc

theorem hideI_spec (bound rh : Int) (l : List ChildI) :
    ∀ i ∈ l.map (fun i =>
        if bound < rh - i.rectBottom then { i with visible := false } else i),
      bound < rh - i.rectBottom → i.visible = false := by
  intro i hi hb
  obtain ⟨g, hg, rfl⟩ := List.mem_map.mp hi
  by_cases hc : bound < rh - g.rectBottom
  · simp [hc]
  · rw [if_neg hc] at hb ⊢
    exact absurd hb hc

/-- While the animated height is more than one unit from the target,
an `arrange` call requests re-arrangement and hides every child whose
rectangle falls beyond the animated height plus the overlap
allowance. -/
theorem arrange_hides (ctx : ArrCtx) (st : ArrFolder)
    (ha : 1 < llabsQ (clampedCur st - layoutTarget ctx st)) :
    (arrange ctx st).requested = true ∧
    (∀ f ∈ (arrange ctx st).st.subf,
      llroundQ (arrange ctx st).st.curHeight + ctx.overlap <
        st.rectHeight - f.rectTop + f.itemHeight → f.visible = false) ∧
    (∀ i ∈ (arrange ctx st).st.items,
      llroundQ (arrange ctx st).st.curHeight + ctx.overlap <
        st.rectHeight - i.rectBottom → i.visible = false) := by
  refine ⟨by rw [(arrange_split ctx st).1]; simp [ha], ?_, ?_⟩
  all_goals
    by_cases hn : needsArrange ctx st
  case pos =>
    by_cases ho : st.isOpen = true
    · have ha' := ha
      simp only [clampedCur, layoutTarget, if_pos hn, if_pos ho] at ha'
      simp only [arrange, if_pos hn, if_pos ho, if_pos ha']
      exact hideF_spec _ _ _
    · have ha' := ha
      simp only [clampedCur, layoutTarget, if_pos hn, if_neg ho] at ha'
      simp only [arrange, if_pos hn, if_neg ho, if_pos ha']
      exact hideF_spec _ _ _
  case neg =>
    have ha' := ha
    simp only [clampedCur, layoutTarget, if_neg hn] at ha'
    simp only [arrange, if_neg hn, if_pos ha']
    exact hideF_spec _ _ _
  case pos =>
    by_cases ho : st.isOpen = true
    · have ha' := ha
      simp only [clampedCur, layoutTarget, if_pos hn, if_pos ho] at ha'
      simp only [arrange, if_pos hn, if_pos ho, if_pos ha']
      exact hideI_spec _ _ _
    · have ha' := ha
      simp only [clampedCur, layoutTarget, if_pos hn, if_neg ho] at ha'
      simp only [arrange, if_pos hn, if_neg ho, if_pos ha']
      exact hideI_spec _ _ _
  case neg =>
    have ha' := ha
    simp only [clampedCur, layoutTarget, if_neg hn] at ha'
    simp only [arrange, if_neg hn, if_pos ha']
    exact hideI_spec _ _ _

/-- Across update cycles the folder keeps recomputing the same target,
its item height never changes, and the distance from the animated
height to the target decays geometrically. -/
theorem iter_bound (ctx : ArrCtx) (st0 : ArrFolder)
    (ht1 : ctx.interpolant < 1)
    (hF : ∀ f ∈ st0.subf, 0 ≤ f.arrangeTarget)
    (hI : ∀ i ∈ st0.items, 0 ≤ i.height)
    (hneeds : needsArrange ctx st0) :
    ∀ n : ℕ,
      targetOf ctx ((step ctx)^[n + 1] st0) = targetOf ctx st0 ∧
      ((step ctx)^[n + 1] st0).targetHeight = targetOf ctx st0 ∧
      ((step ctx)^[n + 1] st0).itemHeight = st0.itemHeight ∧
      |((step ctx)^[n + 1] st0).curHeight - targetOf ctx st0| ≤
        (1 - ctx.interpolant) ^ n *
          |((step ctx)^[1] st0).curHeight - targetOf ctx st0| := by
  have hih0 : (st0.itemHeight : ℚ) ≤ targetOf ctx st0 :=
    itemHeight_le_targetOf ctx st0 hF hI
  intro n
  induction n with
  | zero =>
    simp only [Nat.zero_add, Function.iterate_one]
    refine ⟨targetOf_step ctx st0, ?_, (arrange_key ctx st0).2.1, ?_⟩
    · have := (arrange_split ctx st0).2.1
      rw [layoutTarget_of_needs ctx st0 hneeds] at this
      exact this
    · rw [pow_zero, one_mul]
  | succ k ihk =>
    obtain ⟨hto, hth, hihk, hdk⟩ := ihk
    have hTl : layoutTarget ctx ((step ctx)^[k + 1] st0) = targetOf ctx st0 :=
      layoutTarget_eq_of_inv ctx _ _ hto (Or.inl hth)
    have hihT : (((step ctx)^[k + 1] st0).itemHeight : ℚ) ≤ targetOf ctx st0 := by
      rw [hihk]; exact hih0
    obtain ⟨hdist, htgt⟩ := step_dist ctx ((step ctx)^[k + 1] st0) (targetOf ctx st0)
      ht1 hTl hihT
    have hiter : (step ctx)^[k + 1 + 1] st0 = step ctx ((step ctx)^[k + 1] st0) :=
      Function.iterate_succ_apply' (step ctx) (k + 1) st0
    refine ⟨?_, ?_, ?_, ?_⟩
    · rw [hiter, targetOf_step, hto]
    · rw [hiter]; exact htgt
    · rw [hiter, (arrange_key ctx _).2.1, hihk]
    · rw [hiter]
      calc |(step ctx ((step ctx)^[k + 1] st0)).curHeight - targetOf ctx st0|
          ≤ (1 - ctx.interpolant) *
              |((step ctx)^[k + 1] st0).curHeight - targetOf ctx st0| := hdist
        _ ≤ (1 - ctx.interpolant) *
              ((1 - ctx.interpolant) ^ k *
                |((step ctx)^[1] st0).curHeight - targetOf ctx st0|) :=
            mul_le_mul_of_nonneg_left hdk (by linarith)
        _ = (1 - ctx.interpolant) ^ (k + 1) *
              |((step ctx)^[1] st0).curHeight - targetOf ctx st0| := by ring

/-- C4: for a folder with no structural change, repeated `arrange`
calls eventually bring the animated height within one unit of the
target height, after which every call snaps the animated height to
exactly the target and stops requesting re-arrangement; while the
difference exceeds one unit, each call re-requests arrangement and
hides every child whose rectangle falls beyond the rounded animated
height plus the fixed overlap allowance.  The damping factor from
`LLCriticalDamp::getInterpolant` lies strictly between 0 and 1, child
heights are nonnegative, and the folder initially needs arranging. -/
theorem arrange_convergence (ctx : ArrCtx) (st0 : ArrFolder)
    (ht0 : 0 < ctx.interpolant) (ht1 : ctx.interpolant < 1)
    (hF : ∀ f ∈ st0.subf, 0 ≤ f.arrangeTarget)
    (hI : ∀ i ∈ st0.items, 0 ≤ i.height)
    (hneeds : needsArrange ctx st0) :
    (∃ N, ∀ n, N ≤ n →
      (arrange ctx ((step ctx)^[n] st0)).requested = false ∧
      ((step ctx)^[n + 1] st0).curHeight = ((step ctx)^[n + 1] st0).targetHeight) ∧
    (∀ st : ArrFolder, 1 < llabsQ (clampedCur st - layoutTarget ctx st) →
      (arrange ctx st).requested = true ∧
      (∀ f ∈ (arrange ctx st).st.subf,
        llroundQ (arrange ctx st).st.curHeight + ctx.overlap <
          st.rectHeight - f.rectTop + f.itemHeight → f.visible = false) ∧
      (∀ i ∈ (arrange ctx st).st.items,
        llroundQ (arrange ctx st).st.curHeight + ctx.overlap <
          st.rectHeight - i.rectBottom → i.visible = false)) := by
  refine ⟨?_, fun st ha => arrange_hides ctx st ha⟩
  have hstep := iter_bound ctx st0 ht1 hF hI hneeds
  have hih0 : (st0.itemHeight : ℚ) ≤ targetOf ctx st0 :=
    itemHeight_le_targetOf ctx st0 hF hI
  obtain ⟨N, hN⟩ := pow_unbounded_of_one_lt
    |((step ctx)^[1] st0).curHeight - targetOf ctx st0|
    (y := (1 - ctx.interpolant)⁻¹) (one_lt_inv (by linarith) (by linarith))
  have hNd : (1 - ctx.interpolant) ^ N *
      |((step ctx)^[1] st0).curHeight - targetOf ctx st0| < 1 := by
    have hp : (0 : ℚ) < (1 - ctx.interpolant) ^ N := pow_pos (by linarith) N
    calc (1 - ctx.interpolant) ^ N *
          |((step ctx)^[1] st0).curHeight - targetOf ctx st0|
        < (1 - ctx.interpolant) ^ N * ((1 - ctx.interpolant)⁻¹) ^ N :=
          mul_lt_mul_of_pos_left hN hp
      _ = ((1 - ctx.interpolant) * (1 - ctx.interpolant)⁻¹) ^ N := by rw [mul_pow]
      _ = 1 := by
          rw [mul_inv_cancel₀ (by linarith : (1 : ℚ) - ctx.interpolant ≠ 0), one_pow]
  refine ⟨N + 1, fun n hn => ?_⟩
  have hn1 : n = (n - 1) + 1 := by omega
  obtain ⟨hto, hth, hihn, hd⟩ := hstep (n - 1)
  have hdn : |((step ctx)^[n] st0).curHeight - targetOf ctx st0| ≤ 1 := by
    rw [hn1]
    calc |((step ctx)^[(n - 1) + 1] st0).curHeight - targetOf ctx st0|
        ≤ (1 - ctx.interpolant) ^ (n - 1) *
            |((step ctx)^[1] st0).curHeight - targetOf ctx st0| := hd
      _ ≤ (1 - ctx.interpolant) ^ N *
            |((step ctx)^[1] st0).curHeight - targetOf ctx st0| :=
          mul_le_mul_of_nonneg_right
            (pow_le_pow_of_le_one (by linarith) (by linarith) (by omega))
            (abs_nonneg _)
      _ ≤ 1 := le_of_lt hNd
  have hihT : ((((step ctx)^[n] st0).itemHeight : Int) : ℚ) ≤ targetOf ctx st0 := by
    rw [hn1, hihn]
    exact hih0
  have hTl : layoutTarget ctx ((step ctx)^[n] st0) = targetOf ctx st0 := by
    rw [hn1]
    exact layoutTarget_eq_of_inv ctx _ _ hto (Or.inl hth)
  have hcl : llabsQ (clampedCur ((step ctx)^[n] st0) - targetOf ctx st0) ≤ 1 := by
    rw [llabsQ_eq_abs]
    exact le_trans (clamped_dist _ _ hihT) hdn
  obtain ⟨hreq, hcur, htg⟩ := step_snap ctx ((step ctx)^[n] st0) (targetOf ctx st0) hTl hcl
  refine ⟨hreq, ?_⟩
  rw [Function.iterate_succ_apply' (step ctx) n st0, hcur, htg]

/-- Folder state for the C4 witness: open, needing arrangement, with
animated height far from the target so that the animation actually
runs. -/
def witFolderC4 : ArrFolder :=
  { isOpen := true, lastArrangeGen := -1, curHeight := 0, targetHeight := 0,
    rectHeight := 0, itemHeight := 10, mostFilteredGen := 0,
    hasVisibleChildren := false,
    subf := [{ passedFilter := true, lastFilterGen := 5, mostFilteredGen := -1,
               visible := false, rectTop := 0, itemHeight := 10,
               arrangeHeight := 20, arrangeTarget := 30 }],
    items := [{ passedFilter := true, lastFilterGen := 5, visible := false,
                rectBottom := 0, height := 7 }] }

/-- Concrete witness for C4, applying the convergence theorem at a
concrete damping factor and folder. -/
theorem arrange_convergence_witness :
    (0 < witCtx.interpolant) ∧ (witCtx.interpolant < 1) ∧
    (∀ f ∈ witFolderC4.subf, 0 ≤ f.arrangeTarget) ∧
    (∀ i ∈ witFolderC4.items, 0 ≤ i.height) ∧
    needsArrange witCtx witFolderC4 ∧
    ((∃ N, ∀ n, N ≤ n →
      (arrange witCtx ((step witCtx)^[n] witFolderC4)).requested = false ∧
      ((step witCtx)^[n + 1] witFolderC4).curHeight =
        ((step witCtx)^[n + 1] witFolderC4).targetHeight) ∧
    (∀ st : ArrFolder, 1 < llabsQ (clampedCur st - layoutTarget witCtx st) →
      (arrange witCtx st).requested = true ∧
      (∀ f ∈ (arrange witCtx st).st.subf,
        llroundQ (arrange witCtx st).st.curHeight + witCtx.overlap <
          st.rectHeight - f.rectTop + f.itemHeight → f.visible = false) ∧
      (∀ i ∈ (arrange witCtx st).st.items,
        llroundQ (arrange witCtx st).st.curHeight + witCtx.overlap <
          st.rectHeight - i.rectBottom → i.visible = false))) :=
  ⟨by norm_num [witCtx], by norm_num [witCtx], by decide, by decide, by decide,
   arrange_convergence witCtx witFolderC4 (by norm_num [witCtx]) (by norm_num [witCtx])
     (by decide) (by decide) (by decide)⟩

end Arranging

/-! ## Selection sanitization (`LLFolderView::sanitizeSelection`,
llfolderview.cpp:735-847)

Nodes are addressed by paths (lists of child indices) from the tree
root, which models the `LLFolderView` itself.  A `SNode` carries the
fields consulted by `potentiallyVisible` (llfolderviewitem.cpp:197-212
for items, 2267-2274 for folders) together with the open flag.  The
selection list models `mSelectedItems` in order, with
`getCurSelectedItem` being the last element. -/

namespace Sanitize

/-- Per-node state read by the sanitization pass. -/
structure SNode where
  isFolder : Bool
  isOpen : Bool
  passedFilter : Bool
  lastFilterGen : Int
  mostFilteredGen : Int
  completedGen : Int
deriving DecidableEq, Repr

mutual
/-- View-hierarchy tree: a node with its list of children. -/
inductive STree where
  | mk (data : SNode) (kids : SForest)
deriving DecidableEq
inductive SForest where
  | nil
  | cons (t : STree) (ts : SForest)
deriving DecidableEq
end

/-- The node data at the root of a subtree. -/
def STree.data : STree → SNode
  | .mk d _ => d

/-- Indexing into a forest of children. -/
def SForest.get : SForest → Nat → Option STree
  | .nil, _ => none
  | .cons t _, 0 => some t
  | .cons _ ts, n + 1 => ts.get n

/-- Node lookup by path from the root. -/
def STree.getNode : STree → List Nat → Option STree
  | t, [] => some t
  | .mk _ kids, i :: p =>
    match kids.get i with
    | some c => c.getNode p
    | none => none

/-- `LLFolderViewItem::getFiltered()` at the minimum required
generation: passed the filter and checked at or above it. -/
def getFilteredMin (minReq : Int) (n : SNode) : Bool :=
  n.passedFilter && decide (minReq ≤ n.lastFilterGen)

/-- `LLFolderViewItem::potentiallyVisible`: not yet checked against
the minimum required generation, or checked and passed. -/
def itemPotentiallyVisible (minReq : Int) (n : SNode) : Bool :=
  decide (n.lastFilterGen < minReq) || getFilteredMin minReq n

/-- `potentiallyVisible`, dispatching on the dynamic type: folders
additionally count filtered descendants and incomplete traversal
(`LLFolderViewFolder::potentiallyVisible`). -/
def potentiallyVisible (minReq : Int) (n : SNode) : Bool :=
  if n.isFolder then
    itemPotentiallyVisible minReq n || decide (minReq ≤ n.mostFilteredGen) ||
      decide (n.completedGen < minReq)
  else itemPotentiallyVisible minReq n

/-- `potentiallyVisible` of the node at a path (false off-tree). -/
def pvAt (minReq : Int) (t : STree) (p : List Nat) : Bool :=
  match t.getNode p with
  | some s => potentiallyVisible minReq s.data
  | none => false

/-- `isOpen` of the node at a path (false off-tree). -/
def isOpenAt (t : STree) (p : List Nat) : Bool :=
  match t.getNode p with
  | some s => s.data.isOpen
  | none => false

/-- The `getParentFolder` chain of a node: all proper prefixes of its
path, from the immediate parent up to the root. -/
def parents (p : List Nat) : List (List Nat) :=
  (List.range p.length).reverse.map (fun k => p.take k)

/-- External inputs of `sanitizeSelection`: the cached "show all
folders" policy, the filter's minimum required generation, and the
result of `getItemByID(gInventory.getRootFolderID())` used as the
default fallback. -/
structure SanCtx where
  showAllFolders : Bool
  minRequired : Int
  defaultRoot : Option (List Nat)
deriving DecidableEq, Repr

/-- Lines 752-769: visibility of a selected item through its ancestor
chain — its own `potentiallyVisible`, overridden to true by "show all
folders" when it has a parent, otherwise conjoined with `isOpen` and
`potentiallyVisible` of every ancestor. -/
def visibleInChain (ctx : SanCtx) (t : STree) (p : List Nat) : Bool :=
  let own := pvAt ctx.minRequired t p
  if p = [] then own
  else if ctx.showAllFolders then true
  else (parents p).foldl
    (fun v q => v && isOpenAt t q && pvAt ctx.minRequired t q) own

/-- Lines 749-799, one iteration of the outer loop at item `p`: mark
`p` if its visibility chain is broken, mark every selected descendant
of `p`, and mark `p` if it is the root. -/
def marksFor (ctx : SanCtx) (t : STree) (sel : List (List Nat))
    (p : List Nat) : List (List Nat) :=
  (if visibleInChain ctx t p then [] else [p]) ++
  sel.filter (fun other => (parents other).any (fun q => decide (q = p))) ++
  (if p = [] then [p] else [])

/-- The accumulated `items_to_remove` vector. -/
def itemsToRemove (ctx : SanCtx) (t : STree) (sel : List (List Nat)) :
    List (List Nat) :=
  sel.bind (marksFor ctx t sel)

/-- Lines 802-806: `changeSelection(x, FALSE)` for each marked item —
a no-op when `x` is the root (llfolderview.cpp:677), otherwise
removing every occurrence of `x` from the list
(`removeFromSelectionList`, lines 599-622). -/
def applyRemovals (sel rem : List (List Nat)) : List (List Nat) :=
  rem.foldl (fun s x => if x = [] then s else s.filter (fun y => decide (y ≠ x))) sel

/-- Lines 815-834, one ancestor of the fallback walk: a potentially
visible ancestor is taken if nothing is chosen yet, and overrides the
choice whenever it is closed. -/
def fallbackStep (ctx : SanCtx) (t : STree) (acc : Option (List Nat))
    (q : List Nat) : Option (List Nat) :=
  if pvAt ctx.minRequired t q then
    let chosen := match acc with
      | none => some q
      | some r => some r
    if isOpenAt t q then chosen else some q
  else acc

/-- The fallback walk over the original selection's ancestor chain. -/
def fallbackWalk (ctx : SanCtx) (t : STree) (orig : List Nat) :
    Option (List Nat) :=
  (parents orig).foldl (fallbackStep ctx t) none

/-- `LLFolderView::sanitizeSelection` on the selection list: mark and
remove, then — if the list emptied — fall back to an ancestor of the
previous current selection (or the designated default root when there
was none), where `setSelection` (line 640) refuses the tree root. -/
def sanitizeSelection (ctx : SanCtx) (t : STree) (sel : List (List Nat)) :
    List (List Nat) :=
  let original := sel.getLast?
  let sel' := applyRemovals sel (itemsToRemove ctx t sel)
  if sel'.isEmpty then
    match (match original with
           | some orig => fallbackWalk ctx t orig
           | none => ctx.defaultRoot) with
    | some p => if p = [] then sel' else [p]
    | none => sel'
  else sel'

/-- Folding a conjunction down a list equals the seed conjoined with
`List.all`. -/
theorem foldl_and_all (f g : List Nat → Bool) (l : List (List Nat)) :
    ∀ b : Bool,
      l.foldl (fun v q => v && f q && g q) b = (b && l.all (fun q => f q && g q)) := by
  induction l with
  | nil => intro b; simp
  | cons a l ih =>
    intro b
    simp only [List.foldl_cons, List.all_cons]
    rw [ih]
    cases b <;> cases hf : f a <;> cases hg : g a <;> simp

/-- Without "show all folders", chain visibility of a non-root item is
its own filter state conjoined with openness and filter state of every
ancestor. -/
theorem visibleInChain_all (ctx : SanCtx) (t : STree) (p : List Nat)
    (hs : ctx.showAllFolders = false) (hp : p ≠ []) :
    visibleInChain ctx t p =
      (pvAt ctx.minRequired t p &&
        (parents p).all (fun q => isOpenAt t q && pvAt ctx.minRequired t q)) := by
  unfold visibleInChain
  rw [if_neg hp, hs]
  simp only [Bool.false_eq_true, if_false]
  rw [foldl_and_all]

/-- Membership in the parent chain is exactly being a proper prefix. -/
theorem mem_parents (q p : List Nat) :
    q ∈ parents p ↔ q <+: p ∧ q.length < p.length := by
  unfold parents
  simp only [List.mem_map, List.mem_reverse, List.mem_range]
  constructor
  · rintro ⟨k, hk, rfl⟩
    refine ⟨List.take_prefix k p, ?_⟩
    rw [List.length_take, Nat.min_eq_left (le_of_lt hk)]
    exact hk
  · rintro ⟨hpre, hlen⟩
    exact ⟨q.length, hlen, (List.prefix_iff_eq_take.mp hpre).symm⟩

/-- Applying the removal list keeps exactly the root and the unmarked
entries. -/
theorem mem_applyRemovals (rem : List (List Nat)) :
    ∀ sel p, p ∈ applyRemovals sel rem ↔ p ∈ sel ∧ (p = [] ∨ p ∉ rem) := by
  induction rem with
  | nil => intro sel p; simp [applyRemovals]
  | cons x rem ih =>
    intro sel p
    show p ∈ applyRemovals (if x = [] then sel else sel.filter fun y => decide (y ≠ x)) rem ↔ _
    rw [ih]
    by_cases hx : x = []
    · rw [if_pos hx]
      subst hx
      constructor
      · rintro ⟨hm, hr⟩
        refine ⟨hm, ?_⟩
        rcases hr with h | h
        · exact Or.inl h
        · by_cases hp : p = []
          · exact Or.inl hp
          · refine Or.inr ?_
            intro hc
            rcases List.mem_cons.mp hc with h2 | h2
            · exact hp h2
            · exact h h2
      · rintro ⟨hm, hr⟩
        refine ⟨hm, ?_⟩
        rcases hr with h | h
        · exact Or.inl h
        · exact Or.inr (fun hc => h (List.mem_cons.mpr (Or.inr hc)))
    · rw [if_neg hx]
      constructor
      · rintro ⟨hm, hr⟩
        obtain ⟨hm', hne⟩ := List.mem_filter.mp hm
        have hne' : p ≠ x := by simpa using hne
        refine ⟨hm', ?_⟩
        rcases hr with h | h
        · exact Or.inl h
        · refine Or.inr ?_
          intro hc
          rcases List.mem_cons.mp hc with h2 | h2
          · exact hne' h2
          · exact h h2
      · rintro ⟨hm, hr⟩
        rcases hr with h | h
        · refine ⟨List.mem_filter.mpr ⟨hm, ?_⟩, Or.inl h⟩
          subst h
          simpa using fun hc => hx hc
        · refine ⟨List.mem_filter.mpr ⟨hm, ?_⟩, Or.inr fun hc => h (List.mem_cons.mpr (Or.inr hc))⟩
          simpa using fun hc => h (by rw [hc]; exact List.mem_cons_self x rem)

/-- A selected item with a broken visibility chain is marked. -/
theorem mark_of_not_visible (ctx : SanCtx) (t : STree) (sel : List (List Nat))
    (p : List Nat) (hmem : p ∈ sel) (hv : visibleInChain ctx t p = false) :
    p ∈ itemsToRemove ctx t sel := by
  refine List.mem_bind.mpr ⟨p, hmem, ?_⟩
  unfold marksFor
  rw [hv]
  simp

/-- A selected item with a selected strict ancestor is marked. -/
theorem mark_of_ancestor (ctx : SanCtx) (t : STree) (sel : List (List Nat))
    (p q : List Nat) (hp : p ∈ sel) (hq : q ∈ sel) (hanc : q ∈ parents p) :
    p ∈ itemsToRemove ctx t sel := by
  refine List.mem_bind.mpr ⟨q, hq, ?_⟩
  unfold marksFor
  refine List.mem_append.mpr (Or.inl (List.mem_append.mpr (Or.inr ?_)))
  refine List.mem_filter.mpr ⟨hp, ?_⟩
  simp only [List.any_eq_true, decide_eq_true_eq]
  exact ⟨q, hanc, rfl⟩

/-- `find?` over an append scans the first list first. -/
theorem find?_append_lem (f : List Nat → Bool) (l₁ l₂ : List (List Nat)) :
    (l₁ ++ l₂).find? f =
      match l₁.find? f with
      | some x => some x
      | none => l₂.find? f := by
  induction l₁ with
  | nil => simp
  | cons a l ih =>
    by_cases h : f a = true
    · rw [List.cons_append, List.find?_cons_of_pos _ h, List.find?_cons_of_pos _ h]
    · rw [List.cons_append, List.find?_cons_of_neg _ h, List.find?_cons_of_neg _ h, ih]

/-- The fallback fold chooses the last closed potentially-visible
entry if one exists, otherwise keeps the seed, otherwise the first
potentially-visible entry. -/
theorem foldl_fallbackStep (ctx : SanCtx) (t : STree) (l : List (List Nat)) :
    ∀ acc : Option (List Nat),
      l.foldl (fallbackStep ctx t) acc =
        match (l.filter (fun q =>
            pvAt ctx.minRequired t q && !(isOpenAt t q))).getLast? with
        | some q => some q
        | none =>
          match acc with
          | some r => some r
          | none => l.find? (fun q => pvAt ctx.minRequired t q) := by
  induction l using List.reverseRecOn with
  | nil => intro acc; cases acc <;> simp
  | append_singleton l q ih =>
    intro acc
    rw [List.foldl_append, List.foldl_cons, List.foldl_nil, ih acc,
        List.filter_append, find?_append_lem]
    by_cases hpv : pvAt ctx.minRequired t q = true
    · by_cases hop : isOpenAt t q = true
      · have hfq : List.filter (fun r =>
            pvAt ctx.minRequired t r && !(isOpenAt t r)) [q] = [] := by
          simp [hpv, hop]
        rw [hfq, List.append_nil]
        cases hfl : (l.filter (fun r =>
            pvAt ctx.minRequired t r && !(isOpenAt t r))).getLast? with
        | some g => simp [fallbackStep, hpv, hop]
        | none =>
          cases acc with
          | some r => simp [fallbackStep, hpv, hop]
          | none =>
            cases hfd : l.find? (fun r => pvAt ctx.minRequired t r) with
            | some f => simp [fallbackStep, hpv, hop]
            | none => simp [fallbackStep, hpv, hop, List.find?, hfd]
      · have hfq : List.filter (fun r =>
            pvAt ctx.minRequired t r && !(isOpenAt t r)) [q] = [q] := by
          simp [hpv, hop]
        rw [hfq, List.getLast?_concat]
        simp [fallbackStep, hpv, hop]
    · have hfq : List.filter (fun r =>
          pvAt ctx.minRequired t r && !(isOpenAt t r)) [q] = [] := by
        simp [hpv]
      have hfindq : List.find? (fun r => pvAt ctx.minRequired t r) [q] = none := by
        simp [List.find?, hpv]
      rw [hfq, List.append_nil]
      cases hfl : (l.filter (fun r =>
          pvAt ctx.minRequired t r && !(isOpenAt t r))).getLast? with
      | some g => simp [fallbackStep, hpv]
      | none =>
        cases acc with
        | some r => simp [fallbackStep, hpv]
        | none =>
          cases hfd : l.find? (fun r => pvAt ctx.minRequired t r) with
          | some f => simp [fallbackStep, hpv]
          | none => simp [fallbackStep, hpv, hfindq]

/-- When enforcement leaves the selection nonempty, the result is the
enforced list. -/
theorem sanitize_eq_enforce (ctx : SanCtx) (t : STree) (sel : List (List Nat))
    (h : (applyRemovals sel (itemsToRemove ctx t sel)).isEmpty = false) :
    sanitizeSelection ctx t sel = applyRemovals sel (itemsToRemove ctx t sel) := by
  simp only [sanitizeSelection]
  rw [h]
  simp

/-- When enforcement empties the selection, the result is determined
by the fallback walk (or the default root), with the tree root itself
refused by `setSelection`. -/
theorem sanitize_eq_fallback (ctx : SanCtx) (t : STree) (sel : List (List Nat))
    (h : (applyRemovals sel (itemsToRemove ctx t sel)).isEmpty = true) :
    sanitizeSelection ctx t sel =
      match (match sel.getLast? with
             | some orig => fallbackWalk ctx t orig
             | none => ctx.defaultRoot) with
      | some p => if p = [] then [] else [p]
      | none => [] := by
  have hnil : applyRemovals sel (itemsToRemove ctx t sel) = [] := by
    cases hc : applyRemovals sel (itemsToRemove ctx t sel) with
    | nil => rfl
    | cons a l => rw [hc] at h; simp [List.isEmpty] at h
  simp only [sanitizeSelection]
  rw [hnil]
  simp

/-- C5: after `sanitizeSelection`, the selection never contains both a
node and one of its ancestors; when the enforcement pass leaves the
selection nonempty and "show all folders" is off, every surviving
non-root node has all its ancestors open and potentially visible; and
when enforcement empties the selection, the new selection is the
highest closed potentially-visible ancestor of the previous current
selection if one exists, otherwise its nearest potentially-visible
ancestor, otherwise (with no previous selection) the designated
default root — with the tree root itself refused, leaving the
selection empty.  (The fallback node is not itself re-checked, so its
own ancestors may be closed or filtered out.) -/
theorem sanitizeSelection_invariants (ctx : SanCtx) (t : STree)
    (sel : List (List Nat)) :
    (∀ p ∈ sanitizeSelection ctx t sel, ∀ q ∈ sanitizeSelection ctx t sel,
        q ≠ p → ¬ q <+: p) ∧
    (ctx.showAllFolders = false →
      (applyRemovals sel (itemsToRemove ctx t sel)).isEmpty = false →
      ∀ p ∈ sanitizeSelection ctx t sel, p ≠ [] →
        ∀ q ∈ parents p,
          isOpenAt t q = true ∧ pvAt ctx.minRequired t q = true) ∧
    ((applyRemovals sel (itemsToRemove ctx t sel)).isEmpty = true →
      sanitizeSelection ctx t sel =
        match (match sel.getLast? with
               | some orig =>
                 match ((parents orig).filter (fun q =>
                     pvAt ctx.minRequired t q && !(isOpenAt t q))).getLast? with
                 | some q => some q
                 | none => (parents orig).find? (fun q => pvAt ctx.minRequired t q)
               | none => ctx.defaultRoot) with
        | some p => if p = [] then [] else [p]
        | none => []) := by
  refine ⟨?_, ?_, ?_⟩
  · intro p hp q hq hne hpre
    cases hemp : (applyRemovals sel (itemsToRemove ctx t sel)).isEmpty with
    | false =>
      rw [sanitize_eq_enforce ctx t sel hemp] at hp hq
      obtain ⟨hpsel, hpor⟩ := (mem_applyRemovals _ sel p).mp hp
      obtain ⟨hqsel, _⟩ := (mem_applyRemovals _ sel q).mp hq
      have hpne : p ≠ [] := by
        intro h
        subst h
        exact hne (List.prefix_nil.mp hpre)
      have hpnr : p ∉ itemsToRemove ctx t sel := by
        rcases hpor with h | h
        · exact absurd h hpne
        · exact h
      have hle := hpre.length_le
      have hlen : q.length < p.length := by
        rcases Nat.lt_or_ge q.length p.length with h | h
        · exact h
        · have heq : q.length = p.length := le_antisymm hle h
          have : q = p := by
            rw [List.prefix_iff_eq_take.mp hpre, heq, List.take_length]
          exact absurd this hne
      exact hpnr (mark_of_ancestor ctx t sel p q hpsel hqsel
        ((mem_parents q p).mpr ⟨hpre, hlen⟩))
    | true =>
      rw [sanitize_eq_fallback ctx t sel hemp] at hp hq
      cases hnv : (match sel.getLast? with
                   | some orig => fallbackWalk ctx t orig
                   | none => ctx.defaultRoot) with
      | none =>
        rw [hnv] at hp
        exact absurd hp (List.not_mem_nil p)
      | some r =>
        rw [hnv] at hp hq
        have hp' : p ∈ (if r = [] then ([] : List (List Nat)) else [r]) := hp
        have hq' : q ∈ (if r = [] then ([] : List (List Nat)) else [r]) := hq
        by_cases hr : r = []
        · rw [if_pos hr] at hp'
          exact absurd hp' (List.not_mem_nil p)
        · rw [if_neg hr] at hp' hq'
          have hp1 : p = r := List.mem_singleton.mp hp'
          have hq1 : q = r := List.mem_singleton.mp hq'
          exact hne (hq1.trans hp1.symm)
  · intro hs hemp p hp hpne q hq
    rw [sanitize_eq_enforce ctx t sel hemp] at hp
    obtain ⟨hpsel, hpor⟩ := (mem_applyRemovals _ sel p).mp hp
    have hpnr : p ∉ itemsToRemove ctx t sel := by
      rcases hpor with h | h
      · exact absurd h hpne
      · exact h
    have hvis : visibleInChain ctx t p = true := by
      cases hvc : visibleInChain ctx t p with
      | true => rfl
      | false => exact absurd (mark_of_not_visible ctx t sel p hpsel hvc) hpnr
    rw [visibleInChain_all ctx t p hs hpne, Bool.and_eq_true] at hvis
    have h2 := (List.all_eq_true.mp hvis.2) q hq
    rw [Bool.and_eq_true] at h2
    exact h2
  · intro hemp
    rw [sanitize_eq_fallback ctx t sel hemp]
    cases ho : sel.getLast? with
    | none => rfl
    | some orig =>
      simp only [fallbackWalk]
      rw [foldl_fallbackStep]

/-- Counterexample tree: under the root, a chain folder `[0]` (closed,
not potentially visible) containing folder `[0,0]` (potentially
visible, closed) containing folder `[0,0,0]` (potentially visible,
open) containing item `[0,0,0,0]` (fails the filter). -/
def cexTreeS : STree :=
  .mk ⟨true, true, false, 0, -1, -1⟩ (.cons
    (.mk ⟨true, false, false, 0, -1, 0⟩ (.cons
      (.mk ⟨true, false, true, 0, -1, 0⟩ (.cons
        (.mk ⟨true, true, true, 0, -1, 0⟩ (.cons
          (.mk ⟨false, true, false, 0, -1, 0⟩ .nil) .nil)) .nil)) .nil)) .nil)

/-- Counterexample context: "show all folders" off, minimum required
generation 0, no default root. -/
def cexCtxS : SanCtx := ⟨false, 0, none⟩

/-- Counterexample selection: only the failing item `[0,0,0,0]`. -/
def cexSelS : List (List Nat) := [[0, 0, 0, 0]]

/-- C5 counterexample: with "show all folders" off, sanitizing the
selection of the failing item falls back to `[0,0]` — the highest
closed potentially-visible ancestor, not the nearest potentially
visible ancestor `[0,0,0]` — and the resulting selected node `[0,0]`
has the ancestor `[0]` that is closed and filtered out, violating both
the stated ancestor invariant and the stated fallback rule. -/
theorem sanitizeSelection_counterexample :
    cexCtxS.showAllFolders = false ∧
    sanitizeSelection cexCtxS cexTreeS cexSelS = [[0, 0]] ∧
    [0] ∈ parents [0, 0] ∧
    isOpenAt cexTreeS [0] = false ∧
    pvAt cexCtxS.minRequired cexTreeS [0] = false ∧
    (parents [0, 0, 0, 0]).find? (fun q => pvAt cexCtxS.minRequired cexTreeS q) =
      some [0, 0, 0] := by
  decide

/-- Witness tree: root containing an open potentially-visible folder
`[0]` with a potentially-visible item `[0,0]`. -/
def witTreeS : STree :=
  .mk ⟨true, true, false, 0, -1, -1⟩ (.cons
    (.mk ⟨true, true, true, 0, -1, 0⟩ (.cons
      (.mk ⟨false, true, true, 0, -1, 0⟩ .nil) .nil)) .nil)

/-- Witness selection: the folder and, nested, its item. -/
def witSelS : List (List Nat) := [[0], [0, 0]]

/-- Concrete witness for C5: sanitizing the nested selection keeps
only the folder, whose ancestors are all open and potentially
visible, and the result has no ancestor pairs. -/
theorem sanitizeSelection_witness :
    sanitizeSelection cexCtxS witTreeS witSelS = [[0]] ∧
    (∀ p ∈ sanitizeSelection cexCtxS witTreeS witSelS, p ≠ [] →
      ∀ q ∈ parents p, isOpenAt witTreeS q = true ∧
        pvAt cexCtxS.minRequired witTreeS q = true) ∧
    (∀ p ∈ sanitizeSelection cexCtxS witTreeS witSelS,
      ∀ q ∈ sanitizeSelection cexCtxS witTreeS witSelS, q ≠ p → ¬ q <+: p) :=
  ⟨by decide,
   (sanitizeSelection_invariants cexCtxS witTreeS witSelS).2.1 rfl (by decide),
   (sanitizeSelection_invariants cexCtxS witTreeS witSelS).1⟩

end Sanitize

/-! ## Selected-descendant counts (`mNumDescendantsSelected`,
llfolderviewitem.cpp:460-486, 1387-1399, 1404-1499, 1618-1651,
1713-1746, 1912-1950)

Folders form a tree; item children are bare selection flags.  Each
folder carries its selection flag and its maintained
`mNumDescendantsSelected`.  A mutation's effect on
`recursiveIncrementNumDescendantsSelected` — adding the change to
every folder up the parent chain — is rendered functionally: each
operation returns the changed subtree together with the delta its
selections contribute, and every ancestor on the path adds that delta
to its count on the way back up. -/

namespace SelCount

mutual
/-- A folder: selection flag, maintained descendant-selection count,
child folders and child-item selection flags. -/
inductive SelTree where
  | mk (isSel : Bool) (numDesc : Int) (subf : SelForest) (items : List Bool)
deriving DecidableEq
inductive SelForest where
  | nil
  | cons (t : SelTree) (ts : SelForest)
deriving DecidableEq
end

/-- Number of selected item children. -/
def itemsCount : List Bool → Int
  | [] => 0
  | b :: bs => (if b then 1 else 0) + itemsCount bs

mutual
/-- Fresh recursive count of selected nodes in a subtree, including
the subtree root — the specification's reference count. -/
def SelTree.countSel : SelTree → Int
  | .mk s _ subf items => (if s then 1 else 0) + subf.totalSel + itemsCount items
/-- Sum of `countSel` over a forest. -/
def SelForest.totalSel : SelForest → Int
  | .nil => 0
  | .cons t ts => t.countSel + ts.totalSel
end

mutual
/-- The maintained counts are accurate: every folder's
`mNumDescendantsSelected` equals the fresh recursive count of
selected strict descendants. -/
def SelTree.wfb : SelTree → Bool
  | .mk _ nd subf items => decide (nd = subf.totalSel + itemsCount items) && subf.wfbF
def SelForest.wfbF : SelForest → Bool
  | .nil => true
  | .cons t ts => t.wfb && ts.wfbF
end

/-- `numSelected()`.  Modelled from the spec: the accessor lives in
the header `llfolderviewitem.h`, which is not part of this tree;
consistently with its uses at llfolderviewitem.cpp:1726-1737 and
1942-1944 it is the maintained descendant count plus one when the
folder itself is selected. -/
def SelTree.numSelected : SelTree → Int
  | .mk s nd _ _ => nd + (if s then 1 else 0)

/-- Child-folder access. -/
def SelForest.get : SelForest → Nat → Option SelTree
  | .nil, _ => none
  | .cons t _, 0 => some t
  | .cons _ ts, n + 1 => ts.get n

/-- `mFolders.erase` at an index. -/
def SelForest.removeNth : SelForest → Nat → SelForest
  | .nil, _ => .nil
  | .cons _ ts, 0 => ts
  | .cons t ts, n + 1 => .cons t (ts.removeNth n)

/-- `mFolders.insert` at a position (the sort order supplies the
position in the source). -/
def SelForest.insertAt : SelForest → Nat → SelTree → SelForest
  | ts, 0, c => .cons c ts
  | .nil, _ + 1, c => .cons c .nil
  | .cons t ts, n + 1, c => .cons t (ts.insertAt n c)

/-- Overwrite an item flag. -/
def setSel : List Bool → Nat → Bool → List Bool
  | [], _, _ => []
  | _ :: bs, 0, b => b :: bs
  | x :: bs, n + 1, b => x :: setSel bs n b

/-- `mItems.erase` at an index. -/
def eraseSel : List Bool → Nat → List Bool
  | [], _ => []
  | _ :: bs, 0 => bs
  | x :: bs, n + 1 => x :: eraseSel bs n

/-- `mItems.insert` at a position. -/
def insertSel : List Bool → Nat → Bool → List Bool
  | bs, 0, b => b :: bs
  | [], _ + 1, b => [b]
  | x :: bs, n + 1, b => x :: insertSel bs n b

mutual
/-- Apply a local mutation at the folder addressed by a path; on the
way back each ancestor folder adds the returned delta to its count,
exactly the effect of `recursiveIncrementNumDescendantsSelected`
(llfolderviewitem.cpp:1387-1399) climbing the parent chain. -/
def SelTree.modifyAt : SelTree → List Nat → (SelTree → SelTree × Int) → SelTree × Int
  | t, [], f => f t
  | .mk s nd subf items, i :: p, f =>
    let r := subf.modifyAtF i p f
    (.mk s (nd + r.2) r.1 items, r.2)
def SelForest.modifyAtF : SelForest → Nat → List Nat → (SelTree → SelTree × Int) → SelForest × Int
  | .nil, _, _, _ => (.nil, 0)
  | .cons t ts, 0, p, f =>
    let r := t.modifyAt p f
    (.cons r.1 ts, r.2)
  | .cons t ts, n + 1, p, f =>
    let r := ts.modifyAtF n p f
    (.cons t r.1, r.2)
end

/-- `changeSelection` arriving at the addressed folder
(llfolderviewitem.cpp:1455-1483): flip its flag when the state
differs; `selectItem`/`deselectItem` (460-486) start the ±1 at the
parent folder. -/
def changeFolderLocal (sel : Bool) : SelTree → SelTree × Int
  | .mk s nd subf items =>
    if s ≠ sel then (.mk sel nd subf items, if sel then 1 else -1)
    else (.mk s nd subf items, 0)

/-- `changeSelection` reaching an item child of the addressed folder
(llfolderviewitem.cpp:439-457): flip when different, with the ±1
starting at the containing folder. -/
def changeItemLocal (i : Nat) (sel : Bool) : SelTree → SelTree × Int
  | .mk s nd subf items =>
    match items.get? i with
    | some b =>
      if b ≠ sel then
        (.mk s (nd + (if sel then 1 else -1)) subf (setSel items i sel),
          if sel then 1 else -1)
      else (.mk s nd subf items, 0)
    | none => (.mk s nd subf items, 0)

mutual
/-- `LLFolderViewFolder::recursiveDeselect`
(llfolderviewitem.cpp:1618-1651): deselect self when asked, return
early when the maintained count is zero, otherwise deselect all item
children and recurse into child folders; the second component is the
total selection change propagated above this folder. -/
def SelTree.recDeselect : SelTree → Bool → SelTree × Int
  | .mk s nd subf items, dself =>
    let s' := if dself then false else s
    let d0 : Int := if s && dself then -1 else 0
    if nd = 0 then (.mk s' nd subf items, d0)
    else
      let r := subf.recDeselectF
      (.mk s' (nd - itemsCount items + r.2) r.1 (items.map fun _ => false),
        d0 - itemsCount items + r.2)
def SelForest.recDeselectF : SelForest → SelForest × Int
  | .nil => (.nil, 0)
  | .cons t ts =>
    let r := t.recDeselect true
    let rs := ts.recDeselectF
    (.cons r.1 rs.1, r.2 + rs.2)
end

/-- `extractItem` removing a child folder
(llfolderviewitem.cpp:1720-1732): decrement by the child's
`numSelected()` when nonzero, starting at this folder. -/
def extractFolderLocal (i : Nat) : SelTree → SelTree × Int
  | .mk s nd subf items =>
    match subf.get i with
    | some c =>
      (.mk s (nd + (if c.numSelected ≠ 0 then -c.numSelected else 0))
        (subf.removeNth i) items,
        if c.numSelected ≠ 0 then -c.numSelected else 0)
    | none => (.mk s nd subf items, 0)

/-- `extractItem` removing a child item
(llfolderviewitem.cpp:1733-1739): decrement by one when it was
selected. -/
def extractItemLocal (i : Nat) : SelTree → SelTree × Int
  | .mk s nd subf items =>
    match items.get? i with
    | some b =>
      (.mk s (nd + (if b then -1 else 0)) subf (eraseSel items i),
        if b then -1 else 0)
    | none => (.mk s nd subf items, 0)

/-- `addFolder` (llfolderviewitem.cpp:1934-1950): insert and increment
by the new child's `numSelected()` when nonzero. -/
def addFolderLocal (k : Nat) (c : SelTree) : SelTree → SelTree × Int
  | .mk s nd subf items =>
    (.mk s (nd + (if c.numSelected ≠ 0 then c.numSelected else 0))
      (subf.insertAt k c) items,
      if c.numSelected ≠ 0 then c.numSelected else 0)

/-- `addItem` (llfolderviewitem.cpp:1912-1930): insert and increment
by one when the new item is selected. -/
def addItemLocal (k : Nat) (b : Bool) : SelTree → SelTree × Int
  | .mk s nd subf items =>
    (.mk s (nd + (if b then 1 else 0)) subf (insertSel items k b),
      if b then 1 else 0)

/-- A selection mutation: change a folder or item selection, clear the
whole selection (`clearSelection`, llfolderview.cpp:849-857), extract
a subtree or item, or add one. -/
inductive SelOp where
  | changeFolder (p : List Nat) (sel : Bool)
  | changeItem (p : List Nat) (i : Nat) (sel : Bool)
  | clear
  | extractFolder (p : List Nat) (i : Nat)
  | extractItem (p : List Nat) (i : Nat)
  | addFolder (p : List Nat) (k : Nat) (c : SelTree)
  | addItem (p : List Nat) (k : Nat) (b : Bool)

/-- Apply one mutation to the root. -/
def applyOp (t : SelTree) : SelOp → SelTree
  | .changeFolder p sel => (t.modifyAt p (changeFolderLocal sel)).1
  | .changeItem p i sel => (t.modifyAt p (changeItemLocal i sel)).1
  | .clear => (t.recDeselect false).1
  | .extractFolder p i => (t.modifyAt p (extractFolderLocal i)).1
  | .extractItem p i => (t.modifyAt p (extractItemLocal i)).1
  | .addFolder p k c => (t.modifyAt p (addFolderLocal k c)).1
  | .addItem p k b => (t.modifyAt p (addItemLocal k b)).1

/-- A mutation is well-formed when any subtree it grafts in has
accurate counts of its own. -/
def opWf : SelOp → Bool
  | .addFolder _ _ c => c.wfb
  | _ => true

/-- Apply a sequence of mutations. -/
def applyOps (t : SelTree) : List SelOp → SelTree
  | [] => t
  | op :: ops => applyOps (applyOp t op) ops

/-- Setting an in-range item flag shifts the selected-item count by
the difference of the flags. -/
theorem itemsCount_setSel : ∀ (items : List Bool) (i : Nat) (b sel : Bool),
    items.get? i = some b →
    itemsCount (setSel items i sel) =
      itemsCount items - (if b then 1 else 0) + (if sel then 1 else 0)
  | [], i, b, sel, h => by simp at h
  | x :: bs, 0, b, sel, h => by
    simp only [List.get?] at h
    cases h
    simp only [setSel, itemsCount]
    omega
  | x :: bs, i + 1, b, sel, h => by
    simp only [List.get?] at h
    have := itemsCount_setSel bs i b sel h
    simp only [setSel, itemsCount]
    omega

/-- Erasing an in-range item removes its contribution. -/
theorem itemsCount_eraseSel : ∀ (items : List Bool) (i : Nat) (b : Bool),
    items.get? i = some b →
    itemsCount (eraseSel items i) = itemsCount items - (if b then 1 else 0)
  | [], i, b, h => by simp at h
  | x :: bs, 0, b, h => by
    simp only [List.get?] at h
    cases h
    simp only [eraseSel, itemsCount]
    omega
  | x :: bs, i + 1, b, h => by
    simp only [List.get?] at h
    have := itemsCount_eraseSel bs i b h
    simp only [eraseSel, itemsCount]
    omega

/-- Inserting an item adds its contribution. -/
theorem itemsCount_insertSel : ∀ (items : List Bool) (k : Nat) (b : Bool),
    itemsCount (insertSel items k b) = itemsCount items + (if b then 1 else 0)
  | bs, 0, b => by simp only [insertSel, itemsCount]; omega
  | [], k + 1, b => by simp only [insertSel, itemsCount]; omega
  | x :: bs, k + 1, b => by
    have := itemsCount_insertSel bs k b
    simp only [insertSel, itemsCount]
    omega

/-- Clearing every item flag zeroes the count. -/
theorem itemsCount_map_false : ∀ items : List Bool,
    itemsCount (items.map fun _ => false) = 0
  | [] => rfl
  | x :: bs => by
    have ih := itemsCount_map_false bs
    rw [List.map_cons]
    generalize hg : List.map (fun _ => false) bs = rest at ih ⊢
    simp [itemsCount, ih]

/-- A child of a forest with accurate counts has accurate counts. -/
theorem wfbF_get : ∀ (ts : SelForest) (i : Nat) (c : SelTree),
    ts.wfbF = true → ts.get i = some c → c.wfb = true
  | .nil, i, c, _, h => by simp [SelForest.get] at h
  | .cons t ts, 0, c, hw, h => by
    simp only [SelForest.get] at h
    cases h
    exact (Bool.and_eq_true _ _ ▸ hw).1
  | .cons t ts, i + 1, c, hw, h => by
    simp only [SelForest.get] at h
    exact wfbF_get ts i c (Bool.and_eq_true _ _ ▸ hw).2 h

/-- Removing a child subtracts its fresh count from the forest sum. -/
theorem totalSel_removeNth : ∀ (ts : SelForest) (i : Nat) (c : SelTree),
    ts.get i = some c →
    (ts.removeNth i).totalSel = ts.totalSel - c.countSel
  | .nil, i, c, h => by simp [SelForest.get] at h
  | .cons t ts, 0, c, h => by
    simp only [SelForest.get] at h
    cases h
    simp only [SelForest.removeNth, SelForest.totalSel]
    omega
  | .cons t ts, i + 1, c, h => by
    simp only [SelForest.get] at h
    have := totalSel_removeNth ts i c h
    simp only [SelForest.removeNth, SelForest.totalSel]
    omega

/-- Removing a child keeps the remaining counts accurate. -/
theorem wfbF_removeNth : ∀ (ts : SelForest) (i : Nat),
    ts.wfbF = true → (ts.removeNth i).wfbF = true
  | .nil, i, h => h
  | .cons t ts, 0, h => (Bool.and_eq_true _ _ ▸ h).2
  | .cons t ts, i + 1, h => by
    have h2 := Bool.and_eq_true _ _ ▸ h
    simp only [SelForest.removeNth, SelForest.wfbF, Bool.and_eq_true]
    exact ⟨h2.1, wfbF_removeNth ts i h2.2⟩

/-- Inserting a child adds its fresh count to the forest sum. -/
theorem totalSel_insertAt : ∀ (ts : SelForest) (k : Nat) (c : SelTree),
    (ts.insertAt k c).totalSel = ts.totalSel + c.countSel
  | ts, 0, c => by simp only [SelForest.insertAt, SelForest.totalSel]; omega
  | .nil, k + 1, c => by simp only [SelForest.insertAt, SelForest.totalSel]; omega
  | .cons t ts, k + 1, c => by
    have := totalSel_insertAt ts k c
    simp only [SelForest.insertAt, SelForest.totalSel]
    omega

/-- Inserting an accurate child keeps the forest accurate. -/
theorem wfbF_insertAt : ∀ (ts : SelForest) (k : Nat) (c : SelTree),
    ts.wfbF = true → c.wfb = true → (ts.insertAt k c).wfbF = true
  | ts, 0, c, hw, hc => by
    simp only [SelForest.insertAt, SelForest.wfbF, Bool.and_eq_true]
    exact ⟨hc, hw⟩
  | .nil, k + 1, c, hw, hc => by
    simp only [SelForest.insertAt, SelForest.wfbF, Bool.and_eq_true]
    exact ⟨hc, trivial⟩
  | .cons t ts, k + 1, c, hw, hc => by
    have h2 := Bool.and_eq_true _ _ ▸ hw
    simp only [SelForest.insertAt, SelForest.wfbF, Bool.and_eq_true]
    exact ⟨h2.1, wfbF_insertAt ts k c h2.2 hc⟩

/-- Under accurate counts, `numSelected()` equals the fresh recursive
count of the whole subtree. -/
theorem numSelected_eq_countSel : ∀ t : SelTree, t.wfb = true →
    t.numSelected = t.countSel
  | .mk s nd subf items, h => by
    have h2 := Bool.and_eq_true _ _ ▸ h
    have h3 : nd = subf.totalSel + itemsCount items := of_decide_eq_true h2.1
    simp only [SelTree.numSelected, SelTree.countSel]
    omega

mutual
/-- Navigating a count-correct local mutation to any folder keeps all
counts accurate, with the subtree's fresh count shifted by the
returned delta. -/
theorem SelTree.modifyAt_wf (f : SelTree → SelTree × Int)
    (hf : ∀ u : SelTree, u.wfb = true →
      (f u).1.wfb = true ∧ (f u).1.countSel = u.countSel + (f u).2) :
    ∀ (t : SelTree) (p : List Nat), t.wfb = true →
      (t.modifyAt p f).1.wfb = true ∧
      (t.modifyAt p f).1.countSel = t.countSel + (t.modifyAt p f).2
  | .mk s nd subf items, [], h => hf (.mk s nd subf items) h
  | .mk s nd subf items, i :: p, h => by
    have h2 := Bool.and_eq_true _ _ ▸ h
    have h3 : nd = subf.totalSel + itemsCount items := of_decide_eq_true h2.1
    obtain ⟨ihw, ihc⟩ := SelForest.modifyAtF_wf f hf subf i p h2.2
    constructor
    · simp only [SelTree.modifyAt, SelTree.wfb, Bool.and_eq_true, decide_eq_true_eq]
      exact ⟨by rw [ihc]; omega, ihw⟩
    · simp only [SelTree.modifyAt, SelTree.countSel]
      rw [ihc]
      omega

theorem SelForest.modifyAtF_wf (f : SelTree → SelTree × Int)
    (hf : ∀ u : SelTree, u.wfb = true →
      (f u).1.wfb = true ∧ (f u).1.countSel = u.countSel + (f u).2) :
    ∀ (ts : SelForest) (i : Nat) (p : List Nat), ts.wfbF = true →
      (ts.modifyAtF i p f).1.wfbF = true ∧
      (ts.modifyAtF i p f).1.totalSel = ts.totalSel + (ts.modifyAtF i p f).2
  | .nil, _, _, _ => by
    simp [SelForest.modifyAtF, SelForest.wfbF, SelForest.totalSel]
  | .cons t ts, 0, p, h => by
    have h2 := Bool.and_eq_true _ _ ▸ h
    obtain ⟨ihw, ihc⟩ := SelTree.modifyAt_wf f hf t p h2.1
    constructor
    · simp only [SelForest.modifyAtF, SelForest.wfbF, Bool.and_eq_true]
      exact ⟨ihw, h2.2⟩
    · simp only [SelForest.modifyAtF, SelForest.totalSel]
      rw [ihc]
      omega
  | .cons t ts, n + 1, p, h => by
    have h2 := Bool.and_eq_true _ _ ▸ h
    obtain ⟨ihw, ihc⟩ := SelForest.modifyAtF_wf f hf ts n p h2.2
    constructor
    · simp only [SelForest.modifyAtF, SelForest.wfbF, Bool.and_eq_true]
      exact ⟨h2.1, ihw⟩
    · simp only [SelForest.modifyAtF, SelForest.totalSel]
      rw [ihc]
      omega
end

mutual
/-- `recursiveDeselect` keeps all counts accurate and returns the
change in the subtree's fresh count. -/
theorem SelTree.recDeselect_wf :
    ∀ (t : SelTree) (dself : Bool), t.wfb = true →
      (t.recDeselect dself).1.wfb = true ∧
      (t.recDeselect dself).1.countSel = t.countSel + (t.recDeselect dself).2
  | .mk s nd subf items, dself, h => by
    have h2 := Bool.and_eq_true _ _ ▸ h
    have h3 : nd = subf.totalSel + itemsCount items := of_decide_eq_true h2.1
    by_cases hnd : nd = 0
    · constructor
      · simp only [SelTree.recDeselect, if_pos hnd, SelTree.wfb, Bool.and_eq_true,
          decide_eq_true_eq]
        exact ⟨h3, h2.2⟩
      · simp only [SelTree.recDeselect, if_pos hnd, SelTree.countSel]
        cases s <;> cases dself <;> simp <;> omega
    · obtain ⟨ihw, ihc⟩ := SelForest.recDeselectF_wf subf h2.2
      constructor
      · simp only [SelTree.recDeselect, if_neg hnd, SelTree.wfb, Bool.and_eq_true,
          decide_eq_true_eq]
        refine ⟨?_, ihw⟩
        rw [itemsCount_map_false, ihc]
        omega
      · simp only [SelTree.recDeselect, if_neg hnd, SelTree.countSel]
        rw [itemsCount_map_false, ihc]
        cases s <;> cases dself <;> simp <;> omega

theorem SelForest.recDeselectF_wf :
    ∀ ts : SelForest, ts.wfbF = true →
      (ts.recDeselectF).1.wfbF = true ∧
      (ts.recDeselectF).1.totalSel = ts.totalSel + (ts.recDeselectF).2
  | .nil, _ => by simp [SelForest.recDeselectF, SelForest.wfbF, SelForest.totalSel]
  | .cons t ts, h => by
    have h2 := Bool.and_eq_true _ _ ▸ h
    obtain ⟨ihw, ihc⟩ := SelTree.recDeselect_wf t true h2.1
    obtain ⟨ihw2, ihc2⟩ := SelForest.recDeselectF_wf ts h2.2
    constructor
    · simp only [SelForest.recDeselectF, SelForest.wfbF, Bool.and_eq_true]
      exact ⟨ihw, ihw2⟩
    · simp only [SelForest.recDeselectF, SelForest.totalSel]
      rw [ihc, ihc2]
      omega
end

/-- Changing a folder's own selection preserves accuracy and shifts
the fresh count by the returned delta. -/
theorem changeFolderLocal_wf (sel : Bool) : ∀ u : SelTree, u.wfb = true →
    (changeFolderLocal sel u).1.wfb = true ∧
    (changeFolderLocal sel u).1.countSel = u.countSel + (changeFolderLocal sel u).2
  | .mk s nd subf items, h => by
    have h2 := Bool.and_eq_true _ _ ▸ h
    have h3 : nd = subf.totalSel + itemsCount items := of_decide_eq_true h2.1
    simp only [changeFolderLocal]
    by_cases hs : s ≠ sel
    · rw [if_pos hs]
      refine ⟨?_, ?_⟩
      · simp only [SelTree.wfb, Bool.and_eq_true, decide_eq_true_eq]
        exact ⟨h3, h2.2⟩
      · simp only [SelTree.countSel]
        cases s <;> cases sel <;> simp at hs ⊢ <;> omega
    · rw [if_neg hs]
      exact ⟨h, by simp⟩

/-- Changing an item child's selection preserves accuracy. -/
theorem changeItemLocal_wf (i : Nat) (sel : Bool) : ∀ u : SelTree, u.wfb = true →
    (changeItemLocal i sel u).1.wfb = true ∧
    (changeItemLocal i sel u).1.countSel = u.countSel + (changeItemLocal i sel u).2
  | .mk s nd subf items, h => by
    have h2 := Bool.and_eq_true _ _ ▸ h
    have h3 : nd = subf.totalSel + itemsCount items := of_decide_eq_true h2.1
    simp only [changeItemLocal]
    cases hg : items.get? i with
    | none => exact ⟨h, by simp⟩
    | some b =>
      dsimp only
      have hic := itemsCount_setSel items i b sel hg
      by_cases hb : b ≠ sel
      · rw [if_pos hb]
        refine ⟨?_, ?_⟩
        · simp only [SelTree.wfb, Bool.and_eq_true, decide_eq_true_eq]
          refine ⟨?_, h2.2⟩
          rw [hic]
          cases b <;> cases sel <;> simp at hb ⊢ <;> omega
        · simp only [SelTree.countSel]
          rw [hic]
          cases b <;> cases sel <;> simp at hb ⊢ <;> omega
      · rw [if_neg hb]
        exact ⟨h, by simp⟩

/-- Extracting a child folder preserves accuracy. -/
theorem extractFolderLocal_wf (i : Nat) : ∀ u : SelTree, u.wfb = true →
    (extractFolderLocal i u).1.wfb = true ∧
    (extractFolderLocal i u).1.countSel = u.countSel + (extractFolderLocal i u).2
  | .mk s nd subf items, h => by
    have h2 := Bool.and_eq_true _ _ ▸ h
    have h3 : nd = subf.totalSel + itemsCount items := of_decide_eq_true h2.1
    simp only [extractFolderLocal]
    cases hg : subf.get i with
    | none => exact ⟨h, by simp⟩
    | some c =>
      dsimp only
      have hcwf : c.wfb = true := wfbF_get subf i c h2.2 hg
      have hns : c.numSelected = c.countSel := numSelected_eq_countSel c hcwf
      have hrm := totalSel_removeNth subf i c hg
      have hwrm := wfbF_removeNth subf i h2.2
      by_cases hz : c.numSelected ≠ 0
      · rw [if_pos hz]
        refine ⟨?_, ?_⟩
        · simp only [SelTree.wfb, Bool.and_eq_true, decide_eq_true_eq]
          refine ⟨?_, hwrm⟩
          rw [hrm, ← hns]
          omega
        · simp only [SelTree.countSel]
          rw [hrm, ← hns]
          omega
      · have hc0 : c.countSel = 0 := by rw [← hns]; exact not_not.mp hz
        rw [if_neg hz]
        refine ⟨?_, ?_⟩
        · simp only [SelTree.wfb, Bool.and_eq_true, decide_eq_true_eq]
          refine ⟨?_, hwrm⟩
          rw [hrm, hc0]
          omega
        · simp only [SelTree.countSel]
          rw [hrm, hc0]
          omega

/-- Extracting a child item preserves accuracy. -/
theorem extractItemLocal_wf (i : Nat) : ∀ u : SelTree, u.wfb = true →
    (extractItemLocal i u).1.wfb = true ∧
    (extractItemLocal i u).1.countSel = u.countSel + (extractItemLocal i u).2
  | .mk s nd subf items, h => by
    have h2 := Bool.and_eq_true _ _ ▸ h
    have h3 : nd = subf.totalSel + itemsCount items := of_decide_eq_true h2.1
    simp only [extractItemLocal]
    cases hg : items.get? i with
    | none => exact ⟨h, by simp⟩
    | some b =>
      dsimp only
      have hie := itemsCount_eraseSel items i b hg
      refine ⟨?_, ?_⟩
      · simp only [SelTree.wfb, Bool.and_eq_true, decide_eq_true_eq]
        refine ⟨?_, h2.2⟩
        rw [hie]
        cases b <;> simp <;> omega
      · simp only [SelTree.countSel]
        rw [hie]
        cases b <;> simp <;> omega

/-- Adding a count-accurate child folder preserves accuracy. -/
theorem addFolderLocal_wf (k : Nat) (c : SelTree) (hc : c.wfb = true) :
    ∀ u : SelTree, u.wfb = true →
    (addFolderLocal k c u).1.wfb = true ∧
    (addFolderLocal k c u).1.countSel = u.countSel + (addFolderLocal k c u).2
  | .mk s nd subf items, h => by
    have h2 := Bool.and_eq_true _ _ ▸ h
    have h3 : nd = subf.totalSel + itemsCount items := of_decide_eq_true h2.1
    have hns : c.numSelected = c.countSel := numSelected_eq_countSel c hc
    have hins := totalSel_insertAt subf k c
    have hwins := wfbF_insertAt subf k c h2.2 hc
    simp only [addFolderLocal]
    by_cases hz : c.numSelected ≠ 0
    · rw [if_pos hz]
      refine ⟨?_, ?_⟩
      · simp only [SelTree.wfb, Bool.and_eq_true, decide_eq_true_eq]
        refine ⟨?_, hwins⟩
        rw [hins, ← hns]
        omega
      · simp only [SelTree.countSel]
        rw [hins, ← hns]
        omega
    · have hc0 : c.countSel = 0 := by rw [← hns]; exact not_not.mp hz
      rw [if_neg hz]
      refine ⟨?_, ?_⟩
      · simp only [SelTree.wfb, Bool.and_eq_true, decide_eq_true_eq]
        refine ⟨?_, hwins⟩
        rw [hins, hc0]
        omega
      · simp only [SelTree.countSel]
        rw [hins, hc0]
        omega

/-- Adding a child item preserves accuracy. -/
theorem addItemLocal_wf (k : Nat) (b : Bool) : ∀ u : SelTree, u.wfb = true →
    (addItemLocal k b u).1.wfb = true ∧
    (addItemLocal k b u).1.countSel = u.countSel + (addItemLocal k b u).2
  | .mk s nd subf items, h => by
    have h2 := Bool.and_eq_true _ _ ▸ h
    have h3 : nd = subf.totalSel + itemsCount items := of_decide_eq_true h2.1
    have hii := itemsCount_insertSel items k b
    simp only [addItemLocal]
    refine ⟨?_, ?_⟩
    · simp only [SelTree.wfb, Bool.and_eq_true, decide_eq_true_eq]
      refine ⟨?_, h2.2⟩
      rw [hii]
      omega
    · simp only [SelTree.countSel]
      rw [hii]
      omega

/-- Each well-formed mutation preserves count accuracy. -/
theorem applyOp_wf : ∀ (t : SelTree) (op : SelOp), t.wfb = true → opWf op = true →
    (applyOp t op).wfb = true
  | t, .changeFolder p sel, h, _ =>
    (SelTree.modifyAt_wf _ (changeFolderLocal_wf sel) t p h).1
  | t, .changeItem p i sel, h, _ =>
    (SelTree.modifyAt_wf _ (changeItemLocal_wf i sel) t p h).1
  | t, .clear, h, _ => (SelTree.recDeselect_wf t false h).1
  | t, .extractFolder p i, h, _ =>
    (SelTree.modifyAt_wf _ (extractFolderLocal_wf i) t p h).1
  | t, .extractItem p i, h, _ =>
    (SelTree.modifyAt_wf _ (extractItemLocal_wf i) t p h).1
  | t, .addFolder p k c, h, hop =>
    (SelTree.modifyAt_wf _ (addFolderLocal_wf k c hop) t p h).1
  | t, .addItem p k b, h, _ =>
    (SelTree.modifyAt_wf _ (addItemLocal_wf k b) t p h).1

/-- C6: after any sequence of selection mutations — changing a folder
or item selection, clearing the selection, extracting a subtree or
item, or adding one whose own counts are accurate — starting from a
tree with accurate counts, every folder's maintained
`mNumDescendantsSelected`, updated only by incremental ±changes up the
ancestor chain, equals a fresh recursive count of the selected nodes
strictly below it. -/
theorem numSelectedDescendants_accurate (t : SelTree) (ops : List SelOp)
    (ht : t.wfb = true) (hops : ∀ op ∈ ops, opWf op = true) :
    (applyOps t ops).wfb = true := by
  induction ops generalizing t with
  | nil => exact ht
  | cons op ops ih =>
    exact ih (applyOp t op) (applyOp_wf t op ht (hops op (List.mem_cons_self _ _)))
      (fun o ho => hops o (List.mem_cons.mpr (Or.inr ho)))

/-- Witness tree: a root with one child folder (two items) and one
root-level item, nothing selected, all counts zero. -/
def witSelTree : SelTree :=
  .mk false 0 (.cons (.mk false 0 .nil [false, false]) .nil) [false]

/-- Witness mutation sequence exercising every kind of operation. -/
def witSelOps : List SelOp :=
  [.changeItem [0] 0 true, .changeFolder [0] true, .addItem [] 0 true,
   .extractItem [0] 1, .addFolder [] 1 (.mk true 1 .nil [true]), .clear,
   .extractFolder [] 0]

/-- Concrete witness for C6: the sample sequence keeps every
maintained count equal to the fresh recursive count. -/
theorem numSelectedDescendants_accurate_witness :
    witSelTree.wfb = true ∧ (∀ op ∈ witSelOps, opWf op = true) ∧
    (applyOps witSelTree witSelOps).wfb = true :=
  ⟨by decide, by decide,
   numSelectedDescendants_accurate witSelTree witSelOps (by decide) (by decide)⟩

end SelCount

/-! ## Tree navigation (`getNextFromChild` llfolderviewitem.cpp:2278-2380,
`getPreviousFromChild` 2384-2487, `getNextOpenNode`/`getPreviousOpenNode`
148-192)

Folders are trees with child folders listed above child items; items
are visibility flags.  A node is addressed from the root by a path of
steps, `(true, i)` selecting the `i`-th child folder and `(false, j)`
the `j`-th child item (always a final step).  The root path `[]` is
the `LLFolderView` itself, which has no parent.  Off-tree lookups,
undefined behaviour in the source, evaluate to `none`/`false`. -/

namespace Navigate

/-- One path step: folder index or item index. -/
abbrev Step := Bool × Nat

mutual
/-- A folder: own visibility, open flag, child folders, child-item
visibility flags. -/
inductive VTree where
  | mk (vis : Bool) (opn : Bool) (subf : VForest) (items : List Bool)
deriving DecidableEq
inductive VForest where
  | nil
  | cons (t : VTree) (ts : VForest)
deriving DecidableEq
end

/-- Own visibility flag. -/
def VTree.vis : VTree → Bool
  | .mk v _ _ _ => v

/-- Open flag. -/
def VTree.opn : VTree → Bool
  | .mk _ o _ _ => o

/-- Child folders. -/
def VTree.subf : VTree → VForest
  | .mk _ _ s _ => s

/-- Child-item visibility flags. -/
def VTree.items : VTree → List Bool
  | .mk _ _ _ i => i

/-- Child-folder access. -/
def VForest.getF : VForest → Nat → Option VTree
  | .nil, _ => none
  | .cons t _, 0 => some t
  | .cons _ ts, n + 1 => ts.getF n

/-- Number of child folders. -/
def VForest.lengthF : VForest → Nat
  | .nil => 0
  | .cons _ ts => ts.lengthF + 1

/-- Folder lookup along a path of folder steps. -/
def getNodeV : VTree → List Step → Option VTree
  | t, [] => some t
  | t, (true, i) :: p =>
    match t.subf.getF i with
    | some c => getNodeV c p
    | none => none
  | _, (false, _) :: _ => none

/-- Visibility flag of an item child. -/
def getI (items : List Bool) (j : Nat) : Bool :=
  match items.get? j with
  | some b => b
  | none => false

/-- `getVisible()` of the node at a path. -/
def getVisibleAt : VTree → List Step → Bool
  | t, [] => t.vis
  | t, (true, i) :: p =>
    match t.subf.getF i with
    | some c => getVisibleAt c p
    | none => false
  | t, [(false, j)] => getI t.items j
  | _, (false, _) :: _ :: _ => false

/-- Visibility of the folder at a forest position. -/
def visF (ts : VForest) (m : Nat) : Bool :=
  match ts.getF m with
  | some c => c.vis
  | none => false

/-- First visible child folder at position `≥ m`
(the forward sibling scan, llfolderviewitem.cpp:2347-2351). -/
def scanFoldersFrom : VForest → Nat → Option Nat
  | .nil, _ => none
  | .cons c ts, 0 => if c.vis then some 0 else (scanFoldersFrom ts 0).map (· + 1)
  | .cons _ ts, m + 1 => (scanFoldersFrom ts m).map (· + 1)

/-- First visible child item at position `≥ m`
(llfolderviewitem.cpp:2360-2363). -/
def scanItemsFrom : List Bool → Nat → Option Nat
  | [], _ => none
  | b :: bs, 0 => if b then some 0 else (scanItemsFrom bs 0).map (· + 1)
  | _ :: bs, m + 1 => (scanItemsFrom bs m).map (· + 1)

/-- Last visible child item at position `< bound`
(the reverse item scan, llfolderviewitem.cpp:2446-2449). -/
def scanItemsRevBelow : List Bool → Nat → Option Nat
  | [], _ => none
  | _ :: _, 0 => none
  | b :: bs, bound + 1 =>
    match scanItemsRevBelow bs bound with
    | some k => some (k + 1)
    | none => if b then some 0 else none

mutual
/-- `getPreviousFromChild(NULL)` (llfolderviewitem.cpp:2390-2393,
2446-2484): the last visible item, else the last visible folder
(descending into it when open), else the folder itself. -/
def VTree.lastVisible : VTree → List Step → List Step
  | .mk _ _ subf items, base =>
    match scanItemsRevBelow items items.length with
    | some k => base ++ [(false, k)]
    | none =>
      match subf.lastVisibleBelowF base 0 subf.lengthF with
      | some r => r
      | none => base
/-- The reverse folder scan with descent
(llfolderviewitem.cpp:2459-2476): the latest visible folder at
absolute position `< bound` (this forest starting at absolute
position `idx`), descending into it when open. -/
def VForest.lastVisibleBelowF : VForest → List Step → Nat → Nat → Option (List Step)
  | .nil, _, _, _ => none
  | .cons c ts, base, idx, bound =>
    match ts.lastVisibleBelowF base (idx + 1) bound with
    | some r => some r
    | none =>
      if idx < bound && c.vis then
        some (if c.opn then c.lastVisible (base ++ [(true, idx)]) else base ++ [(true, idx)])
      else none
end

/-- `getNextFromChild(NULL, TRUE)` before punting
(llfolderviewitem.cpp:2284-2287, 2347-2370): the first visible child
folder, else the first visible child item. -/
def firstVisibleChild (u : VTree) : Option Step :=
  match scanFoldersFrom u.subf 0 with
  | some j => some (true, j)
  | none =>
    match scanItemsFrom u.items 0 with
    | some k => some (false, k)
    | none => none

/-- The sibling scan after a found child (llfolderviewitem.cpp:
2297-2331, 2347-2370): after a folder, later folders then items from
the top; after an item, later items only. -/
def scanAfterStep (u : VTree) : Step → Option Step
  | (true, i) =>
    match scanFoldersFrom u.subf (i + 1) with
    | some j => some (true, j)
    | none =>
      match scanItemsFrom u.items 0 with
      | some k => some (false, k)
      | none => none
  | (false, j) =>
    match scanItemsFrom u.items (j + 1) with
    | some k => some (false, k)
    | none => none

/-- The upward punting chain of `getNextFromChild`
(llfolderviewitem.cpp:2372-2377): scan after the child at step `s` of
the folder whose reversed path is `rpp`; when nothing is visible,
recurse as the parent's child with children discounted. -/
def nfcNext (t : VTree) : List Step → Step → Option (List Step)
  | [], s =>
    match getNodeV t ([] : List Step) with
    | some u =>
      match scanAfterStep u s with
      | some st => some ([] ++ [st])
      | none => none
    | none => none
  | s2 :: rpp2, s =>
    match getNodeV t (s2 :: rpp2).reverse with
    | some u =>
      match scanAfterStep u s with
      | some st => some ((s2 :: rpp2).reverse ++ [st])
      | none => nfcNext t rpp2 s2
    | none => none

/-- One advance of the next-visible walk from the node with reversed
path `r`: `mParentFolder->getNextFromChild(this, TRUE)`, descending
into the node first when it is an open folder
(llfolderviewitem.cpp:2306-2310). -/
def advanceNextR (t : VTree) : List Step → Option (List Step)
  | [] => none
  | s :: rpp =>
    match s with
    | (true, i) =>
      match getNodeV t (rpp.reverse ++ [(true, i)]) with
      | some c =>
        if c.opn then
          match firstVisibleChild c with
          | some st => some ((rpp.reverse ++ [(true, i)]) ++ [st])
          | none => nfcNext t rpp (true, i)
        else nfcNext t rpp (true, i)
      | none => nfcNext t rpp (true, i)
    | (false, j) => nfcNext t rpp (false, j)

/-- `getPreviousFromChild` (llfolderviewitem.cpp:2384-2487) at the
folder with reversed path `rpp`, child step `s`: after an item child,
earlier items then the folders from the bottom; after a folder child,
earlier folders only; a chosen open folder is entered with
`getPreviousFromChild(NULL)`; with nothing above, the folder itself. -/
def pfcPrev (t : VTree) (rpp : List Step) (s : Step) : Option (List Step) :=
  match getNodeV t rpp.reverse with
  | none => none
  | some u =>
    match s with
    | (false, j) =>
      match scanItemsRevBelow u.items j with
      | some k => some (rpp.reverse ++ [(false, k)])
      | none =>
        match u.subf.lastVisibleBelowF rpp.reverse 0 u.subf.lengthF with
        | some r => some r
        | none => some rpp.reverse
    | (true, i) =>
      match u.subf.lastVisibleBelowF rpp.reverse 0 i with
      | some r => some r
      | none => some rpp.reverse

/-- One advance of the previous-visible walk:
`mParentFolder->getPreviousFromChild(this)`. -/
def advancePrevR (t : VTree) : List Step → Option (List Step)
  | [] => none
  | s :: rpp => pfcPrev t rpp s

/-- The invisible-skipping loop of `getNextOpenNode`
(llfolderviewitem.cpp:156-165), with fuel for the source's unbounded
`while`. -/
def nextLoop (t : VTree) (orig : List Step) : Nat → Option (List Step) → Option (List Step)
  | _, none => none
  | 0, some p => some p
  | fuel + 1, some p =>
    if getVisibleAt t p then some p
    else
      match advanceNextR t p.reverse with
      | none => none
      | some p2 =>
        if p2 = p then (if getVisibleAt t p then some p else some orig)
        else nextLoop t orig fuel (some p2)

/-- `LLFolderViewItem::getNextOpenNode` (llfolderviewitem.cpp:148-168):
`NULL` for the parentless root, otherwise the advance followed by the
skip loop. -/
def getNextOpenNode (t : VTree) (p : List Step) (fuel : Nat) : Option (List Step) :=
  match p with
  | [] => none
  | _ => nextLoop t p fuel (advanceNextR t p.reverse)

/-- The invisible-skipping loop of `getPreviousOpenNode`
(llfolderviewitem.cpp:179-189). -/
def prevLoop (t : VTree) (orig : List Step) : Nat → Option (List Step) → Option (List Step)
  | _, none => none
  | 0, some p => some p
  | fuel + 1, some p =>
    if getVisibleAt t p then some p
    else
      match advancePrevR t p.reverse with
      | none => none
      | some p2 =>
        if p2 = p then (if getVisibleAt t p then some p else some orig)
        else prevLoop t orig fuel (some p2)

/-- `LLFolderViewItem::getPreviousOpenNode`
(llfolderviewitem.cpp:170-192). -/
def getPreviousOpenNode (t : VTree) (p : List Step) (fuel : Nat) : Option (List Step) :=
  match p with
  | [] => none
  | _ => prevLoop t p fuel (advancePrevR t p.reverse)

/-- A path addresses a reachable visible node: every step exists,
every folder strictly above the node is open, every node on the way
(including the root and the node itself) is visible. -/
def onChain : VTree → List Step → Bool
  | t, [] => t.vis
  | t, (false, j) :: p => t.vis && p.isEmpty && getI t.items j
  | t, (true, i) :: p =>
    t.vis &&
      match t.subf.getF i with
      | some c => (decide (p = []) || c.opn) && onChain c p
      | none => false

/-- The last node of the subtree hanging from the child at step `s`
below the folder at path `a` — the child itself, entered with the
postfix descent when it is an open folder. -/
def childLast (t : VTree) (a : List Step) (s : Step) : List Step :=
  match s with
  | (false, j) => a ++ [(false, j)]
  | (true, i) =>
    match getNodeV t (a ++ [(true, i)]) with
    | some c => if c.opn then c.lastVisible (a ++ [(true, i)]) else a ++ [(true, i)]
    | none => a ++ [(true, i)]

/-- Folder lookup splits over path concatenation. -/
theorem getNodeV_append : ∀ (a : List Step) (t : VTree) (b : List Step),
    getNodeV t (a ++ b) =
      match getNodeV t a with
      | some u => getNodeV u b
      | none => none
  | [], t, b => rfl
  | (true, i) :: a, t, b => by
    simp only [List.cons_append, getNodeV]
    cases hg : t.subf.getF i with
    | none => rfl
    | some c => exact getNodeV_append a c b
  | (false, j) :: a, t, b => rfl

/-- Visibility of a node below a looked-up folder. -/
theorem getVisibleAt_append : ∀ (a : List Step) (t u : VTree) (r : List Step),
    getNodeV t a = some u → getVisibleAt t (a ++ r) = getVisibleAt u r
  | [], t, u, r, h => by
    cases h
    rfl
  | (true, i) :: a, t, u, r, h => by
    simp only [getNodeV] at h
    cases hg : t.subf.getF i with
    | none => rw [hg] at h; exact absurd h (by simp)
    | some c =>
      rw [hg] at h
      simp only [List.cons_append, getVisibleAt, hg]
      exact getVisibleAt_append a c u r h
  | (false, j) :: a, t, u, r, h => by
    simp only [getNodeV] at h
    exact absurd h (by simp)

/-- Visibility of a looked-up folder is its own flag. -/
theorem getVisibleAt_node (a : List Step) (t u : VTree) (h : getNodeV t a = some u) :
    getVisibleAt t a = u.vis := by
  have := getVisibleAt_append a t u [] h
  rw [List.append_nil] at this
  rw [this]
  rfl

/-- Forward folder scan, positive result: the least visible position
at or after the start. -/
theorem scanFoldersFrom_some : ∀ (ts : VForest) (m j : Nat),
    scanFoldersFrom ts m = some j →
    m ≤ j ∧ visF ts j = true ∧ ∀ x, m ≤ x → x < j → visF ts x = false
  | .nil, m, j, h => by simp [scanFoldersFrom] at h
  | .cons c ts, 0, j, h => by
    simp only [scanFoldersFrom] at h
    by_cases hv : c.vis = true
    · rw [if_pos hv] at h
      cases h
      exact ⟨Nat.zero_le _, hv, fun x hx1 hx2 => absurd hx2 (by omega)⟩
    · rw [if_neg hv] at h
      cases h2 : scanFoldersFrom ts 0 with
      | none => rw [h2] at h; simp at h
      | some j2 =>
        rw [h2] at h
        simp only [Option.map_some'] at h
        cases h
        obtain ⟨_, hvj, hlt⟩ := scanFoldersFrom_some ts 0 j2 h2
        refine ⟨Nat.zero_le _, hvj, ?_⟩
        intro x _ hx2
        cases x with
        | zero =>
          simp only [visF, VForest.getF]
          exact Bool.eq_false_iff.mpr hv
        | succ x2 =>
          exact hlt x2 (Nat.zero_le _) (by omega)
  | .cons c ts, m + 1, j, h => by
    simp only [scanFoldersFrom] at h
    cases h2 : scanFoldersFrom ts m with
    | none => rw [h2] at h; simp at h
    | some j2 =>
      rw [h2] at h
      simp only [Option.map_some'] at h
      cases h
      obtain ⟨hm, hvj, hlt⟩ := scanFoldersFrom_some ts m j2 h2
      refine ⟨by omega, hvj, ?_⟩
      intro x hx1 hx2
      cases x with
      | zero => omega
      | succ x2 => exact hlt x2 (by omega) (by omega)

/-- Forward folder scan, negative result: nothing visible at or after
the start. -/
theorem scanFoldersFrom_none : ∀ (ts : VForest) (m : Nat),
    scanFoldersFrom ts m = none → ∀ x, m ≤ x → visF ts x = false
  | .nil, m, _, x, _ => by
    cases x <;> simp [visF, VForest.getF]
  | .cons c ts, 0, h, x, _ => by
    simp only [scanFoldersFrom] at h
    by_cases hv : c.vis = true
    · rw [if_pos hv] at h; simp at h
    · rw [if_neg hv] at h
      cases h2 : scanFoldersFrom ts 0 with
      | some j2 => rw [h2] at h; simp at h
      | none =>
        cases x with
        | zero =>
          simp only [visF, VForest.getF]
          exact Bool.eq_false_iff.mpr hv
        | succ x2 => exact scanFoldersFrom_none ts 0 h2 x2 (Nat.zero_le _)
  | .cons c ts, m + 1, h, x, hx => by
    simp only [scanFoldersFrom] at h
    cases h2 : scanFoldersFrom ts m with
    | some j2 => rw [h2] at h; simp at h
    | none =>
      cases x with
      | zero => omega
      | succ x2 => exact scanFoldersFrom_none ts m h2 x2 (by omega)

/-- Forward item scan, positive result. -/
theorem scanItemsFrom_some : ∀ (items : List Bool) (m j : Nat),
    scanItemsFrom items m = some j →
    m ≤ j ∧ getI items j = true ∧ ∀ x, m ≤ x → x < j → getI items x = false
  | [], m, j, h => by simp [scanItemsFrom] at h
  | b :: bs, 0, j, h => by
    simp only [scanItemsFrom] at h
    by_cases hv : b = true
    · rw [if_pos hv] at h
      cases h
      exact ⟨Nat.zero_le _, hv, fun x hx1 hx2 => absurd hx2 (by omega)⟩
    · rw [if_neg hv] at h
      cases h2 : scanItemsFrom bs 0 with
      | none => rw [h2] at h; simp at h
      | some j2 =>
        rw [h2] at h
        simp only [Option.map_some'] at h
        cases h
        obtain ⟨_, hvj, hlt⟩ := scanItemsFrom_some bs 0 j2 h2
        refine ⟨Nat.zero_le _, hvj, ?_⟩
        intro x _ hx2
        cases x with
        | zero =>
          simp only [getI, List.get?]
          exact Bool.eq_false_iff.mpr hv
        | succ x2 => exact hlt x2 (Nat.zero_le _) (by omega)
  | b :: bs, m + 1, j, h => by
    simp only [scanItemsFrom] at h
    cases h2 : scanItemsFrom bs m with
    | none => rw [h2] at h; simp at h
    | some j2 =>
      rw [h2] at h
      simp only [Option.map_some'] at h
      cases h
      obtain ⟨hm, hvj, hlt⟩ := scanItemsFrom_some bs m j2 h2
      refine ⟨by omega, hvj, ?_⟩
      intro x hx1 hx2
      cases x with
      | zero => omega
      | succ x2 => exact hlt x2 (by omega) (by omega)

/-- Forward item scan, negative result. -/
theorem scanItemsFrom_none : ∀ (items : List Bool) (m : Nat),
    scanItemsFrom items m = none → ∀ x, m ≤ x → getI items x = false
  | [], m, _, x, _ => by cases x <;> simp [getI, List.get?]
  | b :: bs, 0, h, x, _ => by
    simp only [scanItemsFrom] at h
    by_cases hv : b = true
    · rw [if_pos hv] at h; simp at h
    · rw [if_neg hv] at h
      cases h2 : scanItemsFrom bs 0 with
      | some j2 => rw [h2] at h; simp at h
      | none =>
        cases x with
        | zero =>
          simp only [getI, List.get?]
          exact Bool.eq_false_iff.mpr hv
        | succ x2 => exact scanItemsFrom_none bs 0 h2 x2 (Nat.zero_le _)
  | b :: bs, m + 1, h, x, hx => by
    simp only [scanItemsFrom] at h
    cases h2 : scanItemsFrom bs m with
    | some j2 => rw [h2] at h; simp at h
    | none =>
      cases x with
      | zero => omega
      | succ x2 => exact scanItemsFrom_none bs m h2 x2 (by omega)

/-- Reverse item scan, introduction of a negative result. -/
theorem scanItemsRevBelow_none : ∀ (items : List Bool) (bound : Nat),
    (∀ x, x < bound → getI items x = false) →
    scanItemsRevBelow items bound = none
  | [], bound, _ => by cases bound <;> rfl
  | b :: bs, 0, _ => rfl
  | b :: bs, bound + 1, h => by
    have hrec : scanItemsRevBelow bs bound = none := by
      apply scanItemsRevBelow_none
      intro x hx
      exact h (x + 1) (by omega)
    have hb : b = false := h 0 (by omega)
    simp only [scanItemsRevBelow, hrec, hb]
    rfl

/-- Reverse item scan, introduction of a positive result: the
greatest visible position below the bound. -/
theorem scanItemsRevBelow_intro : ∀ (items : List Bool) (j bound : Nat),
    getI items j = true → j < bound →
    (∀ x, j < x → x < bound → getI items x = false) →
    scanItemsRevBelow items bound = some j
  | [], j, bound, hj, _, _ => by simp [getI, List.get?] at hj
  | b :: bs, j, 0, _, hlt, _ => by omega
  | b :: bs, 0, bound + 1, hj, hlt, habove => by
    simp only [getI, List.get?] at hj
    have hnone : scanItemsRevBelow bs bound = none := by
      apply scanItemsRevBelow_none
      intro x hx
      exact habove (x + 1) (by omega) (by omega)
    simp only [scanItemsRevBelow, hnone, hj, if_true]
  | b :: bs, j + 1, bound + 1, hj, hlt, habove => by
    have hrec : scanItemsRevBelow bs bound = some j := by
      apply scanItemsRevBelow_intro bs j bound hj (by omega)
      intro x hx1 hx2
      exact habove (x + 1) (by omega) (by omega)
    simp only [scanItemsRevBelow, hrec]

/-- Reverse item scan, elimination: the result is visible and below
the bound. -/
theorem scanItemsRevBelow_elim : ∀ (items : List Bool) (bound k : Nat),
    scanItemsRevBelow items bound = some k → getI items k = true ∧ k < bound
  | [], bound, k, h => by cases bound <;> simp [scanItemsRevBelow] at h
  | b :: bs, 0, k, h => by simp [scanItemsRevBelow] at h
  | b :: bs, bound + 1, k, h => by
    simp only [scanItemsRevBelow] at h
    cases h2 : scanItemsRevBelow bs bound with
    | some k2 =>
      rw [h2] at h
      cases h
      obtain ⟨hv, hlt⟩ := scanItemsRevBelow_elim bs bound _ h2
      exact ⟨hv, by omega⟩
    | none =>
      rw [h2] at h
      by_cases hb : b = true
      · rw [hb] at h
        simp at h
        cases h
        exact ⟨hb, by omega⟩
      · rw [Bool.eq_false_iff.mpr hb] at h
        simp at h

/-- Reverse folder scan with descent, introduction of a negative
result. -/
theorem lastVisibleBelowF_none : ∀ (ts : VForest) (base : List Step) (idx bound : Nat),
    (∀ m, idx + m < bound → visF ts m = false) →
    ts.lastVisibleBelowF base idx bound = none
  | .nil, _, _, _, _ => rfl
  | .cons c0 ts, base, idx, bound, h => by
    have hrec : ts.lastVisibleBelowF base (idx + 1) bound = none := by
      apply lastVisibleBelowF_none
      intro m hm
      exact h (m + 1) (by omega)
    simp only [VForest.lastVisibleBelowF, hrec]
    by_cases hib : idx < bound
    · have hv : c0.vis = false := by
        have := h 0 (by omega)
        simpa [visF, VForest.getF] using this
      simp [hv]
    · simp [hib]

/-- Reverse folder scan with descent, introduction of a positive
result at the greatest visible position below the bound. -/
theorem lastVisibleBelowF_intro : ∀ (ts : VForest) (base : List Step) (idx bound i : Nat)
    (c : VTree), ts.getF i = some c → c.vis = true → idx + i < bound →
    (∀ m, i < m → idx + m < bound → visF ts m = false) →
    ts.lastVisibleBelowF base idx bound =
      some (if c.opn then c.lastVisible (base ++ [(true, idx + i)])
            else base ++ [(true, idx + i)])
  | .nil, base, idx, bound, i, c, hg, _, _, _ => by simp [VForest.getF] at hg
  | .cons c0 ts, base, idx, bound, 0, c, hg, hv, hb, habove => by
    simp only [VForest.getF] at hg
    cases hg
    have hnone : ts.lastVisibleBelowF base (idx + 1) bound = none := by
      apply lastVisibleBelowF_none
      intro m hm
      exact habove (m + 1) (by omega) (by omega)
    have hcond : (decide (idx < bound) && c0.vis) = true := by
      simp [hv]
      omega
    simp [VForest.lastVisibleBelowF, hnone, hcond]
  | .cons c0 ts, base, idx, bound, i + 1, c, hg, hv, hb, habove => by
    simp only [VForest.getF] at hg
    have hrec : ts.lastVisibleBelowF base (idx + 1) bound =
        some (if c.opn then c.lastVisible (base ++ [(true, (idx + 1) + i)])
              else base ++ [(true, (idx + 1) + i)]) := by
      apply lastVisibleBelowF_intro ts base (idx + 1) bound i c hg hv (by omega)
      intro m hm1 hm2
      exact habove (m + 1) (by omega) (by omega)
    have heq : (idx + 1) + i = idx + (i + 1) := by omega
    rw [heq] at hrec
    simp only [VForest.lastVisibleBelowF, hrec]

/-- Reverse folder scan with descent, elimination: the result comes
from a visible folder below the bound. -/
theorem lastVisibleBelowF_elim : ∀ (ts : VForest) (base : List Step) (idx bound : Nat)
    (r : List Step), ts.lastVisibleBelowF base idx bound = some r →
    ∃ m c, ts.getF m = some c ∧ c.vis = true ∧ idx + m < bound ∧
      r = (if c.opn then c.lastVisible (base ++ [(true, idx + m)])
           else base ++ [(true, idx + m)])
  | .nil, base, idx, bound, r, h => by simp [VForest.lastVisibleBelowF] at h
  | .cons c0 ts, base, idx, bound, r, h => by
    simp only [VForest.lastVisibleBelowF] at h
    cases h2 : ts.lastVisibleBelowF base (idx + 1) bound with
    | some r2 =>
      rw [h2] at h
      cases h
      obtain ⟨m, c, hg, hv, hb, hr⟩ := lastVisibleBelowF_elim ts base (idx + 1) bound _ h2
      refine ⟨m + 1, c, hg, hv, by omega, ?_⟩
      have heq : (idx + 1) + m = idx + (m + 1) := by omega
      rw [heq] at hr
      exact hr
    | none =>
      rw [h2] at h
      by_cases hc : (idx < bound && c0.vis) = true
      · rw [hc] at h
        simp at h
        cases h
        refine ⟨0, c0, rfl, (Bool.and_eq_true _ _ ▸ hc).2, ?_, ?_⟩
        · have := (Bool.and_eq_true _ _ ▸ hc).1
          simp at this
          omega
        · rfl
      · rw [Bool.eq_false_iff.mpr hc] at h
        simp at h


mutual
/-- The postfix descent only extends its base path. -/
theorem lastVisible_shape : ∀ (u : VTree) (base : List Step),
    ∃ ext, u.lastVisible base = base ++ ext
  | .mk v o subf items, base => by
    simp only [VTree.lastVisible]
    cases h1 : scanItemsRevBelow items items.length with
    | some k => exact ⟨[(false, k)], rfl⟩
    | none =>
      cases h2 : subf.lastVisibleBelowF base 0 subf.lengthF with
      | some r =>
        obtain ⟨st, ext, hr⟩ := lastVisibleBelowF_shape subf base 0 subf.lengthF r h2
        exact ⟨st :: ext, hr⟩
      | none => exact ⟨[], (List.append_nil base).symm⟩

/-- A reverse folder-scan result extends the base by at least one
step. -/
theorem lastVisibleBelowF_shape : ∀ (ts : VForest) (base : List Step) (idx bound : Nat)
    (r : List Step), ts.lastVisibleBelowF base idx bound = some r →
    ∃ st ext, r = base ++ st :: ext
  | .nil, base, idx, bound, r, h => by simp [VForest.lastVisibleBelowF] at h
  | .cons c0 ts, base, idx, bound, r, h => by
    simp only [VForest.lastVisibleBelowF] at h
    cases h2 : ts.lastVisibleBelowF base (idx + 1) bound with
    | some r2 =>
      rw [h2] at h
      cases h
      exact lastVisibleBelowF_shape ts base (idx + 1) bound _ h2
    | none =>
      rw [h2] at h
      by_cases hc : (decide (idx < bound) && c0.vis) = true
      · rw [hc] at h
        simp only [if_true] at h
        cases h
        by_cases ho : c0.opn = true
        · rw [if_pos ho]
          obtain ⟨ext, he⟩ := lastVisible_shape c0 (base ++ [(true, idx)])
          rw [he, List.append_assoc]
          exact ⟨(true, idx), ext, rfl⟩
        · rw [if_neg ho]
          exact ⟨(true, idx), [], rfl⟩
      · rw [Bool.eq_false_iff.mpr hc] at h
        simp at h
end

/-- A visible item index is in range. -/
theorem getI_lt : ∀ (items : List Bool) (j : Nat), getI items j = true → j < items.length
  | [], j, h => by simp [getI, List.get?] at h
  | b :: bs, 0, _ => by simp
  | b :: bs, j + 1, h => by
    have := getI_lt bs j h
    simp only [List.length_cons]
    omega

/-- A present folder index is in range. -/
theorem getF_lt : ∀ (ts : VForest) (i : Nat) (c : VTree), ts.getF i = some c →
    i < ts.lengthF
  | .nil, i, c, h => by simp [VForest.getF] at h
  | .cons c0 ts, 0, c, _ => by simp [VForest.lengthF]
  | .cons c0 ts, i + 1, c, h => by
    have := getF_lt ts i c h
    simp only [VForest.lengthF]
    omega

/-- Lookup one folder step below a looked-up folder. -/
theorem getNodeV_step (t : VTree) (a : List Step) (u c : VTree) (i : Nat)
    (hu : getNodeV t a = some u) (hc : u.subf.getF i = some c) :
    getNodeV t (a ++ [(true, i)]) = some c := by
  rw [getNodeV_append, hu]
  simp [getNodeV, hc]

mutual
/-- The postfix descent lands on a visible node. -/
theorem lastVisible_vis (t : VTree) : ∀ (u : VTree) (b : List Step),
    getNodeV t b = some u → u.vis = true →
    getVisibleAt t (u.lastVisible b) = true
  | .mk v o subf items, b, hb, hv => by
    cases h1 : scanItemsRevBelow items items.length with
    | some k =>
      have hred : VTree.lastVisible (VTree.mk v o subf items) b = b ++ [(false, k)] := by
        simp [VTree.lastVisible, h1]
      rw [hred, getVisibleAt_append b t _ [(false, k)] hb]
      obtain ⟨hik, _⟩ := scanItemsRevBelow_elim items items.length k h1
      simpa [getVisibleAt] using hik
    | none =>
      cases h2 : subf.lastVisibleBelowF b 0 subf.lengthF with
      | some r =>
        have hred : VTree.lastVisible (VTree.mk v o subf items) b = r := by
          simp [VTree.lastVisible, h1, h2]
        rw [hred]
        refine lastVisibleBelowF_vis t subf b 0 subf.lengthF ?_ r h2
        intro m c hm
        have := getNodeV_step t b (VTree.mk v o subf items) c m hb hm
        simpa using this
      | none =>
        have hred : VTree.lastVisible (VTree.mk v o subf items) b = b := by
          simp [VTree.lastVisible, h1, h2]
        rw [hred, getVisibleAt_node b t _ hb]
        exact hv

/-- A reverse folder-scan result is a visible node. -/
theorem lastVisibleBelowF_vis (t : VTree) : ∀ (ts : VForest) (b : List Step) (idx bound : Nat),
    (∀ m c, ts.getF m = some c → getNodeV t (b ++ [(true, idx + m)]) = some c) →
    ∀ r, ts.lastVisibleBelowF b idx bound = some r → getVisibleAt t r = true
  | .nil, b, idx, bound, _, r, h => by simp [VForest.lastVisibleBelowF] at h
  | .cons c0 ts, b, idx, bound, hyp, r, h => by
    simp only [VForest.lastVisibleBelowF] at h
    cases h2 : ts.lastVisibleBelowF b (idx + 1) bound with
    | some r2 =>
      rw [h2] at h
      cases h
      refine lastVisibleBelowF_vis t ts b (idx + 1) bound ?_ _ h2
      intro m c hm
      have hm2 : (VForest.cons c0 ts).getF (m + 1) = some c := hm
      have := hyp (m + 1) c hm2
      have heq : idx + (m + 1) = (idx + 1) + m := by omega
      rw [heq] at this
      exact this
    | none =>
      rw [h2] at h
      by_cases hc : (decide (idx < bound) && c0.vis) = true
      · rw [hc] at h
        simp only [if_true] at h
        cases h
        have hvc : c0.vis = true := (Bool.and_eq_true _ _ ▸ hc).2
        have hb0 : getNodeV t (b ++ [(true, idx)]) = some c0 := by
          have := hyp 0 c0 rfl
          simpa using this
        by_cases ho : c0.opn = true
        · rw [if_pos ho]
          exact lastVisible_vis t c0 (b ++ [(true, idx)]) hb0 hvc
        · rw [if_neg ho]
          rw [getVisibleAt_node _ t _ hb0]
          exact hvc
      · rw [Bool.eq_false_iff.mpr hc] at h
        simp at h
end

/-- After the last visible item, the postfix descent of the parent
lands on that item. -/
theorem lastVisible_scanAfter_item (t : VTree) (a : List Step) (u : VTree) (j : Nat)
    (hj : getI u.items j = true)
    (hscan : scanItemsFrom u.items (j + 1) = none) :
    u.lastVisible a = a ++ [(false, j)] := by
  rcases u with ⟨v, o, subf, items⟩
  have hrib : scanItemsRevBelow items items.length = some j := by
    apply scanItemsRevBelow_intro items j items.length hj (getI_lt items j hj)
    intro x hx1 hx2
    exact scanItemsFrom_none items (j + 1) hscan x (by omega)
  simp [VTree.lastVisible, hrib]

/-- After the last visible folder with no visible items, the postfix
descent of the parent enters that folder. -/
theorem lastVisible_scanAfter_folder (t : VTree) (a : List Step) (u c : VTree) (i : Nat)
    (hu : getNodeV t a = some u) (hci : u.subf.getF i = some c) (hcv : c.vis = true)
    (hsf : scanFoldersFrom u.subf (i + 1) = none)
    (hsi : scanItemsFrom u.items 0 = none) :
    u.lastVisible a = childLast t a (true, i) := by
  rcases u with ⟨v, o, subf, items⟩
  have hrib : scanItemsRevBelow items items.length = none := by
    apply scanItemsRevBelow_none
    intro x _
    exact scanItemsFrom_none items 0 hsi x (Nat.zero_le _)
  have hlb : subf.lastVisibleBelowF a 0 subf.lengthF =
      some (if c.opn then c.lastVisible (a ++ [(true, 0 + i)]) else a ++ [(true, 0 + i)]) := by
    apply lastVisibleBelowF_intro subf a 0 subf.lengthF i c hci hcv
    · simpa using getF_lt subf i c hci
    · intro m hm1 hm2
      exact scanFoldersFrom_none subf (i + 1) hsf m (by omega)
  rw [Nat.zero_add] at hlb
  have hcl : childLast t a (true, i) =
      if c.opn then c.lastVisible (a ++ [(true, i)]) else a ++ [(true, i)] := by
    simp [childLast, getNodeV_step t a (VTree.mk v o subf items) c i hu hci]
  simp [VTree.lastVisible, hrib, hlb, hcl]

/-- A reachable node keeps its root visible. -/
theorem onChain_vis_head : ∀ (t : VTree) (p : List Step), onChain t p = true →
    t.vis = true
  | t, [], h => h
  | t, (false, j) :: p, h => by
    simp only [onChain, Bool.and_eq_true] at h
    exact h.1.1
  | t, (true, i) :: p, h => by
    simp only [onChain, Bool.and_eq_true] at h
    exact h.1

/-- Local facts at a step of a reachable path: the folder above it
exists, the addressed child exists and is visible, item steps are
final, and a folder step continued below is open. -/
theorem onChain_facts : ∀ (a : List Step) (t : VTree) (s : Step) (rest : List Step),
    onChain t (a ++ s :: rest) = true →
    ∃ u, getNodeV t a = some u ∧
      (match s with
       | (true, i) => ∃ c, u.subf.getF i = some c ∧ c.vis = true ∧
           (rest = [] ∨ c.opn = true)
       | (false, j) => getI u.items j = true ∧ rest = [])
  | [], t, (false, j), rest, h => by
    simp only [List.nil_append, onChain, Bool.and_eq_true] at h
    refine ⟨t, rfl, h.2, ?_⟩
    have := h.1.2
    simpa [List.isEmpty_iff] using this
  | [], t, (true, i), rest, h => by
    simp only [List.nil_append, onChain, Bool.and_eq_true] at h
    obtain ⟨hv, h2⟩ := h
    cases hg : t.subf.getF i with
    | none => rw [hg] at h2; simp at h2
    | some c =>
      rw [hg] at h2
      simp only [Bool.and_eq_true, Bool.or_eq_true, decide_eq_true_eq] at h2
      refine ⟨t, rfl, c, hg, onChain_vis_head c rest h2.2, ?_⟩
      rcases h2.1 with h3 | h3
      · exact Or.inl h3
      · exact Or.inr h3
  | (false, j) :: a, t, s, rest, h => by
    exfalso
    simp only [List.cons_append, onChain] at h
    obtain ⟨h1, h2⟩ := Bool.and_eq_true _ _ ▸ h
    obtain ⟨h3, h4⟩ := Bool.and_eq_true _ _ ▸ h1
    simp [List.isEmpty_iff] at h4
  | (true, i) :: a, t, s, rest, h => by
    simp only [List.cons_append, onChain, Bool.and_eq_true] at h
    obtain ⟨hv, h2⟩ := h
    cases hg : t.subf.getF i with
    | none => rw [hg] at h2; simp at h2
    | some c =>
      rw [hg] at h2
      simp only [Bool.and_eq_true] at h2
      obtain ⟨u, hu, hfacts⟩ := onChain_facts a c s rest h2.2
      refine ⟨u, ?_, hfacts⟩
      simp [getNodeV, hg, hu]

/-- Truncating a reachable path after a step keeps it reachable. -/
theorem onChain_truncate : ∀ (a : List Step) (t : VTree) (s : Step) (rest : List Step),
    onChain t (a ++ s :: rest) = true → onChain t (a ++ [s]) = true
  | [], t, (false, j), rest, h => by
    simp only [List.nil_append, onChain] at h ⊢
    obtain ⟨h1, h2⟩ := Bool.and_eq_true _ _ ▸ h
    obtain ⟨h3, _⟩ := Bool.and_eq_true _ _ ▸ h1
    rw [Bool.and_eq_true, Bool.and_eq_true]
    exact ⟨⟨h3, rfl⟩, h2⟩
  | [], t, (true, i), rest, h => by
    simp only [List.nil_append, onChain, Bool.and_eq_true] at h ⊢
    obtain ⟨hv, h2⟩ := h
    refine ⟨hv, ?_⟩
    cases hg : t.subf.getF i with
    | none => rw [hg] at h2; simp at h2
    | some c =>
      rw [hg] at h2
      simp only [Bool.and_eq_true] at h2
      show ((decide (([] : List Step) = []) || c.opn) && onChain c []) = true
      rw [Bool.and_eq_true]
      exact ⟨by simp, onChain_vis_head c rest h2.2⟩
  | (false, j) :: a, t, s, rest, h => by
    exfalso
    simp only [List.cons_append, onChain] at h
    obtain ⟨h1, h2⟩ := Bool.and_eq_true _ _ ▸ h
    obtain ⟨h3, h4⟩ := Bool.and_eq_true _ _ ▸ h1
    simp [List.isEmpty_iff] at h4
  | (true, i) :: a, t, s, rest, h => by
    simp only [List.cons_append, onChain, Bool.and_eq_true] at h ⊢
    obtain ⟨hv, h2⟩ := h
    refine ⟨hv, ?_⟩
    cases hg : t.subf.getF i with
    | none => rw [hg] at h2; simp at h2
    | some c =>
      rw [hg] at h2
      simp only [Bool.and_eq_true] at h2 ⊢
      refine ⟨?_, onChain_truncate a c s rest h2.2⟩
      rcases (Bool.or_eq_true _ _ ▸ h2.1) with h3 | h3
      · simp only [decide_eq_true_eq] at h3
        exact absurd h3 (by simp)
      · simp [h3]

/-- The child at a step exists and is visible. -/
def stepVisP (u : VTree) : Step → Prop
  | (true, i) => ∃ c, u.subf.getF i = some c ∧ c.vis = true
  | (false, j) => getI u.items j = true

/-- When the forward scan after a child finds the next visible node,
the backward walk from that node returns to the last node of the
child's subtree. -/
theorem pfcPrev_of_scanAfter (t : VTree) (rpp : List Step) (s st : Step) (u : VTree)
    (p : List Step) (hu : getNodeV t rpp.reverse = some u)
    (hstep : stepVisP u s)
    (hscan : scanAfterStep u s = some st)
    (hinv : p = childLast t rpp.reverse s) :
    pfcPrev t rpp st = some p := by
  rcases s with ⟨b, n⟩
  cases b
  case false =>
    simp only [stepVisP] at hstep
    simp only [scanAfterStep] at hscan
    cases hsi : scanItemsFrom u.items (n + 1) with
    | none => rw [hsi] at hscan; simp at hscan
    | some k =>
      rw [hsi] at hscan
      obtain rfl := Option.some.inj hscan
      obtain ⟨hle, hkvis, hbetween⟩ := scanItemsFrom_some u.items (n + 1) k hsi
      have hrib : scanItemsRevBelow u.items k = some n :=
        scanItemsRevBelow_intro u.items n k hstep (by omega)
          (fun x hx1 hx2 => hbetween x (by omega) hx2)
      simp only [pfcPrev, hu, hrib]
      rw [hinv]
      simp [childLast]
  case true =>
    obtain ⟨c, hci, hcv⟩ := hstep
    simp only [scanAfterStep] at hscan
    cases hsf : scanFoldersFrom u.subf (n + 1) with
    | some j =>
      rw [hsf] at hscan
      obtain rfl := Option.some.inj hscan
      obtain ⟨hle, hjvis, hbetween⟩ := scanFoldersFrom_some u.subf (n + 1) j hsf
      have hlb : u.subf.lastVisibleBelowF rpp.reverse 0 j =
          some (if c.opn then c.lastVisible (rpp.reverse ++ [(true, 0 + n)])
                else rpp.reverse ++ [(true, 0 + n)]) :=
        lastVisibleBelowF_intro u.subf rpp.reverse 0 j n c hci hcv (by omega)
          (fun m hm1 hm2 => hbetween m (by omega) (by omega))
      rw [Nat.zero_add] at hlb
      simp only [pfcPrev, hu, hlb]
      rw [hinv]
      simp [childLast, getNodeV_step t rpp.reverse u c n hu hci]
    | none =>
      rw [hsf] at hscan
      cases hsi : scanItemsFrom u.items 0 with
      | none => rw [hsi] at hscan; simp at hscan
      | some k =>
        rw [hsi] at hscan
        obtain rfl := Option.some.inj hscan
        obtain ⟨_, hkvis, hbelow⟩ := scanItemsFrom_some u.items 0 k hsi
        have hrib : scanItemsRevBelow u.items k = none :=
          scanItemsRevBelow_none u.items k (fun x hx => hbelow x (Nat.zero_le _) hx)
        have hlb : u.subf.lastVisibleBelowF rpp.reverse 0 u.subf.lengthF =
            some (if c.opn then c.lastVisible (rpp.reverse ++ [(true, 0 + n)])
                  else rpp.reverse ++ [(true, 0 + n)]) :=
          lastVisibleBelowF_intro u.subf rpp.reverse 0 u.subf.lengthF n c hci hcv
            (by simpa using getF_lt u.subf n c hci)
            (fun m hm1 hm2 => scanFoldersFrom_none u.subf (n + 1) hsf m (by omega))
        rw [Nat.zero_add] at hlb
        simp only [pfcPrev, hu, hrib, hlb]
        rw [hinv]
        simp [childLast, getNodeV_step t rpp.reverse u c n hu hci]

/-- Unfolding equation for the punting chain. -/
theorem nfcNext_eq (t : VTree) (rpp : List Step) (s : Step) :
    nfcNext t rpp s =
      match getNodeV t rpp.reverse with
      | some u =>
        match scanAfterStep u s with
        | some st => some (rpp.reverse ++ [st])
        | none =>
          match rpp with
          | [] => none
          | s2 :: rpp2 => nfcNext t rpp2 s2
      | none => none := by
  cases rpp <;> rfl

/-- Walking forward through the punting chain and then backward
returns to the last node of the original child's subtree. -/
theorem nfcNext_prev (t : VTree) : ∀ (rpp : List Step) (s : Step) (p q : List Step),
    onChain t (rpp.reverse ++ [s]) = true →
    p = childLast t rpp.reverse s →
    nfcNext t rpp s = some q → advancePrevR t q.reverse = some p
  | [], s, p, q, hchain, hinv, hq => by
    obtain ⟨u, hu, hfacts⟩ := onChain_facts [] t s [] (by simpa using hchain)
    have hu2 : getNodeV t (List.reverse ([] : List Step)) = some u := by simpa using hu
    have hstep : stepVisP u s :=
      match s, hfacts with
      | (true, i), ⟨c, h1, h2, _⟩ => ⟨c, h1, h2⟩
      | (false, j), ⟨h1, _⟩ => h1
    rw [nfcNext_eq, hu2] at hq
    dsimp only at hq
    cases hscan : scanAfterStep u s with
    | none => rw [hscan] at hq; simp at hq
    | some st =>
      rw [hscan] at hq
      simp only at hq
      obtain rfl := Option.some.inj hq
      have hgoal := pfcPrev_of_scanAfter t [] s st u p hu2 hstep hscan (by simpa using hinv)
      simp only [List.reverse_append, List.reverse_reverse]
      simpa using hgoal
  | s2 :: rpp2, s, p, q, hchain, hinv, hq => by
    obtain ⟨u, hu, hfacts⟩ := onChain_facts ((s2 :: rpp2).reverse) t s []
      (by simpa using hchain)
    have hstep : stepVisP u s :=
      match s, hfacts with
      | (true, i), ⟨c, h1, h2, _⟩ => ⟨c, h1, h2⟩
      | (false, j), ⟨h1, _⟩ => h1
    rw [nfcNext_eq, hu] at hq
    dsimp only at hq
    cases hscan : scanAfterStep u s with
    | some st =>
      rw [hscan] at hq
      simp only at hq
      obtain rfl := Option.some.inj hq
      have hgoal := pfcPrev_of_scanAfter t (s2 :: rpp2) s st u p hu hstep hscan hinv
      simp only [List.reverse_append, List.reverse_reverse]
      simpa using hgoal
    | none =>
      rw [hscan] at hq
      have hq2 : nfcNext t rpp2 s2 = some q := hq
      have hchain0 : onChain t ((rpp2.reverse ++ [s2]) ++ s :: []) = true := by
        have : (s2 :: rpp2).reverse ++ [s] = (rpp2.reverse ++ [s2]) ++ s :: [] := by
          simp [List.reverse_cons]
        rw [← this]
        exact hchain
      have hchain1 : onChain t (rpp2.reverse ++ s2 :: [s]) = true := by
        simpa [List.append_assoc] using hchain0
      have hchain2 : onChain t (rpp2.reverse ++ [s2]) = true :=
        onChain_truncate rpp2.reverse t s2 [s] hchain1
      obtain ⟨u2, hu2, hfacts2⟩ := onChain_facts rpp2.reverse t s2 [s] hchain1
      rcases s2 with ⟨b2, i2⟩
      cases b2
      case false =>
        exfalso
        simp only at hfacts2
        exact absurd hfacts2.2 (by simp)
      case true =>
        simp only at hfacts2
        obtain ⟨c2, hc2i, hc2v, hor⟩ := hfacts2
        have hc2o : c2.opn = true := by
          rcases hor with h3 | h3
          · exact absurd h3 (by simp)
          · exact h3
        have hlook : getNodeV t (rpp2.reverse ++ [(true, i2)]) = some c2 :=
          getNodeV_step t rpp2.reverse u2 c2 i2 hu2 hc2i
        have huc : u = c2 := by
          have hu3 : getNodeV t (rpp2.reverse ++ [(true, i2)]) = some u := by
            have : ((true, i2) :: rpp2).reverse = rpp2.reverse ++ [(true, i2)] := by
              simp [List.reverse_cons]
            rw [← this]
            exact hu
          rw [hu3] at hlook
          exact Option.some.inj hlook
        have hlast : u.lastVisible ((true, i2) :: rpp2).reverse = p := by
          rcases s with ⟨b, n⟩
          cases b
          case false =>
            simp only [scanAfterStep] at hscan
            cases hsi : scanItemsFrom u.items (n + 1) with
            | some k => rw [hsi] at hscan; simp at hscan
            | none =>
              rw [hinv]
              exact lastVisible_scanAfter_item t _ u n hstep hsi
          case true =>
            obtain ⟨c, hci, hcv⟩ := hstep
            simp only [scanAfterStep] at hscan
            cases hsf : scanFoldersFrom u.subf (n + 1) with
            | some j => rw [hsf] at hscan; simp at hscan
            | none =>
              rw [hsf] at hscan
              cases hsi : scanItemsFrom u.items 0 with
              | some k => rw [hsi] at hscan; simp at hscan
              | none =>
                rw [hinv]
                exact lastVisible_scanAfter_folder t _ u c n hu hci hcv hsf hsi
        have hinv2 : p = childLast t rpp2.reverse (true, i2) := by
          have hcl : childLast t rpp2.reverse (true, i2) =
              c2.lastVisible (rpp2.reverse ++ [(true, i2)]) := by
            simp [childLast, hlook, hc2o]
          rw [hcl, ← huc]
          rw [← hlast]
          have : ((true, i2) :: rpp2).reverse = rpp2.reverse ++ [(true, i2)] := by
            simp [List.reverse_cons]
          rw [this]
        exact nfcNext_prev t rpp2 (true, i2) p q hchain2 hinv2 hq2

/-- A scan hit is a visible child. -/
theorem scanAfterStep_vis (u : VTree) (s st : Step)
    (h : scanAfterStep u s = some st) : stepVisP u st := by
  rcases s with ⟨b, n⟩
  cases b
  case false =>
    simp only [scanAfterStep] at h
    cases h2 : scanItemsFrom u.items (n + 1) with
    | none => rw [h2] at h; simp at h
    | some k =>
      rw [h2] at h
      obtain rfl := Option.some.inj h
      exact (scanItemsFrom_some u.items (n + 1) k h2).2.1
  case true =>
    simp only [scanAfterStep] at h
    cases h2 : scanFoldersFrom u.subf (n + 1) with
    | some j =>
      rw [h2] at h
      obtain rfl := Option.some.inj h
      have := (scanFoldersFrom_some u.subf (n + 1) j h2).2.1
      simp only [stepVisP]
      simp only [visF] at this
      cases hg : u.subf.getF j with
      | none => rw [hg] at this; simp at this
      | some c =>
        rw [hg] at this
        exact ⟨c, rfl, this⟩
    | none =>
      rw [h2] at h
      cases h3 : scanItemsFrom u.items 0 with
      | none => rw [h3] at h; simp at h
      | some k =>
        rw [h3] at h
        obtain rfl := Option.some.inj h
        exact (scanItemsFrom_some u.items 0 k h3).2.1

/-- The first visible child is a visible child. -/
theorem firstVisibleChild_vis (u : VTree) (st : Step)
    (h : firstVisibleChild u = some st) : stepVisP u st := by
  simp only [firstVisibleChild] at h
  cases h2 : scanFoldersFrom u.subf 0 with
  | some j =>
    rw [h2] at h
    obtain rfl := Option.some.inj h
    have := (scanFoldersFrom_some u.subf 0 j h2).2.1
    simp only [stepVisP]
    simp only [visF] at this
    cases hg : u.subf.getF j with
    | none => rw [hg] at this; simp at this
    | some c =>
      rw [hg] at this
      exact ⟨c, rfl, this⟩
  | none =>
    rw [h2] at h
    cases h3 : scanItemsFrom u.items 0 with
    | none => rw [h3] at h; simp at h
    | some k =>
      rw [h3] at h
      obtain rfl := Option.some.inj h
      exact (scanItemsFrom_some u.items 0 k h3).2.1

/-- A visible child of a looked-up folder is a visible node. -/
theorem getVisibleAt_of_stepVis (t : VTree) (a : List Step) (u : VTree) (st : Step)
    (hu : getNodeV t a = some u) (h : stepVisP u st) :
    getVisibleAt t (a ++ [st]) = true := by
  rw [getVisibleAt_append a t u [st] hu]
  rcases st with ⟨b, n⟩
  cases b
  case false =>
    simpa [getVisibleAt] using h
  case true =>
    obtain ⟨c, hg, hv⟩ := h
    rcases u with ⟨v, o, subf, items⟩
    simpa [getVisibleAt, hg] using hv

/-- The punting chain lands on a visible node. -/
theorem nfcNext_vis (t : VTree) : ∀ (rpp : List Step) (s : Step) (q : List Step),
    nfcNext t rpp s = some q → getVisibleAt t q = true
  | [], s, q, hq => by
    rw [nfcNext_eq] at hq
    cases hu : getNodeV t (List.reverse ([] : List Step)) with
    | none => rw [hu] at hq; simp at hq
    | some u =>
      rw [hu] at hq
      dsimp only at hq
      cases hscan : scanAfterStep u s with
      | none => rw [hscan] at hq; simp at hq
      | some st =>
        rw [hscan] at hq
        obtain rfl := Option.some.inj hq
        exact getVisibleAt_of_stepVis t _ u st hu (scanAfterStep_vis u s st hscan)
  | s2 :: rpp2, s, q, hq => by
    rw [nfcNext_eq] at hq
    cases hu : getNodeV t ((s2 :: rpp2).reverse) with
    | none => rw [hu] at hq; simp at hq
    | some u =>
      rw [hu] at hq
      dsimp only at hq
      cases hscan : scanAfterStep u s with
      | none =>
        rw [hscan] at hq
        exact nfcNext_vis t rpp2 s2 q hq
      | some st =>
        rw [hscan] at hq
        obtain rfl := Option.some.inj hq
        exact getVisibleAt_of_stepVis t _ u st hu (scanAfterStep_vis u s st hscan)

/-- The next-visible advance lands on a visible node. -/
theorem advanceNextR_vis (t : VTree) (r q : List Step)
    (hq : advanceNextR t r = some q) : getVisibleAt t q = true := by
  cases r with
  | nil => simp [advanceNextR] at hq
  | cons s rpp =>
    rcases s with ⟨b, i⟩
    cases b
    case false => exact nfcNext_vis t rpp (false, i) q hq
    case true =>
      have hq2 : (match getNodeV t (rpp.reverse ++ [(true, i)]) with
          | some c =>
            if c.opn then
              match firstVisibleChild c with
              | some st => some ((rpp.reverse ++ [(true, i)]) ++ [st])
              | none => nfcNext t rpp (true, i)
            else nfcNext t rpp (true, i)
          | none => nfcNext t rpp (true, i)) = some q := hq
      cases hlook : getNodeV t (rpp.reverse ++ [(true, i)]) with
      | none =>
        rw [hlook] at hq2
        exact nfcNext_vis t rpp (true, i) q hq2
      | some c =>
        rw [hlook] at hq2
        dsimp only at hq2
        by_cases ho : c.opn = true
        · rw [if_pos ho] at hq2
          cases hfv : firstVisibleChild c with
          | none =>
            rw [hfv] at hq2
            exact nfcNext_vis t rpp (true, i) q hq2
          | some st =>
            rw [hfv] at hq2
            obtain rfl := Option.some.inj hq2
            exact getVisibleAt_of_stepVis t _ c st hlook (firstVisibleChild_vis c st hfv)
        · rw [if_neg ho] at hq2
          exact nfcNext_vis t rpp (true, i) q hq2

/-- A folder with no visible child is its own postfix-last node. -/
theorem lastVisible_of_empty (c : VTree) (base : List Step)
    (hsf : scanFoldersFrom c.subf 0 = none)
    (hsi : scanItemsFrom c.items 0 = none) :
    c.lastVisible base = base := by
  rcases c with ⟨v, o, subf, items⟩
  have hrib : scanItemsRevBelow items items.length = none := by
    apply scanItemsRevBelow_none
    intro x _
    exact scanItemsFrom_none items 0 hsi x (Nat.zero_le _)
  have hlb : subf.lastVisibleBelowF base 0 subf.lengthF = none := by
    apply lastVisibleBelowF_none
    intro m _
    exact scanFoldersFrom_none subf 0 hsf m (Nat.zero_le _)
  simp [VTree.lastVisible, hrib, hlb]

/-- Backing out of a folder entered at its first visible child returns
the folder itself. -/
theorem pfcPrev_of_firstVisible (t : VTree) (rpp : List Step) (i : Nat) (c : VTree)
    (st : Step) (hlook : getNodeV t (rpp.reverse ++ [(true, i)]) = some c)
    (hfv : firstVisibleChild c = some st) :
    pfcPrev t ((true, i) :: rpp) st = some (rpp.reverse ++ [(true, i)]) := by
  have hrev : ((true, i) :: rpp).reverse = rpp.reverse ++ [(true, i)] := by
    simp [List.reverse_cons]
  simp only [firstVisibleChild] at hfv
  cases h2 : scanFoldersFrom c.subf 0 with
  | some j =>
    rw [h2] at hfv
    obtain rfl := Option.some.inj hfv
    obtain ⟨_, _, hbelow⟩ := scanFoldersFrom_some c.subf 0 j h2
    have hlb : c.subf.lastVisibleBelowF (rpp.reverse ++ [(true, i)]) 0 j = none := by
      apply lastVisibleBelowF_none
      intro m hm
      exact hbelow m (Nat.zero_le _) (by omega)
    simp only [pfcPrev, hrev, hlook, hlb]
  | none =>
    rw [h2] at hfv
    cases h3 : scanItemsFrom c.items 0 with
    | none => rw [h3] at hfv; simp at hfv
    | some k =>
      rw [h3] at hfv
      obtain rfl := Option.some.inj hfv
      obtain ⟨_, _, hbelow⟩ := scanItemsFrom_some c.items 0 k h3
      have hrib : scanItemsRevBelow c.items k = none := by
        apply scanItemsRevBelow_none
        intro x hx
        exact hbelow x (Nat.zero_le _) hx
      have hlb : c.subf.lastVisibleBelowF (rpp.reverse ++ [(true, i)]) 0 c.subf.lengthF = none := by
        apply lastVisibleBelowF_none
        intro m _
        exact scanFoldersFrom_none c.subf 0 h2 m (Nat.zero_le _)
      simp only [pfcPrev, hrev, hlook, hrib, hlb]

/-- One forward advance followed by one backward advance returns to
the starting node. -/
theorem advanceNextR_prev (t : VTree) (p q : List Step)
    (hchain : onChain t p = true)
    (hq : advanceNextR t p.reverse = some q) :
    advancePrevR t q.reverse = some p := by
  cases hr : p.reverse with
  | nil =>
    rw [hr] at hq
    simp [advanceNextR] at hq
  | cons s rpp =>
    have hp : p = rpp.reverse ++ [s] := by
      have h2 := congrArg List.reverse hr
      simpa [List.reverse_cons] using h2
    rw [hr] at hq
    rcases s with ⟨b, i⟩
    cases b
    case false =>
      have hq2 : nfcNext t rpp (false, i) = some q := hq
      rw [hp]
      apply nfcNext_prev t rpp (false, i) _ q ?_ ?_ hq2
      · rw [← hp]; exact hchain
      · simp [childLast]
    case true =>
      obtain ⟨u2, hu2, hfacts2⟩ := onChain_facts rpp.reverse t (true, i) []
        (by rw [hp] at hchain; simpa using hchain)
      obtain ⟨c, hci, hcv, _⟩ := hfacts2
      have hlook : getNodeV t (rpp.reverse ++ [(true, i)]) = some c :=
        getNodeV_step t rpp.reverse u2 c i hu2 hci
      have hq2 : (match getNodeV t (rpp.reverse ++ [(true, i)]) with
          | some c =>
            if c.opn then
              match firstVisibleChild c with
              | some st => some ((rpp.reverse ++ [(true, i)]) ++ [st])
              | none => nfcNext t rpp (true, i)
            else nfcNext t rpp (true, i)
          | none => nfcNext t rpp (true, i)) = some q := hq
      rw [hlook] at hq2
      dsimp only at hq2
      by_cases ho : c.opn = true
      · rw [if_pos ho] at hq2
        cases hfv : firstVisibleChild c with
        | some st =>
          rw [hfv] at hq2
          obtain rfl := Option.some.inj hq2
          rw [List.reverse_append, List.reverse_append, List.reverse_reverse]
          have hgoal := pfcPrev_of_firstVisible t rpp i c st hlook hfv
          rw [hp]
          simpa [advancePrevR] using hgoal
        | none =>
          rw [hfv] at hq2
          simp only [firstVisibleChild] at hfv
          have hsf : scanFoldersFrom c.subf 0 = none := by
            cases h2 : scanFoldersFrom c.subf 0 with
            | some j => rw [h2] at hfv; simp at hfv
            | none => rfl
          have hsi : scanItemsFrom c.items 0 = none := by
            rw [hsf] at hfv
            cases h3 : scanItemsFrom c.items 0 with
            | some k => rw [h3] at hfv; simp at hfv
            | none => rfl
          rw [hp]
          apply nfcNext_prev t rpp (true, i) _ q ?_ ?_ hq2
          · rw [← hp]; exact hchain
          · rw [childLast]
            simp only [hlook, if_pos ho]
            exact (lastVisible_of_empty c (rpp.reverse ++ [(true, i)]) hsf hsi).symm
      · rw [if_neg ho] at hq2
        rw [hp]
        apply nfcNext_prev t rpp (true, i) _ q ?_ ?_ hq2
        · rw [← hp]; exact hchain
        · rw [childLast]
          simp [hlook, ho]

/-- A reachable node is visible. -/
theorem onChain_visAt : ∀ (t : VTree) (p : List Step), onChain t p = true →
    getVisibleAt t p = true
  | t, [], h => h
  | t, (false, j) :: p2, h => by
    simp only [onChain] at h
    obtain ⟨h1, h2⟩ := Bool.and_eq_true _ _ ▸ h
    obtain ⟨h3, h4⟩ := Bool.and_eq_true _ _ ▸ h1
    have hp : p2 = [] := by simpa [List.isEmpty_iff] using h4
    subst hp
    simpa [getVisibleAt] using h2
  | t, (true, i) :: p2, h => by
    simp only [onChain] at h
    obtain ⟨h1, h2⟩ := Bool.and_eq_true _ _ ▸ h
    cases hg : t.subf.getF i with
    | none => rw [hg] at h2; simp at h2
    | some c =>
      rw [hg] at h2
      obtain ⟨h3, h4⟩ := Bool.and_eq_true _ _ ▸ h2
      simp only [getVisibleAt, hg]
      exact onChain_visAt c p2 h4

/-- The folder above the addressed node of a reachable path is
visible. -/
theorem onChain_node_vis : ∀ (a : List Step) (t : VTree) (s : Step) (u : VTree),
    onChain t (a ++ [s]) = true → getNodeV t a = some u → u.vis = true
  | [], t, s, u, h, hu => by
    have : t = u := Option.some.inj hu
    subst this
    exact onChain_vis_head t _ h
  | (true, i) :: a, t, s, u, h, hu => by
    simp only [List.cons_append, onChain] at h
    obtain ⟨h1, h2⟩ := Bool.and_eq_true _ _ ▸ h
    cases hg : t.subf.getF i with
    | none => rw [hg] at h2; simp at h2
    | some c =>
      rw [hg] at h2
      obtain ⟨h3, h4⟩ := Bool.and_eq_true _ _ ▸ h2
      simp only [getNodeV, hg] at hu
      exact onChain_node_vis a c s u h4 hu
  | (false, j) :: a, t, s, u, h, hu => by
    simp only [List.cons_append, onChain] at h
    obtain ⟨h1, h2⟩ := Bool.and_eq_true _ _ ▸ h
    obtain ⟨h3, h4⟩ := Bool.and_eq_true _ _ ▸ h1
    simp [List.isEmpty_iff] at h4

/-- The wrappers unfold for a non-root node. -/
theorem getNextOpenNode_eq (t : VTree) (p : List Step) (fuel : Nat) (hne : p ≠ []) :
    getNextOpenNode t p fuel = nextLoop t p fuel (advanceNextR t p.reverse) := by
  cases p with
  | nil => exact absurd rfl hne
  | cons a b => rfl

theorem getPreviousOpenNode_eq (t : VTree) (p : List Step) (fuel : Nat) (hne : p ≠ []) :
    getPreviousOpenNode t p fuel = prevLoop t p fuel (advancePrevR t p.reverse) := by
  cases p with
  | nil => exact absurd rfl hne
  | cons a b => rfl

/-- The skip loops stop at once on a visible node, and propagate a
dead end. -/
theorem nextLoop_of_vis (t : VTree) (orig q : List Step) (fuel : Nat)
    (hv : getVisibleAt t q = true) : nextLoop t orig fuel (some q) = some q := by
  cases fuel with
  | zero => rfl
  | succ f => simp [nextLoop, hv]

theorem nextLoop_none (t : VTree) (orig : List Step) (fuel : Nat) :
    nextLoop t orig fuel none = none := by
  cases fuel <;> rfl

theorem prevLoop_of_vis (t : VTree) (orig q : List Step) (fuel : Nat)
    (hv : getVisibleAt t q = true) : prevLoop t orig fuel (some q) = some q := by
  cases fuel with
  | zero => rfl
  | succ f => simp [prevLoop, hv]

/-- `getPreviousFromChild` always produces a node once the parent
exists. -/
theorem pfcPrev_some (t : VTree) (rpp : List Step) (s : Step) (u : VTree)
    (hu : getNodeV t rpp.reverse = some u) :
    ∃ r, pfcPrev t rpp s = some r := by
  rcases s with ⟨b, n⟩
  cases b
  case false =>
    simp only [pfcPrev, hu]
    cases scanItemsRevBelow u.items n with
    | some k => exact ⟨_, rfl⟩
    | none =>
      cases u.subf.lastVisibleBelowF rpp.reverse 0 u.subf.lengthF with
      | some r => exact ⟨r, rfl⟩
      | none => exact ⟨_, rfl⟩
  case true =>
    simp only [pfcPrev, hu]
    cases u.subf.lastVisibleBelowF rpp.reverse 0 n with
    | some r => exact ⟨r, rfl⟩
    | none => exact ⟨_, rfl⟩

/-- Shape of a reverse folder-scan result. -/
theorem lastVisibleBelowF_shape3 (ts : VForest) (base : List Step) (idx bound : Nat)
    (r : List Step) (h : ts.lastVisibleBelowF base idx bound = some r) :
    ∃ m ext, idx + m < bound ∧ r = base ++ (true, idx + m) :: ext := by
  obtain ⟨m, c, hg, hv, hb, hr⟩ := lastVisibleBelowF_elim ts base idx bound r h
  by_cases ho : c.opn = true
  · rw [if_pos ho] at hr
    obtain ⟨ext, he⟩ := lastVisible_shape c (base ++ [(true, idx + m)])
    refine ⟨m, ext, hb, ?_⟩
    rw [hr, he, List.append_assoc]
    rfl
  · rw [if_neg ho] at hr
    exact ⟨m, [], hb, by rw [hr]⟩

/-- The backward walk never returns the node it started from. -/
theorem pfcPrev_ne (t : VTree) (rpp : List Step) (s : Step) (r : List Step)
    (h : pfcPrev t rpp s = some r) : r ≠ rpp.reverse ++ [s] := by
  have hlen : (rpp.reverse ++ [s]).length = rpp.length + 1 := by simp
  cases hu : getNodeV t rpp.reverse with
  | none => simp [pfcPrev, hu] at h
  | some u =>
    rcases s with ⟨b, n⟩
    cases b
    case false =>
      simp only [pfcPrev, hu] at h
      cases hrib : scanItemsRevBelow u.items n with
      | some k =>
        rw [hrib] at h
        obtain rfl := (Option.some.inj h).symm
        obtain ⟨_, hk⟩ := scanItemsRevBelow_elim u.items n k hrib
        intro he
        have h2 : [((false, k) : Step)] = [((false, n) : Step)] :=
          List.append_cancel_left he
        have h3 : k = n := by
          have := List.cons.inj h2
          exact congrArg Prod.snd this.1
        omega
      | none =>
        rw [hrib] at h
        cases hlb : u.subf.lastVisibleBelowF rpp.reverse 0 u.subf.lengthF with
        | some r2 =>
          rw [hlb] at h
          obtain rfl := (Option.some.inj h).symm
          obtain ⟨m, ext, _, hr⟩ :=
            lastVisibleBelowF_shape3 u.subf rpp.reverse 0 u.subf.lengthF _ hlb
          rw [hr]
          intro he
          have h2 := List.append_cancel_left he
          exact absurd (List.cons.inj h2).1 (by simp)
        | none =>
          rw [hlb] at h
          obtain rfl := (Option.some.inj h).symm
          intro he
          have := congrArg List.length he
          simp at this
    case true =>
      simp only [pfcPrev, hu] at h
      cases hlb : u.subf.lastVisibleBelowF rpp.reverse 0 n with
      | some r2 =>
        rw [hlb] at h
        obtain rfl := (Option.some.inj h).symm
        obtain ⟨m, ext, hm, hr⟩ :=
          lastVisibleBelowF_shape3 u.subf rpp.reverse 0 n _ hlb
        rw [hr]
        intro he
        have h2 := List.append_cancel_left he
        have h3 := List.cons.inj h2
        have h4 : m = n := by
          have := congrArg Prod.snd h3.1
          simpa using this
        omega
      | none =>
        rw [hlb] at h
        obtain rfl := (Option.some.inj h).symm
        intro he
        have := congrArg List.length he
        simp at this

/-- The backward walk lands on a visible node when the parent is
visible. -/
theorem pfcPrev_vis (t : VTree) (rpp : List Step) (s : Step) (u : VTree) (r : List Step)
    (hu : getNodeV t rpp.reverse = some u) (hvis : u.vis = true)
    (h : pfcPrev t rpp s = some r) : getVisibleAt t r = true := by
  have hyp : ∀ m c, u.subf.getF m = some c →
      getNodeV t (rpp.reverse ++ [(true, 0 + m)]) = some c := by
    intro m c hm
    simpa using getNodeV_step t rpp.reverse u c m hu hm
  rcases s with ⟨b, n⟩
  cases b
  case false =>
    simp only [pfcPrev, hu] at h
    cases hrib : scanItemsRevBelow u.items n with
    | some k =>
      rw [hrib] at h
      obtain rfl := (Option.some.inj h).symm
      obtain ⟨hik, _⟩ := scanItemsRevBelow_elim u.items n k hrib
      exact getVisibleAt_of_stepVis t rpp.reverse u (false, k) hu hik
    | none =>
      rw [hrib] at h
      cases hlb : u.subf.lastVisibleBelowF rpp.reverse 0 u.subf.lengthF with
      | some r2 =>
        rw [hlb] at h
        obtain rfl := (Option.some.inj h).symm
        exact lastVisibleBelowF_vis t u.subf rpp.reverse 0 u.subf.lengthF hyp _ hlb
      | none =>
        rw [hlb] at h
        obtain rfl := (Option.some.inj h).symm
        rw [getVisibleAt_node rpp.reverse t u hu]
        exact hvis
  case true =>
    simp only [pfcPrev, hu] at h
    cases hlb : u.subf.lastVisibleBelowF rpp.reverse 0 n with
    | some r2 =>
      rw [hlb] at h
      obtain rfl := (Option.some.inj h).symm
      exact lastVisibleBelowF_vis t u.subf rpp.reverse 0 n hyp _ hlb
    | none =>
      rw [hlb] at h
      obtain rfl := (Option.some.inj h).symm
      rw [getVisibleAt_node rpp.reverse t u hu]
      exact hvis

/-- C7: for a reachable visible node from which the next-visible walk
moves somewhere (which covers every such node except the structurally
last one), walking forward with `getNextOpenNode` and then backward
with `getPreviousOpenNode` returns exactly the original node,
independently of the loop fuel. -/
theorem navigation_round_trip (t : VTree) (p q : List Step) (fuelN fuelP : Nat)
    (hp : onChain t p = true)
    (hnext : getNextOpenNode t p fuelN = some q) :
    getPreviousOpenNode t q fuelP = some p := by
  have hne : p ≠ [] := by
    intro h
    subst h
    simp [getNextOpenNode] at hnext
  rw [getNextOpenNode_eq t p fuelN hne] at hnext
  cases ha : advanceNextR t p.reverse with
  | none => rw [ha, nextLoop_none] at hnext; exact absurd hnext (by simp)
  | some q0 =>
    rw [ha, nextLoop_of_vis t p q0 fuelN (advanceNextR_vis t p.reverse q0 ha)] at hnext
    obtain rfl := Option.some.inj hnext
    have hprev := advanceNextR_prev t p q0 hp ha
    have hqne : q0 ≠ [] := by
      intro h
      subst h
      simp [advancePrevR] at hprev
    rw [getPreviousOpenNode_eq t q0 fuelP hqne, hprev,
      prevLoop_of_vis t q0 p fuelP (onChain_visAt t p hp)]

/-- Witness tree for C7: a visible open root holding a visible open
folder with one visible item, plus a root-level visible item. -/
def witNavTree : VTree :=
  .mk true true (.cons (.mk true true .nil [true]) .nil) [true]

/-- Concrete witness for C7: the next node after the folder `[(true,
0)]` is its item, and walking back returns the folder. -/
theorem navigation_round_trip_witness :
    onChain witNavTree [(true, 0)] = true ∧
    getNextOpenNode witNavTree [(true, 0)] 5 = some [(true, 0), (false, 0)] ∧
    getPreviousOpenNode witNavTree [(true, 0), (false, 0)] 5 = some [(true, 0)] :=
  ⟨by decide, by decide,
   navigation_round_trip witNavTree [(true, 0)] [(true, 0), (false, 0)] 5 5
     (by decide) (by decide)⟩

/-- C8 (amended): the walks return null exactly at the true structural
edges — when invoked on the parentless tree root, and when the
next-visible walk finds nothing after the node.  The previous-visible
walk of a reachable non-root node never returns null and never
returns the original node: with nothing above, it climbs to an
ancestor folder (ultimately the tree root itself), rather than
signalling "no movement possible" with the original node. -/
theorem navigation_edges (t : VTree) (fuel : Nat) :
    getNextOpenNode t [] fuel = none ∧
    getPreviousOpenNode t [] fuel = none ∧
    (∀ p : List Step, advanceNextR t p.reverse = none → getNextOpenNode t p fuel = none) ∧
    (∀ p : List Step, onChain t p = true → p ≠ [] →
      ∃ r, getPreviousOpenNode t p fuel = some r ∧ r ≠ p) := by
  refine ⟨rfl, rfl, ?_, ?_⟩
  · intro p hp
    cases p with
    | nil => rfl
    | cons a b =>
      rw [getNextOpenNode_eq t _ fuel (by simp), hp, nextLoop_none]
  · intro p hchain hne
    cases hr : p.reverse with
    | nil =>
      exfalso
      apply hne
      have := congrArg List.reverse hr
      simpa using this
    | cons s rpp =>
      have hp : p = rpp.reverse ++ [s] := by
        have h2 := congrArg List.reverse hr
        simpa [List.reverse_cons] using h2
      have hchain2 : onChain t (rpp.reverse ++ s :: []) = true := by
        rw [hp] at hchain
        simpa using hchain
      obtain ⟨u, hu, _⟩ := onChain_facts rpp.reverse t s [] hchain2
      have hvisu : u.vis = true := onChain_node_vis rpp.reverse t s u hchain2 hu
      obtain ⟨r, hr2⟩ := pfcPrev_some t rpp s u hu
      have hvisr := pfcPrev_vis t rpp s u r hu hvisu hr2
      have hner := pfcPrev_ne t rpp s r hr2
      refine ⟨r, ?_, by rw [hp]; exact hner⟩
      rw [getPreviousOpenNode_eq t p fuel hne]
      have hav : advancePrevR t p.reverse = some r := by
        rw [hr]
        exact hr2
      rw [hav, prevLoop_of_vis t p r fuel hvisr]

/-- Counterexample tree for C8: a visible open root with a single
visible closed child folder. -/
def cexNavTree : VTree :=
  .mk true true (.cons (.mk true false .nil []) .nil) []

/-- C8 counterexample: the single child folder has no next visible
node at all, yet `getNextOpenNode` returns null rather than the
original node; and it has no previous visible sibling, yet
`getPreviousOpenNode` returns the tree root — not null and not the
original node. -/
theorem navigation_edges_counterexample :
    getNextOpenNode cexNavTree [(true, 0)] 5 = none ∧
    getPreviousOpenNode cexNavTree [(true, 0)] 5 = some [] ∧
    ([] : List Step) ≠ [(true, 0)] := by
  decide

/-- Concrete witness for C8, applying the edge theorem at the
counterexample tree and instantiating the previous-walk clause at the
child folder. -/
theorem navigation_edges_witness :
    getNextOpenNode cexNavTree [] 5 = none ∧
    (∃ r, getPreviousOpenNode cexNavTree [(true, 0)] 5 = some r ∧ r ≠ [(true, 0)]) :=
  ⟨(navigation_edges cexNavTree 5).1,
   (navigation_edges cexNavTree 5).2.2.2 [(true, 0)] (by decide) (by decide)⟩

end Navigate
